import Mathlib

/-!
Shallow embedding of the region-segmentation / distance-field engine of the
`cue` repository (TypeScript), together with proofs of the specification
claims about it.

Numeric convention: JavaScript numbers are embedded as exact rationals `ℚ`
(integer indices as `ℕ`/`ℤ`).  Array reads that may fall outside a buffer
(returning `undefined` in JavaScript, which propagates as `NaN` through
arithmetic and makes every `<` comparison false) are embedded as `Option`
values.  `Math.sqrt` is kept abstract where the code path under study never
evaluates it.
-/

set_option maxHeartbeats 1000000
set_option maxRecDepth 1000000

namespace Cue

/-! ## Tile grid — `src/sketch/tiledRenderer.ts` -/
/-- Tile description, as in `tiledRenderer.ts`: pixel offset `(x, y)` in the
full image, pixel size `width × height`, and grid coordinates
`(tileX, tileY)`. -/
structure TileInfo where
  x : ℕ
  y : ℕ
  width : ℕ
  height : ℕ
  tileX : ℕ
  tileY : ℕ
deriving DecidableEq

/-- JavaScript `Math.ceil(a / b)` for natural `a, b`. -/
def jsCeilDiv (a b : ℕ) : ℕ := (a + b - 1) / b

/-- Embedding of `calculateTileGrid` from `tiledRenderer.ts`: a row-major
list of tiles, each of size `min maxTileSize remaining`. -/
def calculateTileGrid (fullWidth fullHeight maxTileSize : ℕ) : List TileInfo :=
  let tilesX := jsCeilDiv fullWidth maxTileSize
  let tilesY := jsCeilDiv fullHeight maxTileSize
  (List.range tilesY).flatMap fun ty =>
    (List.range tilesX).map fun tx =>
      { x := tx * maxTileSize
        y := ty * maxTileSize
        width := min maxTileSize (fullWidth - tx * maxTileSize)
        height := min maxTileSize (fullHeight - ty * maxTileSize)
        tileX := tx
        tileY := ty }

/-- Pixel `(px, py)` lies inside tile `t`. -/
def TileInfo.containsPx (t : TileInfo) (px py : ℕ) : Prop :=
  t.x ≤ px ∧ px < t.x + t.width ∧ t.y ≤ py ∧ py < t.y + t.height

instance (t : TileInfo) (px py : ℕ) : Decidable (t.containsPx px py) := by
  unfold TileInfo.containsPx; infer_instance

/-! ## Boundary extraction — `extractBoundaries` in `src/sdf.ts` -/
/-- Read index `i` of a JavaScript array: out of range gives `undefined`,
embedded as `none`. -/
def jsRead (buf : List ℚ) (i : ℕ) : Option ℚ := buf.get? i

/-- The brightness `(r + g + b) / 3` of pixel `i` of an RGBA buffer; `none`
when any of the three reads is out of range (`NaN` in JavaScript). -/
def pixelBrightness (buf : List ℚ) (i : ℕ) : Option ℚ :=
  match jsRead buf (i * 4), jsRead buf (i * 4 + 1), jsRead buf (i * 4 + 2) with
  | some r, some g, some b => some ((r + g + b) / 3)
  | _, _, _ => none

/-- JavaScript `<` between a possibly-`NaN` number and a number: any
comparison with `NaN` is false. -/
def jsLtOpt (x : Option ℚ) (t : ℚ) : Bool :=
  match x with
  | some v => decide (v < t)
  | none => false

/-- Embedding of `extractBoundaries` from `sdf.ts`: pixel `i` is a boundary
pixel iff its brightness is strictly below the threshold. -/
def extractBoundaries (linePixels : List ℚ) (width height : ℕ) (threshold : ℚ) :
    List Bool :=
  (List.range (width * height)).map fun i => jsLtOpt (pixelBrightness linePixels i) threshold

/-- The default value of the `threshold` parameter of `extractBoundaries`. -/
def defaultThreshold : ℚ := 50

/-- Call of `extractBoundaries` with the defaulted threshold. -/
def extractBoundariesDefault (linePixels : List ℚ) (width height : ℕ) : List Bool :=
  extractBoundaries linePixels width height defaultThreshold

/-! ## Distance-field accessors — `getDistance`, `getDistanceSquared` in `src/sdf.ts` -/
/-- A computed distance field: squared distances indexed by `y * width + x`. -/
structure DistanceField where
  data : ℕ → ℚ
  width : ℕ
  height : ℕ

/-- Embedding of `getDistanceSquared`: out-of-bounds coordinates return `0`. -/
def getDistanceSquared (field : DistanceField) (x y : ℤ) : ℚ :=
  if x < 0 ∨ (field.width : ℤ) ≤ x ∨ y < 0 ∨ (field.height : ℤ) ≤ y then 0
  else field.data (y * field.width + x).toNat

/-- Embedding of `getDistance`.  `Math.sqrt` is abstracted as a parameter
`sqrt`; the out-of-bounds branch returns `0` before any square root is
taken, exactly as in the source. -/
def getDistance (sqrt : ℚ → ℚ) (field : DistanceField) (x y : ℤ) : ℚ :=
  if x < 0 ∨ (field.width : ℤ) ≤ x ∨ y < 0 ∨ (field.height : ℤ) ≤ y then 0
  else sqrt (field.data (y * field.width + x).toNat)

/-! ## Shader uniform packing — `src/shaderRenderer.ts` -/
/-- Maximum line count supported by the shader uniform array. -/
def MAX_LINES : ℕ := 40

/-- Maximum circle count supported by the shader uniform array. -/
def MAX_CIRCLES : ℕ := 10

structure Point where
  x : ℚ
  y : ℚ
deriving DecidableEq

structure HSB where
  h : ℚ
  s : ℚ
  b : ℚ
deriving DecidableEq

structure LineConfig where
  start : Point
  «end» : Point
  color : HSB
  weight : ℚ
deriving DecidableEq

structure CircleConfig where
  center : Point
  radius : ℚ
  color : HSB
  weight : ℚ
deriving DecidableEq

/-- The `while (data.length < MAX_LINES * 4) data.push(0, 0, 0, 0)` padding
loop of `packLinesForShader`. -/
def padLines (l : List ℚ) : List ℚ :=
  if h : l.length < MAX_LINES * 4 then padLines (l ++ [0, 0, 0, 0]) else l
termination_by MAX_LINES * 4 - l.length
decreasing_by simp at h ⊢; omega

/-- The `while (data.length < MAX_CIRCLES * 3) data.push(0, 0, 0)` padding
loop of `packCirclesForShader`. -/
def padCircles (l : List ℚ) : List ℚ :=
  if h : l.length < MAX_CIRCLES * 3 then padCircles (l ++ [0, 0, 0]) else l
termination_by MAX_CIRCLES * 3 - l.length
decreasing_by simp at h ⊢; omega

/-- Embedding of `packLinesForShader`: the first `min count MAX_LINES` lines
as flat `[x1, y1, x2, y2]` quadruples, padded with zeros. -/
def packLinesForShader (lines : List LineConfig) : List ℚ :=
  let count := min lines.length MAX_LINES
  let data := (lines.take count).flatMap fun l => [l.start.x, l.start.y, l.«end».x, l.«end».y]
  padLines data

/-- Embedding of `packCirclesForShader`: the first `min count MAX_CIRCLES`
circles as flat `[cx, cy, r]` triples, padded with zeros. -/
def packCirclesForShader (circles : List CircleConfig) : List ℚ :=
  let count := min circles.length MAX_CIRCLES
  let data := (circles.take count).flatMap fun c => [c.center.x, c.center.y, c.radius]
  padCircles data

/-! ## Distance transform — `calculateDistanceField` in `src/sdf.ts`

The two passes of Meijster's algorithm.  Boundary masks are embedded as
functions `ℕ → Bool` over the flat pixel index `y * width + x`, exactly as
the `Uint8Array` of the source; all arithmetic is exact rational arithmetic.
The scan loop of `processRows` reads the `t[q+1] = INF` sentinel only to
stop at the top of the envelope, which for any image narrower than `INF`
pixels is equivalent to the explicit stack-top test used here. -/
/-- The `INF = 1e10` sentinel of `sdf.ts`. -/
def INF : ℚ := 10 ^ 10

/-- Forward sweep of `processColumns` down column `x`: a running distance,
reset to `0` at boundary cells, starting from `INF` (no boundary seen). -/
def fwdG (bnd : ℕ → Bool) (w x : ℕ) : ℕ → ℚ
  | 0 => if bnd x then 0 else INF
  | y + 1 => if bnd ((y + 1) * w + x) then 0 else fwdG bnd w x y + 1

/-- Backward sweep of `processColumns`, bottom row upwards; `j` counts rows
up from the bottom (`j = 0` is row `h - 1`, which the loop never updates). -/
def bwdAux (f : ℕ → ℚ) (h : ℕ) : ℕ → ℚ
  | 0 => f (h - 1)
  | j + 1 =>
    if bwdAux f h j < f (h - 1 - (j + 1)) then bwdAux f h j + 1 else f (h - 1 - (j + 1))

/-- Column-pass value (before squaring) at row `y`. -/
def bwdG (f : ℕ → ℚ) (h y : ℕ) : ℚ := bwdAux f h (h - 1 - y)

/-- The squared vertical distances `g` produced by `processColumns`. -/
def colG (bnd : ℕ → Bool) (w h x y : ℕ) : ℚ :=
  bwdG (fwdG bnd w x) h y * bwdG (fwdG bnd w x) h y

/-- The parabola-intersection formula `computeIntersection` of `sdf.ts`. -/
def computeIntersection (p1 v1 p2 v2 : ℚ) : ℚ :=
  (p2 * p2 - p1 * p1 + v2 - v1) / (2 * (p2 - p1))

/-- One iteration of the envelope loop of `processRows` for column `u`:
pop dominated parabolas (`while q > 0 and intersection ≤ t[q]`), then push
`u`.  The stack holds `(position, intersection)` pairs topmost first; the
bottom entry is `(0, -INF)` and is never popped. -/
def pushParabola (g : ℕ → ℚ) (u : ℕ) : List (ℕ × ℚ) → List (ℕ × ℚ)
  | [] => []
  | [(p, t)] => (u, computeIntersection p (g p) u (g u)) :: [(p, t)]
  | (p, t) :: p2 :: rest =>
    let xi := computeIntersection p (g p) u (g u)
    if xi ≤ t then pushParabola g u (p2 :: rest)
    else (u, xi) :: (p, t) :: p2 :: rest

/-- The parabola envelope of a row after processing columns `1 .. n`. -/
def envelope (g : ℕ → ℚ) (n : ℕ) : List (ℕ × ℚ) :=
  (List.range n).foldl (fun st i => pushParabola g (i + 1) st) [(0, -INF)]

/-- The `while (t[k+1] < u) k++` advance of the scan loop of `processRows`,
over the bottom-first envelope list `E`. -/
def advanceK (E : List (ℕ × ℚ)) (u : ℚ) (k : ℕ) : ℕ :=
  if h : k + 1 < E.length then
    if (E.get ⟨k + 1, h⟩).2 < u then advanceK E u (k + 1) else k
  else k
termination_by E.length - k

/-- The scan pointer `k` of `processRows` at column `u`; it is reset to `0`
at the start of each row and persists across the columns of the row. -/
def scanK (E : List (ℕ × ℚ)) : ℕ → ℕ
  | 0 => advanceK E 0 0
  | u + 1 => advanceK E ((u + 1 : ℕ) : ℚ) (scanK E u)

/-- Row-phase output of `processRows`:
`dt[row + u] = (u - s[k])² + g[s[k]]`. -/
def dtRow (g : ℕ → ℚ) (w u : ℕ) : ℚ :=
  let E := (envelope g (w - 1)).reverse
  let p := (E.getD (scanK E u) (0, -INF)).1
  ((u : ℚ) - p) * ((u : ℚ) - p) + g p

/-- Embedding of `calculateDistanceField`: the squared-distance value stored
at pixel `(x, y)` of the output `Float32Array`. -/
def calculateDistanceField (bnd : ℕ → Bool) (w h : ℕ) (x y : ℕ) : ℚ :=
  dtRow (fun u => colG bnd w h u y) w x

/-! ### Column-pass correctness -/
/-- Values occurring in the column pass are casts of naturals. -/
def IsNatQ (q : ℚ) : Prop := ∃ n : ℕ, q = (n : ℚ)

/-! ### Row-pass correctness: the lower envelope of parabolas

`processRows` computes, for each row and column `u`, the value
`min over v of (u - v)² + g v`.  The proof follows the classic envelope
invariant: after processing columns `0 .. n`, the stack describes a
partition of the real line into intervals on each of which the recorded
parabola is minimal among all processed parabolas. -/
/-- Value at abscissa `x` of the parabola with apex column `p`:
`(x - p)² + g p`. -/
def para (g : ℕ → ℚ) (p : ℕ) (x : ℚ) : ℚ := (x - (p : ℚ)) * (x - (p : ℚ)) + g p

/-- The intersection abscissa of the parabolas of columns `p1 < p2`, as
computed by `computeIntersection`. -/
def interPt (g : ℕ → ℚ) (p1 p2 : ℕ) : ℚ :=
  computeIntersection (p1 : ℚ) (g p1) (p2 : ℚ) (g p2)

/-- Envelope-stack invariant after processing parabolas `0 .. n`.  The list
is the stack of `processRows`, topmost entry first; `ub` is the right end
of the interval covered by the topmost entry (`none` for `+∞`).  Each entry
`(p, t)` records a column `p` and the intersection `t` with the entry below
it; on `[t, ub]` the parabola of `p` is minimal among all parabolas
`0 .. n`.  The bottom entry is column `0` and covers `(-∞, ub]`; its `t`
slot (the `-INF` sentinel of the source) is never read. -/
inductive Stk (g : ℕ → ℚ) (n : ℕ) : Option ℚ → List (ℕ × ℚ) → Prop where
  | bottom (ub : Option ℚ) (t : ℚ)
      (hcov : ∀ v, v ≤ n → ∀ x : ℚ, (∀ b, ub = some b → x ≤ b) →
        para g 0 x ≤ para g v x) :
      Stk g n ub [(0, t)]
  | node (ub : Option ℚ) (p : ℕ) (t : ℚ) (p2 : ℕ) (t2 : ℚ) (rest : List (ℕ × ℚ))
      (hlt : p2 < p) (hn : p ≤ n) (ht : t = interPt g p2 p)
      (hub : ∀ b, ub = some b → t < b)
      (hcov : ∀ v, v ≤ n → ∀ x : ℚ, t ≤ x → (∀ b, ub = some b → x ≤ b) →
        para g p x ≤ para g v x)
      (hrest : Stk g n (some t) ((p2, t2) :: rest)) :
      Stk g n ub ((p, t) :: (p2, t2) :: rest)

/-! ## Region segmentation — `src/regionFiller.ts`

The span-stack scanline flood fill.  The shallow embedding tracks, besides
the `visited` bitmap of the source, the region id assigned to each pixel
when it is filled (the source writes the region's color to the pixel at
exactly that moment; the color arithmetic feeds nothing back into the fill
control flow).  The unbounded `while (stack.length > 0)` loop is embedded
with an explicit fuel parameter; termination (claim C10) is the statement
that some fuel makes every run finish. -/
/-- A work item of the span stack. -/
structure Span where
  y : ℕ
  xLeft : ℕ
  xRight : ℕ
deriving DecidableEq

/-- The mutable state of `fillRegions`: the visited bitmap and the region
id each pixel was filled with (`none` = never filled). -/
structure FillState where
  visited : ℕ → Bool
  assign : ℕ → Option ℕ

/-- The `while (left > 0 && !visited[rowStart + left - 1]) left--` scan of
`findSpan`. -/
def scanLeft (visited : ℕ → Bool) (w y : ℕ) : ℕ → ℕ
  | 0 => 0
  | left + 1 => if visited (y * w + left) then left + 1 else scanLeft visited w y left

/-- The `while (right < width - 1 && !visited[rowStart + right + 1])
right++` scan of `findSpan`; the structural counter `w - 1 - right` is the
exact iteration bound of the loop, so the two agree on every input. -/
def scanRightAux (visited : ℕ → Bool) (w y : ℕ) : ℕ → ℕ → ℕ
  | 0, right => right
  | f + 1, right =>
    if right < w - 1 then
      if visited (y * w + right + 1) then right else scanRightAux visited w y f (right + 1)
    else right

def scanRight (visited : ℕ → Bool) (w y right : ℕ) : ℕ :=
  scanRightAux visited w y (w - 1 - right) right

/-- Embedding of `findSpan`: the maximal unvisited horizontal extent around
`(startX, y)`. -/
def findSpan (visited : ℕ → Bool) (w startX y : ℕ) : ℕ × ℕ :=
  (scanLeft visited w y startX, scanRight visited w y startX)

/-- The span-filling loop of `fillRegionWithSDF`: every not-yet-visited
pixel of the span is marked visited and assigned the region id (the source
writes the shaded region color to the pixel buffer at this moment). -/
def fillSpanAux (rid w y xRight : ℕ) : ℕ → ℕ → FillState → FillState
  | 0, _, st => st
  | f + 1, x, st =>
    if x ≤ xRight then
      let idx := y * w + x
      if st.visited idx then fillSpanAux rid w y xRight f (x + 1) st
      else
        fillSpanAux rid w y xRight f (x + 1)
          { visited := fun j => if j = idx then true else st.visited j
            assign := fun j => if j = idx then some rid else st.assign j }
    else st

def fillSpan (rid w y xRight x : ℕ) (st : FillState) : FillState :=
  fillSpanAux rid w y xRight (xRight + 1 - x) x st

/-- The `while (x <= xRight && !visited[rowStart + x]) x++` inner scan of
`addSpansForLine`. -/
def scanSpanEndAux (visited : ℕ → Bool) (w y xRight : ℕ) : ℕ → ℕ → ℕ
  | 0, x => x
  | f + 1, x =>
    if x ≤ xRight then
      if visited (y * w + x) then x else scanSpanEndAux visited w y xRight f (x + 1)
    else x

def scanSpanEnd (visited : ℕ → Bool) (w y xRight x : ℕ) : ℕ :=
  scanSpanEndAux visited w y xRight (xRight + 1 - x) x

/-- Embedding of `addSpansForLine`: scan `[x, xRight]` of row `y` for
unvisited sub-spans, extend each to its natural boundaries with `findSpan`
and push it.  The counter is the exact bound on the outer loop's trips
(`x` strictly increases by at least one per trip). -/
def addSpansForLineAux (visited : ℕ → Bool) (w y xRight : ℕ) :
    ℕ → ℕ → List Span → List Span
  | 0, _, stack => stack
  | f + 1, x, stack =>
    if x ≤ xRight then
      if visited (y * w + x) then addSpansForLineAux visited w y xRight f (x + 1) stack
      else
        addSpansForLineAux visited w y xRight f (scanSpanEnd visited w y xRight (x + 1))
          (⟨y, (findSpan visited w x y).1, (findSpan visited w x y).2⟩ :: stack)
    else stack

def addSpansForLine (visited : ℕ → Bool) (w y xRight x : ℕ) (stack : List Span) :
    List Span :=
  addSpansForLineAux visited w y xRight (xRight + 1 - x) x stack

/-- The `while (stack.length > 0)` loop of `fillRegionWithSDF`, with fuel;
the source loop has no a-priori bound, so termination is claim C10. -/
def fillLoop (w h rid : ℕ) : ℕ → List Span → FillState → Option FillState
  | _, [], st => some st
  | 0, _ :: _, _ => none
  | fuel + 1, span :: rest, st =>
    let st2 := fillSpan rid w span.y span.xRight span.xLeft st
    let stack2 := if 0 < span.y then
        addSpansForLine st2.visited w (span.y - 1) span.xRight span.xLeft rest
      else rest
    let stack3 := if span.y < h - 1 then
        addSpansForLine st2.visited w (span.y + 1) span.xRight span.xLeft stack2
      else stack2
    fillLoop w h rid fuel stack3 st2

/-- Embedding of `fillRegionWithSDF` (minus the color math): fill the whole
region of unvisited pixels containing `(startX, startY)`. -/
def fillRegionWithSDF (w h startX startY rid fuel : ℕ) (st : FillState) : Option FillState :=
  fillLoop w h rid fuel
    [⟨startY, (findSpan st.visited w startX startY).1,
      (findSpan st.visited w startX startY).2⟩] st

/-- The row-major scan of `fillRegions` over all pixels, with the running
next region id; the counter `rem` is the number of pixels left to scan. -/
def fillRegionsAux (w h fuel : ℕ) : ℕ → ℕ → ℕ → FillState → Option (FillState × ℕ)
  | 0, _, rid, st => some (st, rid)
  | rem + 1, idx, rid, st =>
    if idx < w * h then
      if st.visited idx then fillRegionsAux w h fuel rem (idx + 1) rid st
      else
        match fillRegionWithSDF w h (idx % w) (idx / w) rid fuel st with
        | none => none
        | some st2 => fillRegionsAux w h fuel rem (idx + 1) (rid + 1) st2
    else some (st, rid)

/-- Embedding of `fillRegions`: boundary pixels are pre-visited, then the
scan discovers and fills one region per first-unvisited pixel.  Returns the
final state and the number of regions discovered. -/
def fillRegions (bnd : ℕ → Bool) (w h fuel : ℕ) : Option (FillState × ℕ) :=
  fillRegionsAux w h fuel (w * h) 0 0
    { visited := fun i => decide (i < w * h) && bnd i
      assign := fun _ => none }

/-! ## Region colors texture — `updateColorsTexture` in `src/shaderRenderer.ts`
and `hsbToRgb` in the color utilities -/
structure RGB where
  r : ℤ
  g : ℤ
  b : ℤ
deriving DecidableEq

/-- Embedding of `hsbToRgb` (inputs in `[0, 1]`, so the switch scrutinee
`i % 6` is a non-negative JavaScript remainder, which coincides with `%`
on `ℤ` here). -/
def hsbToRgb (h s b : ℚ) : RGB :=
  let i : ℤ := ⌊h * 6⌋
  let f : ℚ := h * 6 - i
  let p : ℚ := b * (1 - s)
  let q : ℚ := b * (1 - f * s)
  let t : ℚ := b * (1 - (1 - f) * s)
  let rgb : ℚ × ℚ × ℚ :=
    if i % 6 = 0 then (b, t, p)
    else if i % 6 = 1 then (q, b, p)
    else if i % 6 = 2 then (p, b, t)
    else if i % 6 = 3 then (p, q, b)
    else if i % 6 = 4 then (t, p, b)
    else if i % 6 = 5 then (b, p, q)
    else (0, 0, 0)
  ⟨round (rgb.1 * 255), round (rgb.2.1 * 255), round (rgb.2.2 * 255)⟩

/-- Embedding of `hsbObjToRgb`. -/
def hsbObjToRgb (c : HSB) : RGB := hsbToRgb c.h c.s c.b

/-- One loop body of `updateColorsTexture`: write color `i` into its four
texture bytes. -/
def writeColor (colors : List HSB) (px : List ℤ) (i : ℕ) : List ℤ :=
  let rgb := hsbObjToRgb (colors.getD i ⟨0, 0, 0⟩)
  ((((px.set (i * 4) rgb.r).set (i * 4 + 1) rgb.g).set (i * 4 + 2) rgb.b).set
    (i * 4 + 3) 255)

/-- Embedding of `updateColorsTexture`: a 256×1 RGBA texture, initialized
to all zeros, then filled for `i < colors.length && i < 255` only. -/
def updateColorsTexture (colors : List HSB) : List ℤ :=
  (List.range (min colors.length 255)).foldl (writeColor colors)
    (List.replicate (256 * 4) 0)

/-- Byte `j` (0–3) of an RGBA texel holding color `c`. -/
def rgbComp (c : RGB) (j : ℕ) : ℤ :=
  if j = 0 then c.r else if j = 1 then c.g else if j = 2 then c.b else 255

/-! ### Termination of the span-stack flood fill -/
/-- Number of in-grid pixels not yet visited. -/
def unvis (w h : ℕ) (st : FillState) : ℕ :=
  ((Finset.range (w * h)).filter fun i => st.visited i = false).card

/-- Number of unvisited pixels inside a span. -/
def spanUnvisCount (w : ℕ) (st : FillState) (s : Span) : ℕ :=
  ((Finset.Icc s.xLeft s.xRight).filter fun t => st.visited (s.y * w + t) = false).card

/-- Termination measure for the span-stack loop: each iteration of
`fillLoop` strictly decreases it. -/
def fillMeasure (w h : ℕ) (stack : List Span) (st : FillState) : ℕ :=
  (4 * w + 2) * unvis w h st + stack.length +
    (match stack with
     | [] => 0
     | s :: _ => if spanUnvisCount w st s = 0 then 2 * w else 0)

/-! ### 4-connectivity and flood-fill region correctness -/
/-- Two in-grid pixels are 4-connected neighbours. -/
def Adjacent4 (w h x y x' y' : ℕ) : Prop :=
  x < w ∧ y < h ∧ x' < w ∧ y' < h ∧
    ((x' = x ∧ (y' = y + 1 ∨ y = y' + 1)) ∨ (y' = y ∧ (x' = x + 1 ∨ x = x' + 1)))

/-- Reachability from a seed pixel through 4-connected steps that stay
inside the set of pixels satisfying `free`. -/
inductive Conn (w h : ℕ) (free : ℕ → Prop) : ℕ → ℕ → ℕ → ℕ → Prop where
  | refl (x y : ℕ) : x < w → y < h → free (y * w + x) → Conn w h free x y x y
  | step (x y x' y' x'' y'' : ℕ) : Conn w h free x y x' y' →
      Adjacent4 w h x' y' x'' y'' → free (y'' * w + x'') → Conn w h free x y x'' y''

/-- The loop invariant of `fillLoop` relative to the state `st0` at the
start of a `fillRegionWithSDF` call with seed `(sx, sy)` and id `rid`. -/
structure FillInv (w h rid sx sy : ℕ) (st0 : FillState) (stack : List Span)
    (st : FillState) : Prop where
  mono : ∀ j, st0.visited j = true → st.visited j = true
  wf : ∀ s ∈ stack, s.y < h ∧ s.xLeft ≤ s.xRight ∧ s.xRight ≤ w - 1
  spans : ∀ s ∈ stack,
    (∀ t, s.xLeft ≤ t → t ≤ s.xRight → st0.visited (s.y * w + t) = false ∧
      Conn w h (fun i => st0.visited i = false) sx sy t s.y) ∧
    (s.xLeft = 0 ∨ st.visited (s.y * w + (s.xLeft - 1)) = true) ∧
    (w - 1 ≤ s.xRight ∨ st.visited (s.y * w + s.xRight + 1) = true)
  vischar : ∀ j, st.visited j = true → st0.visited j = true ∨ st.assign j = some rid
  assignchar : ∀ j, st.assign j = st0.assign j ∨
    (st0.visited j = false ∧ st.visited j = true ∧ st.assign j = some rid ∧
      ∃ x y, x < w ∧ y < h ∧ j = y * w + x ∧
        Conn w h (fun i => st0.visited i = false) sx sy x y)
  front : ∀ x y x' y', Adjacent4 w h x y x' y' → st.visited (y * w + x) = true →
    st0.visited (y * w + x) = false →
    st.visited (y' * w + x') = true ∨
      ∃ s ∈ stack, s.y = y' ∧ s.xLeft ≤ x' ∧ x' ≤ s.xRight

/-! ### `getMaxDistance`, `normalizeDistanceField` and the no-boundary
scenario (C6) -/
/-- The scan of `getMaxDistance` after examining indices `< n`: the running
maximum over values that are below the `INF` sentinel. -/
def getMaxAcc (data : ℕ → ℚ) : ℕ → ℚ
  | 0 => 0
  | n + 1 =>
    if getMaxAcc data n < data n ∧ data n < INF then data n else getMaxAcc data n

/-- Embedding of `getMaxDistance` (`Math.sqrt` abstract): square root of the
largest sub-sentinel value of the field data. -/
def getMaxDistance (sqrt : ℚ → ℚ) (field : DistanceField) : ℚ :=
  sqrt (getMaxAcc field.data (field.width * field.height))

/-- Embedding of `normalizeDistanceField`: the output array is allocated to
zeroes and is only written when `maxDist > 0`. -/
def normalizeDistanceField (sqrt : ℚ → ℚ) (field : DistanceField) : DistanceField :=
  { data := fun i =>
      if 0 < getMaxDistance sqrt field ∧ i < field.width * field.height then
        sqrt (field.data i) / getMaxDistance sqrt field
      else 0
    width := field.width
    height := field.height }

/-- The `DistanceField` record built by `calculateDistanceField`
(`dt[y * width + x]` holds the squared distance of pixel `(x, y)`). -/
def distanceFieldOf (bnd : ℕ → Bool) (w h : ℕ) : DistanceField :=
  { data := fun i => calculateDistanceField bnd w h (i % w) (i / w)
    width := w
    height := h }

/-! ## Tile grid theorems (C4) -/
lemma mem_calculateTileGrid {w h m : ℕ} {t : TileInfo} :
    t ∈ calculateTileGrid w h m ↔
      ∃ tx ty : ℕ, tx < jsCeilDiv w m ∧ ty < jsCeilDiv h m ∧
        t = { x := tx * m, y := ty * m,
              width := min m (w - tx * m), height := min m (h - ty * m),
              tileX := tx, tileY := ty } := by
  simp only [calculateTileGrid, List.mem_flatMap, List.mem_map, List.mem_range]
  constructor
  · rintro ⟨ty, hty, tx, htx, rfl⟩
    exact ⟨tx, ty, htx, hty, rfl⟩
  · rintro ⟨tx, ty, htx, hty, rfl⟩
    exact ⟨ty, hty, tx, htx, rfl⟩

lemma div_lt_jsCeilDiv {a b m : ℕ} (hm : 0 < m) (h : a < b) : a / m < jsCeilDiv b m := by
  unfold jsCeilDiv
  have h1 : b + m - 1 = (b - 1) + m := by omega
  rw [h1, Nat.add_div_right _ hm]
  have h2 : a / m ≤ (b - 1) / m := Nat.div_le_div_right (by omega)
  omega

lemma lt_div_mul_add {px m : ℕ} (hm : 0 < m) : px < px / m * m + m := by
  have h1 := Nat.div_add_mod px m
  have h2 := Nat.mod_lt px hm
  calc px = m * (px / m) + px % m := h1.symm
    _ < m * (px / m) + m := by omega
    _ = px / m * m + m := by ring

lemma tile_mul_le {tx w m : ℕ} (hm : 0 < m) (htx : tx < jsCeilDiv w m) : tx * m < w := by
  unfold jsCeilDiv at htx
  rcases Nat.eq_zero_or_pos w with hw | hw
  · subst hw
    have h0 : 0 + m - 1 = m - 1 := by omega
    rw [h0] at htx
    have : (m - 1) / m = 0 := Nat.div_eq_of_lt (by omega)
    omega
  · have h1 : w + m - 1 = (w - 1) + m := by omega
    rw [h1, Nat.add_div_right _ hm] at htx
    have h2 : tx ≤ (w - 1) / m := by omega
    have h3 : tx * m ≤ (w - 1) / m * m := Nat.mul_le_mul_right m h2
    have h4 : (w - 1) / m * m ≤ w - 1 := Nat.div_mul_le_self _ _
    omega

/-- C4: for positive `fullWidth`, `fullHeight`, `maxTileSize`, the tiles of
`calculateTileGrid` exactly cover the `fullWidth × fullHeight` rectangle:
every tile is at most `maxTileSize` on each axis, a pixel lies in some tile
iff it lies in the rectangle, and no pixel lies in two distinct tiles. -/
theorem calculateTileGrid_exact_cover (w h m : ℕ) (hw : 0 < w) (hh : 0 < h) (hm : 0 < m) :
    (∀ t ∈ calculateTileGrid w h m, t.width ≤ m ∧ t.height ≤ m) ∧
    (∀ px py : ℕ, (∃ t ∈ calculateTileGrid w h m, t.containsPx px py) ↔ (px < w ∧ py < h)) ∧
    (∀ t₁ ∈ calculateTileGrid w h m, ∀ t₂ ∈ calculateTileGrid w h m, ∀ px py : ℕ,
      t₁.containsPx px py → t₂.containsPx px py → t₁ = t₂) := by
  refine ⟨?_, ?_, ?_⟩
  · intro t ht
    rcases mem_calculateTileGrid.1 ht with ⟨tx, ty, htx, hty, rfl⟩
    exact ⟨min_le_left _ _, min_le_left _ _⟩
  · intro px py
    constructor
    · rintro ⟨t, ht, hc⟩
      rcases mem_calculateTileGrid.1 ht with ⟨tx, ty, htx, hty, rfl⟩
      rcases hc with ⟨hx1, hx2, hy1, hy2⟩
      simp only at hx1 hx2 hy1 hy2
      have hxw : tx * m < w := tile_mul_le hm htx
      have hyh : ty * m < h := tile_mul_le hm hty
      constructor
      · have : px < tx * m + (w - tx * m) := lt_of_lt_of_le hx2 (by
          have := min_le_right m (w - tx * m); omega)
        omega
      · have : py < ty * m + (h - ty * m) := lt_of_lt_of_le hy2 (by
          have := min_le_right m (h - ty * m); omega)
        omega
    · rintro ⟨hpx, hpy⟩
      refine ⟨_, mem_calculateTileGrid.2 ⟨px / m, py / m,
        div_lt_jsCeilDiv hm hpx, div_lt_jsCeilDiv hm hpy, rfl⟩, ?_⟩
      refine ⟨Nat.div_mul_le_self _ _, ?_, Nat.div_mul_le_self _ _, ?_⟩
      · simp only
        rcases le_or_lt m (w - px / m * m) with hmin | hmin
        · rw [min_eq_left hmin]
          exact lt_div_mul_add hm
        · rw [min_eq_right (le_of_lt hmin)]
          have : px / m * m ≤ px := Nat.div_mul_le_self _ _
          omega
      · simp only
        rcases le_or_lt m (h - py / m * m) with hmin | hmin
        · rw [min_eq_left hmin]
          exact lt_div_mul_add hm
        · rw [min_eq_right (le_of_lt hmin)]
          have : py / m * m ≤ py := Nat.div_mul_le_self _ _
          omega
  · intro t₁ ht₁ t₂ ht₂ px py hc₁ hc₂
    rcases mem_calculateTileGrid.1 ht₁ with ⟨tx₁, ty₁, htx₁, hty₁, rfl⟩
    rcases mem_calculateTileGrid.1 ht₂ with ⟨tx₂, ty₂, htx₂, hty₂, rfl⟩
    rcases hc₁ with ⟨ha1, ha2, ha3, ha4⟩
    rcases hc₂ with ⟨hb1, hb2, hb3, hb4⟩
    simp only at ha1 ha2 ha3 ha4 hb1 hb2 hb3 hb4
    have e1 : px / m = tx₁ := Nat.div_eq_of_lt_le ha1 (lt_of_lt_of_le ha2 (by
      have := min_le_left m (w - tx₁ * m); ring_nf; omega))
    have e2 : px / m = tx₂ := Nat.div_eq_of_lt_le hb1 (lt_of_lt_of_le hb2 (by
      have := min_le_left m (w - tx₂ * m); ring_nf; omega))
    have e3 : py / m = ty₁ := Nat.div_eq_of_lt_le ha3 (lt_of_lt_of_le ha4 (by
      have := min_le_left m (h - ty₁ * m); ring_nf; omega))
    have e4 : py / m = ty₂ := Nat.div_eq_of_lt_le hb3 (lt_of_lt_of_le hb4 (by
      have := min_le_left m (h - ty₂ * m); ring_nf; omega))
    have : tx₁ = tx₂ := by omega
    have : ty₁ = ty₂ := by omega
    subst_vars
    rfl

/-- Witness for C4 at a concrete size: a 5×3 image with tile size 2. -/
theorem calculateTileGrid_exact_cover_witness :
    (∀ t ∈ calculateTileGrid 5 3 2, t.width ≤ 2 ∧ t.height ≤ 2) ∧
    (∀ px py : ℕ, (∃ t ∈ calculateTileGrid 5 3 2, t.containsPx px py) ↔ (px < 5 ∧ py < 3)) ∧
    (∀ t₁ ∈ calculateTileGrid 5 3 2, ∀ t₂ ∈ calculateTileGrid 5 3 2, ∀ px py : ℕ,
      t₁.containsPx px py → t₂.containsPx px py → t₁ = t₂) :=
  calculateTileGrid_exact_cover 5 3 2 (by decide) (by decide) (by decide)

/-! ## Boundary extraction theorems (C7, C5) -/
lemma extractBoundaries_length (buf : List ℚ) (w h : ℕ) (thr : ℚ) :
    (extractBoundaries buf w h thr).length = w * h := by
  simp [extractBoundaries]

lemma extractBoundaries_getD (buf : List ℚ) (w h : ℕ) (thr : ℚ) {i : ℕ} (hi : i < w * h) :
    (extractBoundaries buf w h thr).getD i false = jsLtOpt (pixelBrightness buf i) thr := by
  unfold extractBoundaries
  rw [List.getD_eq_getElem?_getD, List.getElem?_map, List.getElem?_range hi]
  rfl

/-- C7: on a well-formed RGBA buffer (`4·width·height` samples), a pixel is
marked boundary iff the average of its R, G, B samples is strictly below
the threshold; the mask always has `width·height` entries, so a `0×0` or
otherwise degenerate size yields an empty mask; the defaulted threshold
is `50`. -/
theorem extractBoundaries_spec (buf : List ℚ) (w h : ℕ) (thr : ℚ)
    (hbuf : buf.length = 4 * (w * h)) :
    (extractBoundaries buf w h thr).length = w * h ∧
    (∀ i, i < w * h →
      ((extractBoundaries buf w h thr).getD i false = true ↔
        (buf.getD (i * 4) 0 + buf.getD (i * 4 + 1) 0 + buf.getD (i * 4 + 2) 0) / 3 < thr)) ∧
    (w * h = 0 → extractBoundaries buf w h thr = []) ∧
    extractBoundariesDefault buf w h = extractBoundaries buf w h 50 ∧
    defaultThreshold = 50 := by
  refine ⟨extractBoundaries_length buf w h thr, ?_, ?_, rfl, rfl⟩
  · intro i hi
    rw [extractBoundaries_getD buf w h thr hi]
    have h0 : i * 4 < buf.length := by omega
    have h1 : i * 4 + 1 < buf.length := by omega
    have h2 : i * 4 + 2 < buf.length := by omega
    unfold pixelBrightness jsRead
    rw [List.get?_eq_getElem?]
    rw [List.get?_eq_getElem?, List.get?_eq_getElem?]
    rw [List.getElem?_eq_getElem h0, List.getElem?_eq_getElem h1, List.getElem?_eq_getElem h2]
    simp only [jsLtOpt, decide_eq_true_eq]
    rw [List.getD_eq_getElem?_getD, List.getD_eq_getElem?_getD, List.getD_eq_getElem?_getD]
    rw [List.getElem?_eq_getElem h0, List.getElem?_eq_getElem h1, List.getElem?_eq_getElem h2]
    rfl
  · intro h0
    have := extractBoundaries_length buf w h thr
    rw [h0] at this
    exact List.length_eq_zero.1 this

/-- Witness for C7 on a concrete 1×2 image: a black pixel (marked boundary)
and a white pixel, with the default threshold. -/
theorem extractBoundaries_spec_witness :
    (extractBoundaries [0, 0, 0, 255, 255, 255, 255, 255] 1 2 50).getD 0 false = true ∧
    (extractBoundaries [0, 0, 0, 255, 255, 255, 255, 255] 1 2 50).length = 1 * 2 := by
  have h := extractBoundaries_spec [0, 0, 0, 255, 255, 255, 255, 255] 1 2 50 (by decide)
  exact ⟨(h.2.1 0 (by norm_num)).2 (by norm_num [List.getD_cons_zero, List.getD_cons_succ]), h.1⟩

/-! ## Out-of-bounds distance queries (C9) -/
/-- C9: both `getDistance` and `getDistanceSquared` return `0` for any
coordinate outside the field bounds. -/
theorem distance_queries_out_of_bounds (sqrt : ℚ → ℚ) (field : DistanceField) (x y : ℤ)
    (hout : x < 0 ∨ (field.width : ℤ) ≤ x ∨ y < 0 ∨ (field.height : ℤ) ≤ y) :
    getDistance sqrt field x y = 0 ∧ getDistanceSquared field x y = 0 := by
  unfold getDistance getDistanceSquared
  rw [if_pos hout, if_pos hout]
  exact ⟨rfl, rfl⟩

/-- Witness for C9: a concrete field queried at `(-1, 2)` and `(4, 7)`. -/
theorem distance_queries_out_of_bounds_witness :
    (getDistance (fun q => q) ⟨fun _ => 9, 4, 4⟩ (-1) 2 = 0 ∧
      getDistanceSquared ⟨fun _ => 9, 4, 4⟩ (-1) 2 = 0) ∧
    (getDistance (fun q => q) ⟨fun _ => 9, 4, 4⟩ 2 7 = 0 ∧
      getDistanceSquared ⟨fun _ => 9, 4, 4⟩ 2 7 = 0) :=
  ⟨distance_queries_out_of_bounds _ _ _ _ (Or.inl (by norm_num)),
   distance_queries_out_of_bounds _ _ _ _ (Or.inr (Or.inr (Or.inr (by norm_num))))⟩

/-! ## Shader packing theorems (C8) -/
lemma padLines_eq_append (l : List ℚ) (h1 : l.length ≤ MAX_LINES * 4)
    (h2 : (MAX_LINES * 4 - l.length) % 4 = 0) :
    padLines l = l ++ List.replicate (MAX_LINES * 4 - l.length) (0 : ℚ) := by
  generalize hk : MAX_LINES * 4 - l.length = k
  induction k using Nat.strong_induction_on generalizing l with
  | _ k ih =>
    rw [padLines]
    by_cases hlt : l.length < MAX_LINES * 4
    · rw [dif_pos hlt]
      have hk4 : 4 ≤ k := by
        simp only [MAX_LINES] at hlt h2 hk ⊢
        omega
      have hlen : (l ++ [0, 0, 0, 0]).length = l.length + 4 := by simp
      rw [ih (k - 4) (by omega) (l ++ [0, 0, 0, 0]) (by rw [hlen]; omega)
        (by rw [hlen]; omega) (by rw [hlen]; omega)]
      rw [List.append_assoc]
      congr 1
      have h4 : k = 4 + (k - 4) := by omega
      rw [h4, List.replicate_add]
      have h5 : 4 + (k - 4) - 4 = k - 4 := by omega
      rw [h5]
      rfl
    · rw [dif_neg hlt]
      have : k = 0 := by omega
      rw [this]
      simp

lemma padCircles_eq_append (l : List ℚ) (h1 : l.length ≤ MAX_CIRCLES * 3)
    (h2 : (MAX_CIRCLES * 3 - l.length) % 3 = 0) :
    padCircles l = l ++ List.replicate (MAX_CIRCLES * 3 - l.length) (0 : ℚ) := by
  generalize hk : MAX_CIRCLES * 3 - l.length = k
  induction k using Nat.strong_induction_on generalizing l with
  | _ k ih =>
    rw [padCircles]
    by_cases hlt : l.length < MAX_CIRCLES * 3
    · rw [dif_pos hlt]
      have hk3 : 3 ≤ k := by
        simp only [MAX_CIRCLES] at hlt h2 hk ⊢
        omega
      have hlen : (l ++ [0, 0, 0]).length = l.length + 3 := by simp
      rw [ih (k - 3) (by omega) (l ++ [0, 0, 0]) (by rw [hlen]; omega)
        (by rw [hlen]; omega) (by rw [hlen]; omega)]
      rw [List.append_assoc]
      congr 1
      have h3 : k = 3 + (k - 3) := by omega
      rw [h3, List.replicate_add]
      have h5 : 3 + (k - 3) - 3 = k - 3 := by omega
      rw [h5]
      rfl
    · rw [dif_neg hlt]
      have : k = 0 := by omega
      rw [this]
      simp

lemma flatMap_length_uniform {α : Type} (f : α → List ℚ) (c : ℕ)
    (hf : ∀ a, (f a).length = c) (l : List α) :
    (l.flatMap f).length = c * l.length := by
  induction l with
  | nil => simp
  | cons a l ih =>
    simp only [List.flatMap_cons, List.length_append, ih, hf a, List.length_cons]
    ring

lemma flatMap_getD_uniform {α : Type} (f : α → List ℚ) (c : ℕ)
    (hf : ∀ a, (f a).length = c) (l : List α) :
    ∀ (i j : ℕ) (hi : i < l.length), j < c →
      (l.flatMap f).getD (c * i + j) 0 = (f (l.get ⟨i, hi⟩)).getD j 0 := by
  induction l with
  | nil => intro i j hi; simp at hi
  | cons a l ih =>
    intro i j hi hj
    cases i with
    | zero =>
      simp only [List.flatMap_cons, Nat.mul_zero, Nat.zero_add]
      rw [List.getD_append]
      · rfl
      · rw [hf a]
        exact hj
    | succ i =>
      simp only [List.flatMap_cons]
      have hidx : c * (i + 1) + j = (f a).length + (c * i + j) := by
        rw [hf a]
        ring
      rw [hidx, List.getD_append_right _ _ _ _ (Nat.le_add_right _ _)]
      have h2 : (f a).length + (c * i + j) - (f a).length = c * i + j := by omega
      rw [h2]
      exact ih i j (Nat.lt_of_succ_lt_succ hi) hj

/-- C8: the shader uniform packing is fixed-capacity: `packLinesForShader`
always yields 40 vec4 slots (160 scalars) and `packCirclesForShader` 10
vec3 slots (30 scalars); the coordinates of the first `min count cap`
shapes appear in order at their slots, and every scalar past the packed
shapes is zero. -/
theorem pack_shapes_fixed_capacity (lines : List LineConfig) (circles : List CircleConfig) :
    (packLinesForShader lines).length = 40 * 4 ∧
    (packCirclesForShader circles).length = 10 * 3 ∧
    (∀ i (hi : i < min lines.length MAX_LINES),
      (packLinesForShader lines).getD (4 * i) 0 =
          (lines.get ⟨i, lt_of_lt_of_le hi (min_le_left _ _)⟩).start.x ∧
      (packLinesForShader lines).getD (4 * i + 1) 0 =
          (lines.get ⟨i, lt_of_lt_of_le hi (min_le_left _ _)⟩).start.y ∧
      (packLinesForShader lines).getD (4 * i + 2) 0 =
          (lines.get ⟨i, lt_of_lt_of_le hi (min_le_left _ _)⟩).«end».x ∧
      (packLinesForShader lines).getD (4 * i + 3) 0 =
          (lines.get ⟨i, lt_of_lt_of_le hi (min_le_left _ _)⟩).«end».y) ∧
    (∀ j, 4 * min lines.length MAX_LINES ≤ j → (packLinesForShader lines).getD j 0 = 0) ∧
    (∀ i (hi : i < min circles.length MAX_CIRCLES),
      (packCirclesForShader circles).getD (3 * i) 0 =
          (circles.get ⟨i, lt_of_lt_of_le hi (min_le_left _ _)⟩).center.x ∧
      (packCirclesForShader circles).getD (3 * i + 1) 0 =
          (circles.get ⟨i, lt_of_lt_of_le hi (min_le_left _ _)⟩).center.y ∧
      (packCirclesForShader circles).getD (3 * i + 2) 0 =
          (circles.get ⟨i, lt_of_lt_of_le hi (min_le_left _ _)⟩).radius) ∧
    (∀ j, 3 * min circles.length MAX_CIRCLES ≤ j →
      (packCirclesForShader circles).getD j 0 = 0) := by
  have hfl : ∀ l : LineConfig,
      ([l.start.x, l.start.y, l.«end».x, l.«end».y] : List ℚ).length = 4 := fun _ => rfl
  have hfc : ∀ c : CircleConfig,
      ([c.center.x, c.center.y, c.radius] : List ℚ).length = 3 := fun _ => rfl
  have hcountL : min lines.length MAX_LINES ≤ lines.length := min_le_left _ _
  have hcountC : min circles.length MAX_CIRCLES ≤ circles.length := min_le_left _ _
  have htakeL : (lines.take (min lines.length MAX_LINES)).length =
      min lines.length MAX_LINES := by
    rw [List.length_take]
    exact min_eq_left hcountL
  have htakeC : (circles.take (min circles.length MAX_CIRCLES)).length =
      min circles.length MAX_CIRCLES := by
    rw [List.length_take]
    exact min_eq_left hcountC
  have hdataL : ((lines.take (min lines.length MAX_LINES)).flatMap
      (fun l => [l.start.x, l.start.y, l.«end».x, l.«end».y])).length =
        4 * min lines.length MAX_LINES := by
    rw [flatMap_length_uniform _ 4 hfl, htakeL]
  have hdataC : ((circles.take (min circles.length MAX_CIRCLES)).flatMap
      (fun c => [c.center.x, c.center.y, c.radius])).length =
        3 * min circles.length MAX_CIRCLES := by
    rw [flatMap_length_uniform _ 3 hfc, htakeC]
  have hminL : 4 * min lines.length MAX_LINES ≤ MAX_LINES * 4 := by
    have := min_le_right lines.length MAX_LINES
    simp only [MAX_LINES] at this ⊢
    omega
  have hminC : 3 * min circles.length MAX_CIRCLES ≤ MAX_CIRCLES * 3 := by
    have := min_le_right circles.length MAX_CIRCLES
    simp only [MAX_CIRCLES] at this ⊢
    omega
  have hpackL : packLinesForShader lines =
      (lines.take (min lines.length MAX_LINES)).flatMap
        (fun l => [l.start.x, l.start.y, l.«end».x, l.«end».y]) ++
      List.replicate (MAX_LINES * 4 - 4 * min lines.length MAX_LINES) 0 := by
    unfold packLinesForShader
    rw [padLines_eq_append _ (by rw [hdataL]; exact hminL)
      (by rw [hdataL]; simp only [MAX_LINES]; omega), hdataL]
  have hpackC : packCirclesForShader circles =
      (circles.take (min circles.length MAX_CIRCLES)).flatMap
        (fun c => [c.center.x, c.center.y, c.radius]) ++
      List.replicate (MAX_CIRCLES * 3 - 3 * min circles.length MAX_CIRCLES) 0 := by
    unfold packCirclesForShader
    rw [padCircles_eq_append _ (by rw [hdataC]; exact hminC)
      (by rw [hdataC]; simp only [MAX_CIRCLES]; omega), hdataC]
  refine ⟨?_, ?_, ?_, ?_, ?_, ?_⟩
  · rw [hpackL, List.length_append, hdataL, List.length_replicate]
    simp only [MAX_LINES]
    omega
  · rw [hpackC, List.length_append, hdataC, List.length_replicate]
    simp only [MAX_CIRCLES]
    omega
  · intro i hi
    have hi' : i < (lines.take (min lines.length MAX_LINES)).length := by
      rw [htakeL]
      exact hi
    have hget : (lines.take (min lines.length MAX_LINES)).get ⟨i, hi'⟩ =
        lines.get ⟨i, lt_of_lt_of_le hi hcountL⟩ := by
      simp [List.get_eq_getElem, List.getElem_take]
    have hslot : ∀ j, j < 4 → (packLinesForShader lines).getD (4 * i + j) 0 =
        ([(lines.get ⟨i, lt_of_lt_of_le hi hcountL⟩).start.x,
          (lines.get ⟨i, lt_of_lt_of_le hi hcountL⟩).start.y,
          (lines.get ⟨i, lt_of_lt_of_le hi hcountL⟩).«end».x,
          (lines.get ⟨i, lt_of_lt_of_le hi hcountL⟩).«end».y] : List ℚ).getD j 0 := by
      intro j hj
      rw [hpackL, List.getD_append _ _ _ _ (by rw [hdataL]; omega)]
      rw [flatMap_getD_uniform _ 4 hfl _ i j hi' hj, hget]
    refine ⟨?_, ?_, ?_, ?_⟩
    · have h0 := hslot 0 (by omega)
      rw [Nat.add_zero] at h0
      rw [h0]
      rfl
    · rw [hslot 1 (by omega)]
      rfl
    · rw [hslot 2 (by omega)]
      rfl
    · rw [hslot 3 (by omega)]
      rfl
  · intro j hj
    rw [hpackL, List.getD_append_right _ _ _ _ (by rw [hdataL]; exact hj)]
    rw [List.getD_eq_getElem?_getD, List.getElem?_getD_replicate_default_eq]
  · intro i hi
    have hi' : i < (circles.take (min circles.length MAX_CIRCLES)).length := by
      rw [htakeC]
      exact hi
    have hget : (circles.take (min circles.length MAX_CIRCLES)).get ⟨i, hi'⟩ =
        circles.get ⟨i, lt_of_lt_of_le hi hcountC⟩ := by
      simp [List.get_eq_getElem, List.getElem_take]
    have hslot : ∀ j, j < 3 → (packCirclesForShader circles).getD (3 * i + j) 0 =
        ([(circles.get ⟨i, lt_of_lt_of_le hi hcountC⟩).center.x,
          (circles.get ⟨i, lt_of_lt_of_le hi hcountC⟩).center.y,
          (circles.get ⟨i, lt_of_lt_of_le hi hcountC⟩).radius] : List ℚ).getD j 0 := by
      intro j hj
      rw [hpackC, List.getD_append _ _ _ _ (by rw [hdataC]; omega)]
      rw [flatMap_getD_uniform _ 3 hfc _ i j hi' hj, hget]
    refine ⟨?_, ?_, ?_⟩
    · have h0 := hslot 0 (by omega)
      rw [Nat.add_zero] at h0
      rw [h0]
      rfl
    · rw [hslot 1 (by omega)]
      rfl
    · rw [hslot 2 (by omega)]
      rfl
  · intro j hj
    rw [hpackC, List.getD_append_right _ _ _ _ (by rw [hdataC]; exact hj)]
    rw [List.getD_eq_getElem?_getD, List.getElem?_getD_replicate_default_eq]

/-- Witness for C8: one concrete line and one concrete circle packed, with
slots and padding checked at specific indices. -/
theorem pack_shapes_fixed_capacity_witness :
    (packLinesForShader [⟨⟨1, 2⟩, ⟨3, 4⟩, ⟨0, 0, 0⟩, 1⟩]).getD 0 0 = 1 ∧
    (packLinesForShader [⟨⟨1, 2⟩, ⟨3, 4⟩, ⟨0, 0, 0⟩, 1⟩]).getD 3 0 = 4 ∧
    (packLinesForShader [⟨⟨1, 2⟩, ⟨3, 4⟩, ⟨0, 0, 0⟩, 1⟩]).getD 7 0 = 0 ∧
    (packCirclesForShader [⟨⟨5, 6⟩, 7, ⟨0, 0, 0⟩, 1⟩]).getD 2 0 = 7 := by
  have h := pack_shapes_fixed_capacity [⟨⟨1, 2⟩, ⟨3, 4⟩, ⟨0, 0, 0⟩, 1⟩]
    [⟨⟨5, 6⟩, 7, ⟨0, 0, 0⟩, 1⟩]
  refine ⟨?_, ?_, ?_, ?_⟩
  · have h0 := (h.2.2.1 0 (by simp [MAX_LINES])).1
    simpa using h0
  · have h0 := (h.2.2.1 0 (by simp [MAX_LINES])).2.2.2
    simpa using h0
  · have h0 := h.2.2.2.1 7 (by simp [MAX_LINES])
    simpa using h0
  · have h0 := (h.2.2.2.2.1 0 (by simp [MAX_CIRCLES])).2.2
    simpa using h0

lemma isNatQ_zero : IsNatQ 0 := ⟨0, by norm_num⟩

lemma isNatQ_INF : IsNatQ INF := ⟨10 ^ 10, by norm_num [INF]⟩

lemma isNatQ_add_one {q : ℚ} (h : IsNatQ q) : IsNatQ (q + 1) := by
  obtain ⟨n, rfl⟩ := h
  exact ⟨n + 1, by push_cast; ring⟩

lemma isNatQ_succ_le {a b : ℚ} (ha : IsNatQ a) (hb : IsNatQ b) (h : a < b) : a + 1 ≤ b := by
  obtain ⟨m, rfl⟩ := ha
  obtain ⟨n, rfl⟩ := hb
  have h1 : m < n := by exact_mod_cast h
  have h2 : m + 1 ≤ n := h1
  exact_mod_cast h2

lemma isNatQ_nonneg {q : ℚ} (h : IsNatQ q) : 0 ≤ q := by
  obtain ⟨n, rfl⟩ := h
  positivity

lemma fwdG_isNat (bnd : ℕ → Bool) (w x : ℕ) : ∀ y, IsNatQ (fwdG bnd w x y) := by
  intro y
  induction y with
  | zero =>
    unfold fwdG
    split
    · exact isNatQ_zero
    · exact isNatQ_INF
  | succ y ih =>
    unfold fwdG
    split
    · exact isNatQ_zero
    · exact isNatQ_add_one ih

lemma bwdAux_isNat (bnd : ℕ → Bool) (w x h : ℕ) : ∀ j, IsNatQ (bwdAux (fwdG bnd w x) h j) := by
  intro j
  induction j with
  | zero => exact fwdG_isNat bnd w x _
  | succ j ih =>
    unfold bwdAux
    split
    · exact isNatQ_add_one ih
    · exact fwdG_isNat bnd w x _

lemma bwdG_isNat (bnd : ℕ → Bool) (w x h y : ℕ) : IsNatQ (bwdG (fwdG bnd w x) h y) :=
  bwdAux_isNat bnd w x h _

lemma fwdG_le (bnd : ℕ → Bool) (w x : ℕ) :
    ∀ y y', y' ≤ y → bnd (y' * w + x) = true → fwdG bnd w x y ≤ ((y - y' : ℕ) : ℚ) := by
  intro y
  induction y with
  | zero =>
    intro y' hy' hb
    have h0 : y' = 0 := by omega
    subst h0
    rw [Nat.zero_mul, Nat.zero_add] at hb
    unfold fwdG
    rw [hb]
    simp
  | succ y ih =>
    intro y' hy' hb
    unfold fwdG
    split
    · positivity
    · rename_i hnb
      have hy'' : y' ≤ y := by
        rcases Nat.lt_or_ge y' (y + 1) with h1 | h1
        · omega
        · exfalso
          have : y' = y + 1 := by omega
          subst this
          rw [hb] at hnb
          simp at hnb
      have h1 := ih y' hy'' hb
      have h2 : ((y + 1 - y' : ℕ) : ℚ) = ((y - y' : ℕ) : ℚ) + 1 := by
        have : y + 1 - y' = (y - y') + 1 := by omega
        rw [this]
        push_cast
        ring
      rw [h2]
      linarith

lemma fwdG_att (bnd : ℕ → Bool) (w x : ℕ) :
    ∀ y, (∃ y', y' ≤ y ∧ bnd (y' * w + x) = true) →
      ∃ y', y' ≤ y ∧ bnd (y' * w + x) = true ∧ fwdG bnd w x y = ((y - y' : ℕ) : ℚ) := by
  intro y
  induction y with
  | zero =>
    rintro ⟨y', hy', hb⟩
    have h0 : y' = 0 := by omega
    subst h0
    refine ⟨0, le_refl _, hb, ?_⟩
    rw [Nat.zero_mul, Nat.zero_add] at hb
    unfold fwdG
    rw [hb]
    simp
  | succ y ih =>
    rintro ⟨y', hy', hb⟩
    by_cases htop : bnd ((y + 1) * w + x) = true
    · refine ⟨y + 1, le_refl _, htop, ?_⟩
      unfold fwdG
      rw [htop]
      simp
    · have hy'' : y' ≤ y := by
        rcases Nat.lt_or_ge y' (y + 1) with h1 | h1
        · omega
        · exfalso
          have : y' = y + 1 := by omega
          subst this
          exact htop hb
      obtain ⟨z, hz, hzb, hzv⟩ := ih ⟨y', hy'', hb⟩
      refine ⟨z, by omega, hzb, ?_⟩
      unfold fwdG
      rw [if_neg htop, hzv]
      have : y + 1 - z = (y - z) + 1 := by omega
      rw [this]
      push_cast
      ring

lemma fwdG_none (bnd : ℕ → Bool) (w x : ℕ) :
    ∀ y, (∀ y', y' ≤ y → bnd (y' * w + x) = false) → fwdG bnd w x y = INF + (y : ℚ) := by
  intro y
  induction y with
  | zero =>
    intro hnone
    have h0 := hnone 0 (le_refl _)
    rw [Nat.zero_mul, Nat.zero_add] at h0
    unfold fwdG
    rw [h0]
    simp
  | succ y ih =>
    intro hnone
    unfold fwdG
    rw [if_neg (by rw [hnone (y + 1) (le_refl _)]; simp)]
    rw [ih (fun y' hy' => hnone y' (by omega))]
    push_cast
    ring

lemma bwdG_last (f : ℕ → ℚ) (h : ℕ) : bwdG f h (h - 1) = f (h - 1) := by
  unfold bwdG
  rw [Nat.sub_self]
  rfl

lemma bwdG_step (f : ℕ → ℚ) (h y : ℕ) (hy : y + 1 < h) :
    bwdG f h y = if bwdG f h (y + 1) < f y then bwdG f h (y + 1) + 1 else f y := by
  unfold bwdG
  have h1 : h - 1 - y = (h - 1 - (y + 1)) + 1 := by omega
  rw [h1]
  have h2 : h - 1 - (h - 1 - (y + 1) + 1) = y := by omega
  show (if bwdAux f h (h - 1 - (y + 1)) < f (h - 1 - (h - 1 - (y + 1) + 1)) then
      bwdAux f h (h - 1 - (y + 1)) + 1 else f (h - 1 - (h - 1 - (y + 1) + 1))) = _
  rw [h2]

lemma bwdG_le (bnd : ℕ → Bool) (w x h : ℕ) :
    ∀ k y, h - 1 - y = k → y < h → ∀ y', y' < h → bnd (y' * w + x) = true →
      bwdG (fwdG bnd w x) h y ≤ (Nat.dist y y' : ℚ) := by
  intro k
  induction k with
  | zero =>
    intro y hk hy y' hy' hb
    have hyv : y = h - 1 := by omega
    subst hyv
    rw [bwdG_last]
    have hle : y' ≤ h - 1 := by omega
    have h1 := fwdG_le bnd w x (h - 1) y' hle hb
    rw [Nat.dist_eq_sub_of_le_right hle]
    exact h1
  | succ k ih =>
    intro y hk hy y' hy' hb
    have hy1 : y + 1 < h := by omega
    rw [bwdG_step _ _ _ hy1]
    rcases le_or_lt y' y with hle | hgt
    · have hF := fwdG_le bnd w x y y' hle hb
      rw [Nat.dist_eq_sub_of_le_right hle]
      split
      · rename_i hbr
        have h1 := isNatQ_succ_le (bwdG_isNat bnd w x h (y + 1)) (fwdG_isNat bnd w x y) hbr
        linarith
      · exact hF
    · have hih := ih (y + 1) (by omega) hy1 y' hy' hb
      have hdist2 : (Nat.dist (y + 1) y' : ℚ) ≤ (Nat.dist y y' : ℚ) - 1 := by
        have hn : Nat.dist (y + 1) y' + 1 = Nat.dist y y' := by
          rw [Nat.dist_eq_sub_of_le (by omega : y + 1 ≤ y'), Nat.dist_eq_sub_of_le (by omega)]
          omega
        have := congrArg (fun n : ℕ => (n : ℚ)) hn
        push_cast at this
        linarith
      split
      · linarith
      · rename_i hbr
        push_neg at hbr
        linarith

lemma bwdG_att (bnd : ℕ → Bool) (w x h : ℕ) (hsize : (h : ℚ) ≤ INF) :
    ∀ k y, h - 1 - y = k → y < h → (∃ y', y' < h ∧ bnd (y' * w + x) = true) →
      ∃ y', y' < h ∧ bnd (y' * w + x) = true ∧
        bwdG (fwdG bnd w x) h y = (Nat.dist y y' : ℚ) := by
  intro k
  induction k with
  | zero =>
    intro y hk hy hex
    have hyv : y = h - 1 := by omega
    subst hyv
    rw [bwdG_last]
    obtain ⟨y', hy', hb⟩ := hex
    have hle : y' ≤ h - 1 := by omega
    obtain ⟨z, hz, hzb, hzv⟩ := fwdG_att bnd w x (h - 1) ⟨y', hle, hb⟩
    refine ⟨z, by omega, hzb, ?_⟩
    rw [hzv, Nat.dist_eq_sub_of_le_right hz]
  | succ k ih =>
    intro y hk hy hex
    have hy1 : y + 1 < h := by omega
    rw [bwdG_step _ _ _ hy1]
    split
    · rename_i hbr
      obtain ⟨z, hz, hzb, hzv⟩ := ih (y + 1) (by omega) hy1 hex
      have hzgt : y + 1 ≤ z := by
        by_contra hcon
        push_neg at hcon
        have hzy : z ≤ y := by omega
        have hF := fwdG_le bnd w x y z hzy hzb
        rw [hzv, Nat.dist_eq_sub_of_le_right (by omega : z ≤ y + 1)] at hbr
        have hcast : ((y + 1 - z : ℕ) : ℚ) = ((y - z : ℕ) : ℚ) + 1 := by
          have : y + 1 - z = (y - z) + 1 := by omega
          rw [this]
          push_cast
          ring
        rw [hcast] at hbr
        linarith
      refine ⟨z, hz, hzb, ?_⟩
      rw [hzv]
      have hn : Nat.dist (y + 1) z + 1 = Nat.dist y z := by
        rw [Nat.dist_eq_sub_of_le (by omega : y + 1 ≤ z), Nat.dist_eq_sub_of_le (by omega)]
        omega
      have := congrArg (fun n : ℕ => (n : ℚ)) hn
      push_cast at this
      linarith
    · rename_i hbr
      push_neg at hbr
      by_cases hup : ∃ y', y' ≤ y ∧ bnd (y' * w + x) = true
      · obtain ⟨z, hz, hzb, hzv⟩ := fwdG_att bnd w x y hup
        refine ⟨z, by omega, hzb, ?_⟩
        rw [hzv, Nat.dist_eq_sub_of_le_right hz]
      · exfalso
        push_neg at hup
        have hnone : ∀ y', y' ≤ y → bnd (y' * w + x) = false := by
          intro y' hy'
          have := hup y' hy'
          simp only [Bool.not_eq_true] at this ⊢
          exact this
        have hFv := fwdG_none bnd w x y hnone
        obtain ⟨y', hy', hb⟩ := hex
        have hle := bwdG_le bnd w x h (h - 1 - y) y rfl hy y' hy' hb
        have hstep := bwdG_step (fwdG bnd w x) h y hy1
        rw [if_neg (by push_neg; exact hbr)] at hstep
        rw [hstep, hFv] at hle
        have hd : (Nat.dist y y' : ℚ) < (h : ℚ) := by
          have : Nat.dist y y' < h := by
            rcases Nat.le_total y y' with h1 | h1
            · rw [Nat.dist_eq_sub_of_le h1]
              omega
            · rw [Nat.dist_eq_sub_of_le_right h1]
              omega
          exact_mod_cast this
        have hy0 : (0 : ℚ) ≤ (y : ℚ) := by positivity
        linarith

lemma bwdG_none (bnd : ℕ → Bool) (w x h : ℕ) :
    ∀ k y, h - 1 - y = k → y < h → (∀ y', y' < h → bnd (y' * w + x) = false) →
      bwdG (fwdG bnd w x) h y = INF + (y : ℚ) := by
  intro k
  induction k with
  | zero =>
    intro y hk hy hnone
    have hyv : y = h - 1 := by omega
    subst hyv
    rw [bwdG_last]
    exact fwdG_none bnd w x (h - 1) (fun y' hy' => hnone y' (by omega))
  | succ k ih =>
    intro y hk hy hnone
    have hy1 : y + 1 < h := by omega
    rw [bwdG_step _ _ _ hy1]
    have hnext := ih (y + 1) (by omega) hy1 hnone
    have hcur := fwdG_none bnd w x y (fun y' hy' => hnone y' (by omega))
    rw [hnext, hcur]
    rw [if_neg (by push_cast; intro hcon; linarith)]

lemma colG_le (bnd : ℕ → Bool) (w x h y y' : ℕ) (hy : y < h) (hy' : y' < h)
    (hb : bnd (y' * w + x) = true) :
    colG bnd w h x y ≤ ((Nat.dist y y' : ℚ)) ^ 2 := by
  have h1 := bwdG_le bnd w x h (h - 1 - y) y rfl hy y' hy' hb
  have h2 := isNatQ_nonneg (bwdG_isNat bnd w x h y)
  unfold colG
  have := mul_self_le_mul_self h2 h1
  calc bwdG (fwdG bnd w x) h y * bwdG (fwdG bnd w x) h y
      ≤ (Nat.dist y y' : ℚ) * (Nat.dist y y' : ℚ) := this
    _ = ((Nat.dist y y' : ℚ)) ^ 2 := by ring

lemma colG_att (bnd : ℕ → Bool) (w x h y : ℕ) (hsize : (h : ℚ) ≤ INF) (hy : y < h)
    (hex : ∃ y', y' < h ∧ bnd (y' * w + x) = true) :
    ∃ y', y' < h ∧ bnd (y' * w + x) = true ∧ colG bnd w h x y = ((Nat.dist y y' : ℚ)) ^ 2 := by
  obtain ⟨z, hz, hzb, hzv⟩ := bwdG_att bnd w x h hsize (h - 1 - y) y rfl hy hex
  refine ⟨z, hz, hzb, ?_⟩
  unfold colG
  rw [hzv]
  ring

lemma colG_none (bnd : ℕ → Bool) (w x h y : ℕ) (hy : y < h)
    (hnone : ∀ y', y' < h → bnd (y' * w + x) = false) :
    colG bnd w h x y = (INF + (y : ℚ)) ^ 2 := by
  unfold colG
  rw [bwdG_none bnd w x h (h - 1 - y) y rfl hy hnone]
  ring

lemma colG_none_ge (bnd : ℕ → Bool) (w x h y : ℕ) (hy : y < h)
    (hnone : ∀ y', y' < h → bnd (y' * w + x) = false) :
    INF ^ 2 ≤ colG bnd w h x y := by
  rw [colG_none bnd w x h y hy hnone]
  have h0 : (0 : ℚ) ≤ (y : ℚ) := by positivity
  have hINF : (0 : ℚ) ≤ INF := by norm_num [INF]
  nlinarith

lemma para_sub_eq (g : ℕ → ℚ) {p1 p2 : ℕ} (hp : p1 < p2) (x : ℚ) :
    para g p1 x - para g p2 x = 2 * ((p2 : ℚ) - p1) * (x - interPt g p1 p2) := by
  have hne : (p2 : ℚ) - p1 ≠ 0 := by
    have h1 : (p1 : ℚ) < p2 := by exact_mod_cast hp
    intro hcon
    linarith
  unfold para interPt computeIntersection
  field_simp
  ring

lemma para_le_iff (g : ℕ → ℚ) {p1 p2 : ℕ} (hp : p1 < p2) (x : ℚ) :
    para g p1 x ≤ para g p2 x ↔ x ≤ interPt g p1 p2 := by
  have hpos : (0 : ℚ) < 2 * ((p2 : ℚ) - p1) := by
    have h1 : (p1 : ℚ) < p2 := by exact_mod_cast hp
    linarith
  have key := para_sub_eq g hp x
  constructor
  · intro h
    have h1 : 2 * ((p2 : ℚ) - p1) * (x - interPt g p1 p2) ≤ 0 := by linarith
    nlinarith
  · intro h
    nlinarith

lemma para_ge_iff (g : ℕ → ℚ) {p1 p2 : ℕ} (hp : p1 < p2) (x : ℚ) :
    para g p2 x ≤ para g p1 x ↔ interPt g p1 p2 ≤ x := by
  have hpos : (0 : ℚ) < 2 * ((p2 : ℚ) - p1) := by
    have h1 : (p1 : ℚ) < p2 := by exact_mod_cast hp
    linarith
  have key := para_sub_eq g hp x
  constructor
  · intro h
    nlinarith
  · intro h
    nlinarith

lemma para_eq_at_interPt (g : ℕ → ℚ) {p1 p2 : ℕ} (hp : p1 < p2) :
    para g p1 (interPt g p1 p2) = para g p2 (interPt g p1 p2) := by
  have key := para_sub_eq g hp (interPt g p1 p2)
  have h0 : interPt g p1 p2 - interPt g p1 p2 = 0 := by ring
  rw [h0, mul_zero] at key
  linarith

/-- Betweenness of intersections: if the intersection of `p2` and `p3` is
at or left of the intersection of `p1` and `p2`, then so is the
intersection of `p1` and `p3`. -/
lemma interPt_triple (g : ℕ → ℚ) {p1 p2 p3 : ℕ} (h12 : p1 < p2) (h23 : p2 < p3)
    (h : interPt g p2 p3 ≤ interPt g p1 p2) : interPt g p1 p3 ≤ interPt g p1 p2 := by
  by_contra hcon
  push_neg at hcon
  set X13 := interPt g p1 p3 with hX13
  have h13 : p1 < p3 := lt_trans h12 h23
  have heq : para g p1 X13 = para g p3 X13 := para_eq_at_interPt g h13
  have h1 : para g p2 X13 < para g p1 X13 := by
    rcases lt_or_le (para g p2 X13) (para g p1 X13) with h' | h'
    · exact h'
    · exact absurd ((para_le_iff g h12 X13).1 h') (not_le.2 hcon)
  have h2 : para g p3 X13 ≤ para g p2 X13 := by
    have hX23 : interPt g p2 p3 ≤ X13 := le_trans h (le_of_lt hcon)
    exact (para_ge_iff g h23 X13).2 hX23
  linarith

lemma stk_ne_nil {g n ub L} (h : Stk g n ub L) : L ≠ [] := by
  cases h <;> simp

lemma stk_head_pos_le {g n ub} : ∀ {L}, Stk g n ub L → ∀ pr ∈ L, pr.1 ≤ n := by
  intro L h
  induction h with
  | bottom ub t hcov =>
    intro pr hpr
    simp at hpr
    rw [hpr]
    exact Nat.zero_le n
  | node ub p t p2 t2 rest hlt hn ht hub hcov hrest ih =>
    intro pr hpr
    rcases List.mem_cons.1 hpr with h1 | h1
    · rw [h1]
      exact hn
    · exact ih pr h1

/-- Extending the processed set `0 .. n` to `0 .. n+1` below a bound that
lies left of the new parabola's takeover point preserves the invariant. -/
lemma stk_deepen (g : ℕ → ℚ) (n u p : ℕ) (hu : u = n + 1) (hp : p ≤ n)
    (X' : ℚ) (hcross : ∀ x : ℚ, x ≤ X' → para g p x ≤ para g u x) :
    ∀ {M : List (ℕ × ℚ)} {ub : Option ℚ}, Stk g n ub M →
      (∃ b, ub = some b ∧ b ≤ X') → Stk g (n + 1) ub M := by
  intro M ub hstk
  induction hstk with
  | bottom ub t hcov =>
    rintro ⟨b, rfl, hbX⟩
    refine Stk.bottom _ t ?_
    intro v hv x hx
    rcases Nat.lt_or_ge v (n + 1) with h1 | h1
    · exact hcov v (by omega) x hx
    · have hv' : v = u := by omega
      rw [hv']
      have hxb : x ≤ b := hx b rfl
      have h2 : para g 0 x ≤ para g p x := hcov p hp x hx
      have h3 : para g p x ≤ para g u x := hcross x (le_trans hxb hbX)
      linarith
  | node ub p' t p2 t2 rest hlt hn ht hub hcov hrest ih =>
    rintro ⟨b, rfl, hbX⟩
    have htb : t < b := hub b rfl
    refine Stk.node _ p' t p2 t2 rest hlt (by omega) ht hub ?_
      (ih ⟨t, rfl, le_trans (le_of_lt htb) hbX⟩)
    intro v hv x hxt hx
    rcases Nat.lt_or_ge v (n + 1) with h1 | h1
    · exact hcov v (by omega) x hxt hx
    · have hv' : v = u := by omega
      rw [hv']
      have hxb : x ≤ b := hx b rfl
      have h2 : para g p' x ≤ para g p x := hcov p hp x hxt hx
      have h3 : para g p x ≤ para g u x := hcross x (le_trans hxb hbX)
      linarith

/-- Pushing column `u = n + 1` on a stack whose top is not popped yields a
valid stack for the processed set `0 .. n+1`. -/
lemma stk_push_final (g : ℕ → ℚ) (n u : ℕ) (hu : u = n + 1)
    {L : List (ℕ × ℚ)} {ub : Option ℚ} (hstk : Stk g n ub L)
    (p : ℕ) (t : ℚ) (rest : List (ℕ × ℚ)) (hL : L = (p, t) :: rest)
    (H : ∀ b, ub = some b → ∀ v, v ≤ n → ∀ x : ℚ, b ≤ x → para g u x ≤ para g v x)
    (Hx : ∀ b, ub = some b → interPt g p u ≤ b)
    (hnopop : rest = [] ∨ t < interPt g p u) :
    Stk g (n + 1) none ((u, interPt g p u) :: (p, t) :: rest) := by
  have hple : p ≤ n := by
    have := stk_head_pos_le hstk (p, t) (by rw [hL]; exact List.mem_cons_self _ _)
    exact this
  have hpu : p < u := by omega
  have hu1 : 1 ≤ u := by omega
  -- the new top dominates everything processed, right of its takeover point
  have factA : ∀ v, v ≤ n → ∀ x : ℚ, interPt g p u ≤ x → para g u x ≤ para g v x := by
    intro v hv x hXx
    have hcross : para g u x ≤ para g p x := (para_ge_iff g hpu x).2 hXx
    rcases hub : ub with _ | b
    · -- ub = none: the old head covers [t, ∞) (or all of ℚ)
      cases hstk with
      | bottom ub' t' hcov =>
        have hp0 : p = 0 := by
          cases hL
          rfl
        subst hp0
        have := hcov v hv x (by simp [hub])
        have h2 : para g 0 x ≤ para g v x := by
          cases hL
          exact this
        linarith
      | node ub' p' t' p2 t2 rest2 hlt hn ht hubf hcov hrest =>
        cases hL
        have htx : t ≤ x := by
          rcases hnopop with h1 | h1
          · simp at h1
          · linarith
        have h2 := hcov v hv x htx (by simp [hub])
        linarith
    · rcases le_total b x with hbx | hxb
      · exact H b hub v hv x hbx
      · cases hstk with
        | bottom ub' t' hcov =>
          have hp0 : p = 0 := by
            cases hL
            rfl
          subst hp0
          have h2 : para g 0 x ≤ para g v x := by
            have := hcov v hv x ?_
            · cases hL
              exact this
            · intro b' hb'
              rw [hub] at hb'
              cases hb'
              exact hxb
          linarith
        | node ub' p' t' p2 t2 rest2 hlt hn ht hubf hcov hrest =>
          cases hL
          have htx : t ≤ x := by
            rcases hnopop with h1 | h1
            · simp at h1
            · linarith
          have h2 := hcov v hv x htx (by
            intro b' hb'
            rw [hub] at hb'
            cases hb'
            exact hxb)
          linarith
  refine Stk.node none u (interPt g p u) p t rest hpu (by omega) rfl (by simp) ?_ ?_
  · -- coverage of the new top on [interPt g p u, ∞)
    intro v hv x hXx _
    rcases Nat.lt_or_ge v (n + 1) with h1 | h1
    · exact factA v (by omega) x hXx
    · have hv' : v = u := by omega
      rw [hv']
  · -- the old stack, re-bounded at the takeover point, for `0 .. n+1`
    cases hstk with
    | bottom ub' t' hcov =>
      have hp0 : p = 0 := by
        cases hL
        rfl
      subst hp0
      cases hL
      refine Stk.bottom _ _ ?_
      intro v hv x hx
      have hxX : x ≤ interPt g 0 u := hx _ rfl
      rcases Nat.lt_or_ge v (n + 1) with h1 | h1
      · refine hcov v (by omega) x ?_
        intro b hb
        exact le_trans hxX (Hx b hb)
      · have hv' : v = u := by omega
        rw [hv']
        exact (para_le_iff g (by omega : 0 < u) x).2 hxX
    | node ub' p' t' p2 t2 rest2 hlt hn ht hubf hcov hrest =>
      cases hL
      have htX : t < interPt g p u := by
        rcases hnopop with h1 | h1
        · simp at h1
        · exact h1
      refine Stk.node _ p t p2 t2 rest2 hlt (by omega) ht ?_ ?_ ?_
      · intro b hb
        cases hb
        exact htX
      · intro v hv x hxt hx
        have hxX : x ≤ interPt g p u := hx _ rfl
        rcases Nat.lt_or_ge v (n + 1) with h1 | h1
        · refine hcov v (by omega) x hxt ?_
          intro b hb
          exact le_trans hxX (Hx b hb)
        · have hv' : v = u := by omega
          rw [hv']
          exact (para_le_iff g hpu x).2 hxX
      · refine stk_deepen g n u p hu hple (interPt g p u) ?_ hrest ⟨t, rfl, le_of_lt htX⟩
        intro x hx
        exact (para_le_iff g hpu x).2 hx

/-- Processing column `u = n + 1` through the pop-then-push loop of
`processRows` preserves the envelope invariant. -/
lemma stk_pushParabola (g : ℕ → ℚ) (n u : ℕ) (hu : u = n + 1) :
    ∀ (rest : List (ℕ × ℚ)) (p : ℕ) (t : ℚ) (ub : Option ℚ),
      Stk g n ub ((p, t) :: rest) →
      (∀ b, ub = some b → ∀ v, v ≤ n → ∀ x : ℚ, b ≤ x → para g u x ≤ para g v x) →
      (∀ b, ub = some b → interPt g p u ≤ b) →
      Stk g (n + 1) none (pushParabola g u ((p, t) :: rest)) := by
  intro rest
  induction rest with
  | nil =>
    intro p t ub hstk H Hx
    have hp0 : p = 0 := by
      cases hstk
      rfl
    show Stk g (n + 1) none ((u, interPt g p u) :: [(p, t)])
    exact stk_push_final g n u hu hstk p t [] rfl H Hx (Or.inl rfl)
  | cons hd tl ih =>
    intro p t ub hstk H Hx
    obtain ⟨p2, t2⟩ := hd
    have hstep : pushParabola g u ((p, t) :: (p2, t2) :: tl) =
        if interPt g p u ≤ t then pushParabola g u ((p2, t2) :: tl)
        else (u, interPt g p u) :: (p, t) :: (p2, t2) :: tl := by
      show pushParabola g u ((p, t) :: (p2, t2) :: tl) = _
      rw [pushParabola]
      rfl
    rw [hstep]
    -- facts from the node at the top
    cases hstk with
    | node ub p' t' p2' t2' rest' hlt hn ht hub hcov hrest =>
      by_cases hpop : interPt g p u ≤ t
      · rw [if_pos hpop]
        have hpu : p < u := by omega
        have h2u : p2 < u := by omega
        refine ih p2 t2 (some t) hrest ?_ ?_
        · -- carried domination of `u` right of the popped bound `t`
          intro b hb v hv x hbx
          cases hb
          have hXx : interPt g p u ≤ x := le_trans hpop hbx
          have hcross : para g u x ≤ para g p x := (para_ge_iff g hpu x).2 hXx
          rcases hub2 : ub with _ | b0
          · have h2 := hcov v hv x hbx (by simp [hub2])
            linarith
          · rcases le_total b0 x with hb0x | hxb0
            · exact H b0 hub2 v hv x hb0x
            · have h2 := hcov v hv x hbx (by
                intro b' hb'
                rw [hub2] at hb'
                cases hb'
                exact hxb0)
              linarith
        · -- the takeover point against the new top is left of `t`
          intro b hb
          cases hb
          rw [ht]
          exact interPt_triple g hlt (by omega) (le_trans hpop (le_of_eq ht))
      · rw [if_neg hpop]
        push_neg at hpop
        exact stk_push_final g n u hu
          (Stk.node ub p t p2 t2 tl hlt hn ht hub hcov hrest)
          p t ((p2, t2) :: tl) rfl H Hx (Or.inr hpop)

lemma envelope_succ (g : ℕ → ℚ) (n : ℕ) :
    envelope g (n + 1) = pushParabola g (n + 1) (envelope g n) := by
  unfold envelope
  rw [List.range_succ, List.foldl_append]
  rfl

/-- The envelope after processing columns `0 .. n` satisfies the invariant. -/
lemma stk_envelope (g : ℕ → ℚ) : ∀ n, Stk g n none (envelope g n) := by
  intro n
  induction n with
  | zero =>
    show Stk g 0 none [(0, -INF)]
    refine Stk.bottom none (-INF) ?_
    intro v hv x _
    have hv0 : v = 0 := by omega
    rw [hv0]
  | succ n ih =>
    rw [envelope_succ]
    rcases hE : envelope g n with _ | ⟨⟨p, t⟩, rest⟩
    · rw [hE] at ih
      exact absurd rfl (stk_ne_nil ih)
    · rw [hE] at ih
      exact stk_pushParabola g n (n + 1) rfl rest p t none ih (by simp) (by simp)

/-- Interval coverage of the stack, indexed from the top of the stack:
entry `j` is minimal among all processed parabolas on the interval from its
own `t` (no constraint for the bottom entry) up to the `t` of the entry
above it (the upper bound `ub` for the top entry). -/
lemma stk_cover_indexed (g : ℕ → ℚ) (n : ℕ) :
    ∀ {ub : Option ℚ} {L : List (ℕ × ℚ)}, Stk g n ub L →
      ∀ j, j < L.length → ∀ v, v ≤ n → ∀ x : ℚ,
        (j + 1 = L.length ∨ (L.getD j (0, -INF)).2 ≤ x) →
        (if j = 0 then ∀ b, ub = some b → x ≤ b
          else x ≤ (L.getD (j - 1) (0, -INF)).2) →
        para g (L.getD j (0, -INF)).1 x ≤ para g v x := by
  intro ub L hstk
  induction hstk with
  | bottom ub t hcov =>
    intro j hj v hv x hlow hup
    have hj0 : j = 0 := by
      simp at hj
      omega
    subst hj0
    simp only [List.getD_cons_zero]
    simp only [if_pos rfl] at hup
    exact hcov v hv x hup
  | node ub p t p2 t2 rest hlt hn ht hub hcov hrest ih =>
    intro j hj v hv x hlow hup
    cases j with
    | zero =>
      simp only [List.getD_cons_zero]
      simp only [if_pos rfl] at hup
      have htx : t ≤ x := by
        rcases hlow with h1 | h1
        · exfalso
          simp at h1
        · simpa using h1
      exact hcov v hv x htx hup
    | succ j =>
      have hj' : j < ((p2, t2) :: rest).length := by
        simp at hj ⊢
        omega
      have hget1 : ((p, t) :: (p2, t2) :: rest).getD (j + 1) (0, -INF) =
          ((p2, t2) :: rest).getD j (0, -INF) := by
        rw [List.getD_cons_succ]
      rw [hget1]
      refine ih j hj' v hv x ?_ ?_
      · rcases hlow with h1 | h1
        · left
          simp at h1 ⊢
          omega
        · right
          rw [hget1] at h1
          exact h1
      · cases j with
        | zero =>
          simp only [if_pos rfl]
          intro b hb
          cases hb
          simp only [Nat.add_sub_cancel, List.getD_cons_succ, List.getD_cons_zero] at hup
          rw [if_neg (by omega)] at hup
          simpa using hup
        | succ i =>
          rw [if_neg (by omega)]
          rw [if_neg (by omega)] at hup
          have : ((p, t) :: (p2, t2) :: rest).getD (i + 1 + 1 - 1) (0, -INF) =
              ((p2, t2) :: rest).getD (i + 1 - 1) (0, -INF) := by
            have h1 : i + 1 + 1 - 1 = i + 1 := by omega
            have h2 : i + 1 - 1 = i := by omega
            rw [h1, h2, List.getD_cons_succ]
          rw [this] at hup
          exact hup

lemma getD_reverse {α : Type} (l : List α) (d : α) (k : ℕ) (hk : k < l.length) :
    l.reverse.getD k d = l.getD (l.length - 1 - k) d := by
  rw [List.getD_eq_getElem?_getD, List.getD_eq_getElem?_getD, List.getElem?_reverse hk]

/-- Coverage restated over the bottom-first envelope array `E` used by the
scan loop: entry `k` is minimal among parabolas `0 .. n` on
`[t_k, t_{k+1}]`, with no constraint below entry `0` or above the top. -/
lemma env_cover (g : ℕ → ℚ) (n : ℕ) (E : List (ℕ × ℚ))
    (hE : E = (envelope g n).reverse) :
    ∀ k, k < E.length → ∀ v, v ≤ n → ∀ x : ℚ,
      (k = 0 ∨ (E.getD k (0, -INF)).2 ≤ x) →
      (k + 1 = E.length ∨ x ≤ (E.getD (k + 1) (0, -INF)).2) →
      para g (E.getD k (0, -INF)).1 x ≤ para g v x := by
  intro k hk v hv x hlow hup
  set L := envelope g n with hL
  have hlen : E.length = L.length := by
    rw [hE, List.length_reverse]
  have hkL : k < L.length := by omega
  have hgetk : E.getD k (0, -INF) = L.getD (L.length - 1 - k) (0, -INF) := by
    rw [hE]
    exact getD_reverse L (0, -INF) k hkL
  set j := L.length - 1 - k with hj
  have hjlen : j < L.length := by omega
  have hcov := stk_cover_indexed g n (stk_envelope g n) j hjlen v hv x
  rw [← hL] at hcov
  rw [hgetk]
  refine hcov ?_ ?_
  · rcases hlow with h1 | h1
    · left
      omega
    · right
      rw [hgetk] at h1
      exact h1
  · by_cases hkend : k + 1 = E.length
    · have hj0 : j = 0 := by omega
      rw [if_pos hj0]
      intro b hb
      cases hb
    · have h1 : x ≤ (E.getD (k + 1) (0, -INF)).2 := by
        rcases hup with h | h
        · exact absurd h hkend
        · exact h
      have hj0 : j ≠ 0 := by omega
      rw [if_neg hj0]
      have hk1 : k + 1 < L.length := by omega
      have hgetk1 : E.getD (k + 1) (0, -INF) = L.getD (j - 1) (0, -INF) := by
        rw [hE]
        have hrev := getD_reverse L (0, -INF) (k + 1) hk1
        rw [hrev]
        congr 1
      rw [hgetk1] at h1
      exact h1

/-- Every column recorded in the envelope is a processed column. -/
lemma env_pos (g : ℕ → ℚ) (n : ℕ) (E : List (ℕ × ℚ))
    (hE : E = (envelope g n).reverse) :
    ∀ k, k < E.length → (E.getD k (0, -INF)).1 ≤ n := by
  subst hE
  intro k hk
  have hmem : (envelope g n).reverse.getD k (0, -INF) ∈ (envelope g n).reverse := by
    rw [List.getD_eq_getElem _ _ hk]
    exact List.getElem_mem _
  exact stk_head_pos_le (stk_envelope g n) _ (List.mem_reverse.1 hmem)

lemma advanceK_spec (E : List (ℕ × ℚ)) (u : ℚ) :
    ∀ m k, E.length - k = m → k < E.length → (k = 0 ∨ (E.getD k (0, -INF)).2 ≤ u) →
      advanceK E u k < E.length ∧
      (advanceK E u k = 0 ∨ (E.getD (advanceK E u k) (0, -INF)).2 ≤ u) ∧
      (advanceK E u k + 1 = E.length ∨ ¬((E.getD (advanceK E u k + 1) (0, -INF)).2 < u)) := by
  intro m
  induction m with
  | zero =>
    intro k hm hk _
    omega
  | succ m ih =>
    intro k hm hk hinv
    rw [advanceK]
    by_cases h : k + 1 < E.length
    · rw [dif_pos h]
      have hgd : (E.get ⟨k + 1, h⟩).2 = (E.getD (k + 1) (0, -INF)).2 := by
        rw [List.getD_eq_getElem _ _ h]
        rfl
      by_cases hlt : (E.get ⟨k + 1, h⟩).2 < u
      · rw [if_pos hlt]
        refine ih (k + 1) (by omega) h (Or.inr ?_)
        rw [← hgd]
        exact le_of_lt hlt
      · rw [if_neg hlt]
        refine ⟨hk, hinv, Or.inr ?_⟩
        rw [← hgd]
        exact hlt
    · rw [dif_neg h]
      exact ⟨hk, hinv, Or.inl (by omega)⟩

lemma scanK_spec (E : List (ℕ × ℚ)) (hE0 : 0 < E.length) : ∀ u : ℕ,
    scanK E u < E.length ∧
    (scanK E u = 0 ∨ (E.getD (scanK E u) (0, -INF)).2 ≤ (u : ℚ)) ∧
    (scanK E u + 1 = E.length ∨ ¬((E.getD (scanK E u + 1) (0, -INF)).2 < (u : ℚ))) := by
  intro u
  induction u with
  | zero =>
    show advanceK E 0 0 < E.length ∧ _ ∧ _
    have h := advanceK_spec E 0 (E.length - 0) 0 rfl hE0 (Or.inl rfl)
    convert h using 3 <;> norm_num
  | succ u ih =>
    show advanceK E ((u + 1 : ℕ) : ℚ) (scanK E u) < E.length ∧ _ ∧ _
    refine advanceK_spec E _ _ (scanK E u) rfl ih.1 ?_
    rcases ih.2.1 with h1 | h1
    · exact Or.inl h1
    · refine Or.inr (le_trans h1 ?_)
      push_cast
      linarith

/-- The row phase computes a minimum: `dt[row+u]` is at most the value of
every processed parabola at `u`, and equals the value of one of them. -/
lemma dtRow_min (g : ℕ → ℚ) (w : ℕ) (hw : 0 < w) (u : ℕ) (hu : u < w) :
    (∀ v, v < w → dtRow g w u ≤ para g v (u : ℚ)) ∧
    (∃ v, v < w ∧ dtRow g w u = para g v (u : ℚ)) := by
  have hElen : 0 < ((envelope g (w - 1)).reverse).length := by
    rw [List.length_reverse]
    rcases hL : envelope g (w - 1) with _ | ⟨a, l⟩
    · have := stk_envelope g (w - 1)
      rw [hL] at this
      exact absurd rfl (stk_ne_nil this)
    · simp
  obtain ⟨hk1, hk2, hk3⟩ := scanK_spec ((envelope g (w - 1)).reverse) hElen u
  have hdt : dtRow g w u =
      para g (((envelope g (w - 1)).reverse).getD
        (scanK ((envelope g (w - 1)).reverse) u) (0, -INF)).1 (u : ℚ) := by
    unfold dtRow para
    rfl
  constructor
  · intro v hv
    rw [hdt]
    refine env_cover g (w - 1) _ rfl _ hk1 v (by omega) (u : ℚ) hk2 ?_
    rcases hk3 with h1 | h1
    · exact Or.inl h1
    · exact Or.inr (le_of_not_lt h1)
  · refine ⟨(((envelope g (w - 1)).reverse).getD
      (scanK ((envelope g (w - 1)).reverse) u) (0, -INF)).1, ?_, hdt⟩
    have := env_pos g (w - 1) _ rfl _ hk1
    omega

lemma natDist_sq (a b : ℕ) : ((Nat.dist a b : ℚ)) ^ 2 = ((a : ℚ) - b) ^ 2 := by
  rcases le_total a b with h | h
  · rw [Nat.dist_eq_sub_of_le h]
    have hc : ((b - a : ℕ) : ℚ) = (b : ℚ) - a := by
      push_cast [h]
      ring
    rw [hc]
    ring
  · rw [Nat.dist_eq_sub_of_le_right h]
    have hc : ((a - b : ℕ) : ℚ) = (a : ℚ) - b := by
      push_cast [h]
      ring
    rw [hc]

lemma sq_diff_le (a b A : ℚ) (ha0 : 0 ≤ a) (haA : a ≤ A) (hb0 : 0 ≤ b) (hbA : b ≤ A) :
    (a - b) ^ 2 ≤ A ^ 2 := by
  nlinarith

/-- C1: on any mask of positive size (at most `10⁹` on each axis, far
beyond the reach of the `1e10` sentinel) holding at least one boundary
pixel, `calculateDistanceField` stores at every pixel `p` exactly the
minimum over all boundary pixels `b` of the squared Euclidean distance
between `p` and `b`: the stored value is a lower bound of all such squared
distances and is attained by one of them. -/
theorem calculateDistanceField_exact (bnd : ℕ → Bool) (w h x y : ℕ)
    (hw : 0 < w) (hh : 0 < h) (hwB : w ≤ 10 ^ 9) (hhB : h ≤ 10 ^ 9)
    (hx : x < w) (hy : y < h)
    (hne : ∃ bx by_, bx < w ∧ by_ < h ∧ bnd (by_ * w + bx) = true) :
    (∀ bx by_, bx < w → by_ < h → bnd (by_ * w + bx) = true →
      calculateDistanceField bnd w h x y ≤ ((x : ℚ) - bx) ^ 2 + ((y : ℚ) - by_) ^ 2) ∧
    (∃ bx by_, bx < w ∧ by_ < h ∧ bnd (by_ * w + bx) = true ∧
      calculateDistanceField bnd w h x y = ((x : ℚ) - bx) ^ 2 + ((y : ℚ) - by_) ^ 2) := by
  have hsize : (h : ℚ) ≤ INF := by
    have h1 : (h : ℚ) ≤ 10 ^ 9 := by exact_mod_cast hhB
    norm_num [INF]
    linarith
  obtain ⟨hmin, vstar, hvstar, hatt⟩ :=
    dtRow_min (fun u => colG bnd w h u y) w hw x hx
  have hdt : calculateDistanceField bnd w h x y = dtRow (fun u => colG bnd w h u y) w x := rfl
  have hlower : ∀ bx by_, bx < w → by_ < h → bnd (by_ * w + bx) = true →
      calculateDistanceField bnd w h x y ≤ ((x : ℚ) - bx) ^ 2 + ((y : ℚ) - by_) ^ 2 := by
    intro bx by_ hbx hby hb
    have h1 := hmin bx hbx
    have h2 := colG_le bnd w bx h y by_ hy hby hb
    have h3 : para (fun u => colG bnd w h u y) bx (x : ℚ) =
        ((x : ℚ) - bx) ^ 2 + colG bnd w h bx y := by
      unfold para
      ring
    rw [hdt]
    rw [h3] at h1
    have h4 := natDist_sq y by_
    linarith
  refine ⟨hlower, ?_⟩
  by_cases hcol : ∃ y', y' < h ∧ bnd (y' * w + vstar) = true
  · obtain ⟨ystar, hystar, hysb, hysv⟩ := colG_att bnd w vstar h y hsize hy hcol
    refine ⟨vstar, ystar, hvstar, hystar, hysb, ?_⟩
    rw [hdt, hatt]
    unfold para
    have hbeta : (fun u => colG bnd w h u y) vstar = colG bnd w h vstar y := rfl
    rw [hbeta, hysv, natDist_sq]
    ring
  · exfalso
    push_neg at hcol
    have hnone : ∀ y', y' < h → bnd (y' * w + vstar) = false := by
      intro y' hy'
      have := hcol y' hy'
      simp only [Bool.not_eq_true] at this ⊢
      exact this
    have hge := colG_none_ge bnd w vstar h y hy hnone
    obtain ⟨bx0, by0, hbx0, hby0, hb0⟩ := hne
    have hub := hlower bx0 by0 hbx0 hby0 hb0
    have hvsq : (0 : ℚ) ≤ ((x : ℚ) - vstar) * ((x : ℚ) - vstar) := mul_self_nonneg _
    have hattv : calculateDistanceField bnd w h x y =
        ((x : ℚ) - vstar) * ((x : ℚ) - vstar) + colG bnd w h vstar y := by
      rw [hdt, hatt]
      rfl
    have hA : (10 ^ 9 : ℚ) ^ 2 + (10 ^ 9 : ℚ) ^ 2 < INF ^ 2 := by
      norm_num [INF]
    have hx1 : ((x : ℚ) - bx0) ^ 2 ≤ (10 ^ 9 : ℚ) ^ 2 := by
      refine sq_diff_le _ _ _ (by positivity) ?_ (by positivity) ?_
      · have : (x : ℚ) < (w : ℚ) := by exact_mod_cast hx
        have hwq : (w : ℚ) ≤ 10 ^ 9 := by exact_mod_cast hwB
        linarith
      · have : (bx0 : ℚ) < (w : ℚ) := by exact_mod_cast hbx0
        have hwq : (w : ℚ) ≤ 10 ^ 9 := by exact_mod_cast hwB
        linarith
    have hy1 : ((y : ℚ) - by0) ^ 2 ≤ (10 ^ 9 : ℚ) ^ 2 := by
      refine sq_diff_le _ _ _ (by positivity) ?_ (by positivity) ?_
      · have : (y : ℚ) < (h : ℚ) := by exact_mod_cast hy
        have hhq : (h : ℚ) ≤ 10 ^ 9 := by exact_mod_cast hhB
        linarith
      · have : (by0 : ℚ) < (h : ℚ) := by exact_mod_cast hby0
        have hhq : (h : ℚ) ≤ 10 ^ 9 := by exact_mod_cast hhB
        linarith
    linarith

/-- Witness for C1: a 2×2 mask with a single boundary pixel at `(0, 1)`,
queried at pixel `(0, 0)`. -/
theorem calculateDistanceField_exact_witness :
    (∀ bx by_ : ℕ, bx < 2 → by_ < 2 → (fun i => decide (i = 2)) (by_ * 2 + bx) = true →
      calculateDistanceField (fun i => decide (i = 2)) 2 2 0 0 ≤
        (((0 : ℕ) : ℚ) - bx) ^ 2 + (((0 : ℕ) : ℚ) - by_) ^ 2) ∧
    (∃ bx by_ : ℕ, bx < 2 ∧ by_ < 2 ∧ (fun i => decide (i = 2)) (by_ * 2 + bx) = true ∧
      calculateDistanceField (fun i => decide (i = 2)) 2 2 0 0 =
        (((0 : ℕ) : ℚ) - bx) ^ 2 + (((0 : ℕ) : ℚ) - by_) ^ 2) :=
  calculateDistanceField_exact (fun i => decide (i = 2)) 2 2 0 0 (by norm_num) (by norm_num)
    (by norm_num) (by norm_num) (by norm_num) (by norm_num)
    ⟨0, 1, by norm_num, by norm_num, by decide⟩

lemma writeColor_length (colors : List HSB) (px : List ℤ) (i : ℕ) :
    (writeColor colors px i).length = px.length := by
  simp [writeColor]

lemma foldl_writeColor_length (colors : List HSB) :
    ∀ (l : List ℕ) (init : List ℤ), (l.foldl (writeColor colors) init).length = init.length := by
  intro l
  induction l with
  | nil => intro init; rfl
  | cons a l ih =>
    intro init
    rw [List.foldl_cons, ih, writeColor_length]

lemma updateColorsTexture_length (colors : List HSB) :
    (updateColorsTexture colors).length = 256 * 4 := by
  unfold updateColorsTexture
  rw [foldl_writeColor_length, List.length_replicate]

lemma writeColor_getD_ne (colors : List HSB) (px : List ℤ) (k i j : ℕ) (hj : j < 4)
    (hne : i ≠ k) : (writeColor colors px k).getD (i * 4 + j) 0 = px.getD (i * 4 + j) 0 := by
  unfold writeColor
  rw [List.getD_eq_getElem?_getD, List.getD_eq_getElem?_getD]
  have h0 : k * 4 ≠ i * 4 + j := by omega
  have h1 : k * 4 + 1 ≠ i * 4 + j := by omega
  have h2 : k * 4 + 2 ≠ i * 4 + j := by omega
  have h3 : k * 4 + 3 ≠ i * 4 + j := by omega
  rw [List.getElem?_set_ne h3, List.getElem?_set_ne h2, List.getElem?_set_ne h1,
    List.getElem?_set_ne h0, ← List.getD_eq_getElem?_getD]

lemma writeColor_getD_eq (colors : List HSB) (px : List ℤ) (k j : ℕ) (hj : j < 4)
    (hlen : k * 4 + 3 < px.length) :
    (writeColor colors px k).getD (k * 4 + j) 0 =
      rgbComp (hsbObjToRgb (colors.getD k ⟨0, 0, 0⟩)) j := by
  unfold writeColor rgbComp
  rw [List.getD_eq_getElem?_getD]
  interval_cases j
  · have hk : k * 4 + 0 = k * 4 := by omega
    rw [hk]
    rw [List.getElem?_set_ne (by omega), List.getElem?_set_ne (by omega),
      List.getElem?_set_ne (by omega)]
    rw [List.getElem?_set, if_pos rfl, if_pos (by omega)]
    rfl
  · rw [List.getElem?_set_ne (by omega), List.getElem?_set_ne (by omega)]
    rw [List.getElem?_set, if_pos rfl, if_pos (by simp only [List.length_set]; omega)]
    rfl
  · rw [List.getElem?_set_ne (by omega)]
    rw [List.getElem?_set, if_pos rfl, if_pos (by simp only [List.length_set]; omega)]
    rfl
  · rw [List.getElem?_set, if_pos rfl, if_pos (by simp only [List.length_set]; omega)]
    rfl

lemma foldl_writeColor_getD (colors : List HSB) :
    ∀ k, k ≤ 255 →
      (∀ i j, j < 4 → k ≤ i →
        ((List.range k).foldl (writeColor colors) (List.replicate (256 * 4) 0)).getD
          (i * 4 + j) 0 = 0) ∧
      (∀ i j, j < 4 → i < k →
        ((List.range k).foldl (writeColor colors) (List.replicate (256 * 4) 0)).getD
          (i * 4 + j) 0 = rgbComp (hsbObjToRgb (colors.getD i ⟨0, 0, 0⟩)) j) := by
  intro k
  induction k with
  | zero =>
    intro _
    constructor
    · intro i j hj _
      rw [List.range_zero, List.foldl_nil, List.getD_eq_getElem?_getD,
        List.getElem?_replicate]
      split
      · rfl
      · rfl
    · intro i j _ hi
      omega
  | succ k ih =>
    intro hk
    obtain ⟨ih1, ih2⟩ := ih (by omega)
    have hsucc : (List.range (k + 1)).foldl (writeColor colors) (List.replicate (256 * 4) 0) =
        writeColor colors
          ((List.range k).foldl (writeColor colors) (List.replicate (256 * 4) 0)) k := by
      rw [List.range_succ, List.foldl_append, List.foldl_cons, List.foldl_nil]
    have hflen : ((List.range k).foldl (writeColor colors)
        (List.replicate (256 * 4) 0)).length = 256 * 4 := by
      rw [foldl_writeColor_length, List.length_replicate]
    constructor
    · intro i j hj hi
      rw [hsucc, writeColor_getD_ne colors _ k i j hj (by omega)]
      exact ih1 i j hj (by omega)
    · intro i j hj hi
      rcases Nat.lt_or_ge i k with h1 | h1
      · rw [hsucc, writeColor_getD_ne colors _ k i j hj (by omega)]
        exact ih2 i j hj h1
      · have hik : i = k := by omega
        subst hik
        rw [hsucc]
        exact writeColor_getD_eq colors _ i j hj (by rw [hflen]; omega)

/-- The colors texture writes entries `0 .. min count 255 - 1` and leaves
every later entry (in particular any 256th color) at the initialized zero. -/
lemma updateColorsTexture_spec (colors : List HSB) :
    (updateColorsTexture colors).length = 256 * 4 ∧
    (∀ i j, j < 4 → min colors.length 255 ≤ i →
      (updateColorsTexture colors).getD (i * 4 + j) 0 = 0) ∧
    (∀ i j, j < 4 → i < min colors.length 255 →
      (updateColorsTexture colors).getD (i * 4 + j) 0 =
        rgbComp (hsbObjToRgb (colors.getD i ⟨0, 0, 0⟩)) j) := by
  refine ⟨updateColorsTexture_length colors, ?_, ?_⟩
  · exact (foldl_writeColor_getD colors (min colors.length 255) (min_le_right _ _)).1
  · exact (foldl_writeColor_getD colors (min colors.length 255) (min_le_right _ _)).2

/-- A run of the segmentation on a one-row mask with 256 isolated cells:
256 regions are discovered and returned with no error or clamp. -/
lemma fillRegions_over_limit_run :
    (fillRegions (fun i => decide (i % 2 = 1)) 511 1 600).map Prod.snd = some 256 := by
  rfl

lemma white_texel_r :
    rgbComp (hsbObjToRgb ((List.replicate 256 (⟨0, 0, 1⟩ : HSB)).getD 254 ⟨0, 0, 0⟩)) 0
      = 255 := by
  have hget : (List.replicate 256 (⟨0, 0, 1⟩ : HSB)).getD 254 ⟨0, 0, 0⟩ = ⟨0, 0, 1⟩ := by
    rw [List.getD_eq_getElem?_getD, List.getElem?_replicate, if_pos (by norm_num)]
    rfl
  rw [hget]
  show (hsbToRgb 0 0 1).r = 255
  unfold hsbToRgb
  norm_num

/-- C3 counterexample: a concrete mask produces 256 (> 254) regions with no
error and no clamp, and with 256 colors supplied, the texture entry of
color 255 is silently left at zero (black, alpha 0) while entry 254 is
written — a corrupted color lookup with nothing reported. -/
theorem region_overflow_not_detected :
    (fillRegions (fun i => decide (i % 2 = 1)) 511 1 600).map Prod.snd = some 256 ∧
    254 < 256 ∧
    (updateColorsTexture (List.replicate 256 ⟨0, 0, 1⟩)).getD (255 * 4) 0 = 0 ∧
    (updateColorsTexture (List.replicate 256 ⟨0, 0, 1⟩)).getD (255 * 4 + 3) 0 = 0 ∧
    (updateColorsTexture (List.replicate 256 ⟨0, 0, 1⟩)).getD (254 * 4) 0 = 255 := by
  refine ⟨fillRegions_over_limit_run, by norm_num, ?_, ?_, ?_⟩
  · have h := (updateColorsTexture_spec (List.replicate 256 ⟨0, 0, 1⟩)).2.1 255 0
      (by norm_num) (by simp)
    simpa using h
  · have h := (updateColorsTexture_spec (List.replicate 256 ⟨0, 0, 1⟩)).2.1 255 3
      (by norm_num) (by simp)
    simpa using h
  · have h := (updateColorsTexture_spec (List.replicate 256 ⟨0, 0, 1⟩)).2.2 254 0
      (by norm_num) (by simp)
    have h2 := white_texel_r
    simp only [Nat.add_zero] at h
    rw [h, h2]

/-- C3 (amended): the over-limit condition is not detected: the region scan
returns normally with the full count (no clamp, demonstrated at a concrete
256-region input), and `updateColorsTexture` silently drops every color at
index ≥ 255 (its texel stays at the initialized zero) while writing all
earlier entries. -/
theorem region_overflow_silently_truncates (colors : List HSB) :
    (updateColorsTexture colors).length = 256 * 4 ∧
    (∀ i j, j < 4 → min colors.length 255 ≤ i →
      (updateColorsTexture colors).getD (i * 4 + j) 0 = 0) ∧
    (∀ i j, j < 4 → i < min colors.length 255 →
      (updateColorsTexture colors).getD (i * 4 + j) 0 =
        rgbComp (hsbObjToRgb (colors.getD i ⟨0, 0, 0⟩)) j) ∧
    (fillRegions (fun i => decide (i % 2 = 1)) 511 1 600).map Prod.snd = some 256 := by
  obtain ⟨h1, h2, h3⟩ := updateColorsTexture_spec colors
  exact ⟨h1, h2, h3, fillRegions_over_limit_run⟩

/-- Witness for the amended C3 at 256 supplied colors: the dropped texel and
a written texel. -/
theorem region_overflow_silently_truncates_witness :
    (updateColorsTexture (List.replicate 256 ⟨0, 0, 1⟩)).getD (255 * 4 + 1) 0 = 0 ∧
    (updateColorsTexture (List.replicate 256 ⟨0, 0, 1⟩)).getD (254 * 4 + 0) 0 = 255 ∧
    (updateColorsTexture (List.replicate 256 ⟨0, 0, 1⟩)).length = 256 * 4 := by
  have h := region_overflow_silently_truncates (List.replicate 256 ⟨0, 0, 1⟩)
  refine ⟨?_, ?_, h.1⟩
  · have := h.2.1 255 1 (by norm_num) (by simp)
    simpa using this
  · have := h.2.2.1 254 0 (by norm_num) (by simp)
    rw [this, white_texel_r]

/-! ## Missing input validation (C5) -/
/-- C5 counterexample: a buffer of 4 samples for a claimed 2×1 image (8
samples needed) is processed without any error: `extractBoundaries` returns
a full two-entry mask, silently marking the out-of-range pixel
non-boundary. -/
theorem extractBoundaries_no_validation :
    ([0, 0, 0, 255] : List ℚ).length ≠ 4 * (2 * 1) ∧
    extractBoundaries [0, 0, 0, 255] 2 1 50 = [true, false] := by
  constructor
  · norm_num
  · show (List.range 2).map _ = _
    rw [List.range_succ, List.range_succ, List.range_zero]
    simp only [List.nil_append, List.cons_append, List.map_cons, List.map_nil]
    norm_num [pixelBrightness, jsRead, jsLtOpt]

/-- C5 (amended): neither buffers nor sizes are validated: for every
buffer, size and threshold, `extractBoundaries` returns a full
`width·height` mask without failing, and every pixel whose R, G, B reads
fall outside the buffer is silently treated as non-boundary (its `NaN`
brightness comparison is false). -/
theorem extractBoundaries_silent_on_mismatch (buf : List ℚ) (w h : ℕ) (thr : ℚ) :
    (extractBoundaries buf w h thr).length = w * h ∧
    (∀ i, i < w * h → buf.length ≤ i * 4 + 2 →
      (extractBoundaries buf w h thr).getD i false = false) := by
  refine ⟨extractBoundaries_length buf w h thr, ?_⟩
  intro i hi hlen
  rw [extractBoundaries_getD buf w h thr hi]
  unfold pixelBrightness jsRead
  have h2 : buf.get? (i * 4 + 2) = none := by
    rw [List.get?_eq_getElem?]
    exact List.getElem?_eq_none hlen
  rw [h2]
  cases buf.get? (i * 4) <;> cases buf.get? (i * 4 + 1) <;> rfl

/-- Witness for the amended C5: the 2×1 call on the 4-sample buffer. -/
theorem extractBoundaries_silent_on_mismatch_witness :
    (extractBoundaries [0, 0, 0, 255] 2 1 50).length = 2 * 1 ∧
    (extractBoundaries [0, 0, 0, 255] 2 1 50).getD 1 false = false := by
  have h := extractBoundaries_silent_on_mismatch [0, 0, 0, 255] 2 1 50
  exact ⟨h.1, h.2 1 (by norm_num) (by norm_num)⟩

/-! ### Scan-function specifications -/
lemma scanLeft_le (vis : ℕ → Bool) (w y : ℕ) : ∀ x, scanLeft vis w y x ≤ x := by
  intro x
  induction x with
  | zero => rfl
  | succ x ih =>
    unfold scanLeft
    split
    · exact le_refl _
    · omega

lemma scanLeft_unvisited (vis : ℕ → Bool) (w y : ℕ) :
    ∀ x x', scanLeft vis w y x ≤ x' → x' < x → vis (y * w + x') = false := by
  intro x
  induction x with
  | zero => intro x' h1 h2; omega
  | succ x ih =>
    intro x' h1 h2
    unfold scanLeft at h1
    by_cases hv : vis (y * w + x) = true
    · rw [if_pos hv] at h1
      omega
    · rw [if_neg hv] at h1
      rcases Nat.lt_or_ge x' x with h3 | h3
      · exact ih x' h1 h3
      · have : x' = x := by omega
        subst this
        simp only [Bool.not_eq_true] at hv
        exact hv

lemma scanLeft_boundary (vis : ℕ → Bool) (w y : ℕ) :
    ∀ x, scanLeft vis w y x = 0 ∨ vis (y * w + (scanLeft vis w y x - 1)) = true := by
  intro x
  induction x with
  | zero => exact Or.inl rfl
  | succ x ih =>
    unfold scanLeft
    by_cases hv : vis (y * w + x) = true
    · rw [if_pos hv]
      right
      have h1 : x + 1 - 1 = x := by omega
      rw [h1]
      exact hv
    · rw [if_neg hv]
      exact ih

lemma scanRightAux_ge (vis : ℕ → Bool) (w y : ℕ) :
    ∀ f x, x ≤ scanRightAux vis w y f x := by
  intro f
  induction f with
  | zero => intro x; exact le_refl _
  | succ f ih =>
    intro x
    unfold scanRightAux
    split
    · split
      · exact le_refl _
      · have := ih (x + 1)
        omega
    · exact le_refl _

lemma scanRightAux_le (vis : ℕ → Bool) (w y : ℕ) :
    ∀ f x, x ≤ w - 1 → scanRightAux vis w y f x ≤ w - 1 := by
  intro f
  induction f with
  | zero => intro x hx; exact hx
  | succ f ih =>
    intro x hx
    unfold scanRightAux
    split
    · split
      · exact hx
      · exact ih (x + 1) (by omega)
    · exact hx

lemma scanRightAux_unvisited (vis : ℕ → Bool) (w y : ℕ) :
    ∀ f x x', x < x' → x' ≤ scanRightAux vis w y f x → vis (y * w + x') = false := by
  intro f
  induction f with
  | zero =>
    intro x x' h1 h2
    unfold scanRightAux at h2
    omega
  | succ f ih =>
    intro x x' h1 h2
    unfold scanRightAux at h2
    by_cases hlt : x < w - 1
    · rw [if_pos hlt] at h2
      by_cases hv : vis (y * w + x + 1) = true
      · rw [if_pos hv] at h2
        omega
      · rw [if_neg hv] at h2
        rcases Nat.lt_or_ge (x + 1) x' with h3 | h3
        · exact ih (x + 1) x' h3 h2
        · have hx' : x' = x + 1 := by omega
          subst hx'
          simp only [Bool.not_eq_true] at hv
          have harith : y * w + (x + 1) = y * w + x + 1 := by omega
          rw [harith]
          exact hv
    · rw [if_neg hlt] at h2
      omega

lemma scanRightAux_exit (vis : ℕ → Bool) (w y : ℕ) :
    ∀ f x, w - 1 - x ≤ f →
      w - 1 ≤ scanRightAux vis w y f x ∨
        vis (y * w + scanRightAux vis w y f x + 1) = true := by
  intro f
  induction f with
  | zero =>
    intro x hf
    unfold scanRightAux
    omega
  | succ f ih =>
    intro x hf
    unfold scanRightAux
    by_cases hlt : x < w - 1
    · rw [if_pos hlt]
      by_cases hv : vis (y * w + x + 1) = true
      · rw [if_pos hv]
        exact Or.inr hv
      · rw [if_neg hv]
        exact ih (x + 1) (by omega)
    · rw [if_neg hlt]
      omega

/-- Specification of `findSpan` at an unvisited in-bounds start pixel: the
returned range is within the row, contains the start, consists entirely of
unvisited pixels, and is maximal on both sides. -/
lemma findSpan_spec (vis : ℕ → Bool) (w x y : ℕ) (hw : 0 < w) (hx : x < w)
    (hv : vis (y * w + x) = false) :
    (findSpan vis w x y).1 ≤ x ∧ x ≤ (findSpan vis w x y).2 ∧
    (findSpan vis w x y).2 ≤ w - 1 ∧
    (∀ t, (findSpan vis w x y).1 ≤ t → t ≤ (findSpan vis w x y).2 →
      vis (y * w + t) = false) ∧
    ((findSpan vis w x y).1 = 0 ∨ vis (y * w + ((findSpan vis w x y).1 - 1)) = true) ∧
    (w - 1 ≤ (findSpan vis w x y).2 ∨ vis (y * w + (findSpan vis w x y).2 + 1) = true) := by
  unfold findSpan scanRight
  refine ⟨scanLeft_le vis w y x, scanRightAux_ge vis w y _ x,
    scanRightAux_le vis w y _ x (by omega), ?_, scanLeft_boundary vis w y x,
    scanRightAux_exit vis w y _ x (by omega)⟩
  intro t h1 h2
  rcases Nat.lt_or_ge t x with h3 | h3
  · exact scanLeft_unvisited vis w y x t h1 h3
  · rcases Nat.eq_or_lt_of_le h3 with h4 | h4
    · rw [h4] at hv
      exact hv
    · exact scanRightAux_unvisited vis w y _ x t h4 h2

/-! ### `scanSpanEnd` specification -/
lemma scanSpanEndAux_ge (vis : ℕ → Bool) (w y xr : ℕ) :
    ∀ f x, x ≤ scanSpanEndAux vis w y xr f x := by
  intro f
  induction f with
  | zero => intro x; exact le_refl _
  | succ f ih =>
    intro x
    unfold scanSpanEndAux
    split
    · split
      · exact le_refl _
      · have := ih (x + 1)
        omega
    · exact le_refl _

lemma scanSpanEndAux_le (vis : ℕ → Bool) (w y xr : ℕ) :
    ∀ f x, scanSpanEndAux vis w y xr f x ≤ max x (xr + 1) := by
  intro f
  induction f with
  | zero => intro x; unfold scanSpanEndAux; omega
  | succ f ih =>
    intro x
    unfold scanSpanEndAux
    by_cases h1 : x ≤ xr
    · rw [if_pos h1]
      split
      · omega
      · have := ih (x + 1)
        omega
    · rw [if_neg h1]
      omega

lemma scanSpanEndAux_unvisited (vis : ℕ → Bool) (w y xr : ℕ) :
    ∀ f x x', x ≤ x' → x' < scanSpanEndAux vis w y xr f x → vis (y * w + x') = false := by
  intro f
  induction f with
  | zero =>
    intro x x' h1 h2
    unfold scanSpanEndAux at h2
    omega
  | succ f ih =>
    intro x x' h1 h2
    unfold scanSpanEndAux at h2
    by_cases hle : x ≤ xr
    · rw [if_pos hle] at h2
      by_cases hv : vis (y * w + x) = true
      · rw [if_pos hv] at h2
        omega
      · rw [if_neg hv] at h2
        rcases Nat.lt_or_ge x x' with h3 | h3
        · exact ih (x + 1) x' h3 h2
        · have hx' : x' = x := by omega
          subst hx'
          simp only [Bool.not_eq_true] at hv
          exact hv
    · rw [if_neg hle] at h2
      omega

lemma scanSpanEndAux_exit (vis : ℕ → Bool) (w y xr : ℕ) :
    ∀ f x, xr + 1 - x ≤ f →
      xr < scanSpanEndAux vis w y xr f x ∨
        vis (y * w + scanSpanEndAux vis w y xr f x) = true := by
  intro f
  induction f with
  | zero =>
    intro x hf
    unfold scanSpanEndAux
    omega
  | succ f ih =>
    intro x hf
    unfold scanSpanEndAux
    by_cases hle : x ≤ xr
    · rw [if_pos hle]
      by_cases hv : vis (y * w + x) = true
      · rw [if_pos hv]
        exact Or.inr hv
      · rw [if_neg hv]
        exact ih (x + 1) (by omega)
    · rw [if_neg hle]
      omega

lemma scanSpanEnd_ge (vis : ℕ → Bool) (w y xr x : ℕ) : x ≤ scanSpanEnd vis w y xr x :=
  scanSpanEndAux_ge vis w y xr _ x

lemma scanSpanEnd_gt (vis : ℕ → Bool) (w y xr x : ℕ) (hx : x ≤ xr)
    (hv : vis (y * w + x) = false) : x + 1 ≤ scanSpanEnd vis w y xr x := by
  unfold scanSpanEnd
  have hf : xr + 1 - x = (xr - x) + 1 := by omega
  rw [hf]
  unfold scanSpanEndAux
  rw [if_pos hx, if_neg (by rw [hv]; simp)]
  exact scanSpanEndAux_ge vis w y xr _ (x + 1)

/-! ### `fillSpan` specification -/
lemma fillSpan_step (rid w y xr x : ℕ) (st : FillState) :
    fillSpan rid w y xr x st =
      if x ≤ xr then
        (if st.visited (y * w + x) then fillSpan rid w y xr (x + 1) st
         else fillSpan rid w y xr (x + 1)
           { visited := fun j => if j = y * w + x then true else st.visited j
             assign := fun j => if j = y * w + x then some rid else st.assign j })
      else st := by
  by_cases h : x ≤ xr
  · rw [if_pos h]
    show fillSpanAux rid w y xr (xr + 1 - x) x st = _
    have hf : xr + 1 - x = (xr + 1 - (x + 1)) + 1 := by omega
    rw [hf]
    show (if x ≤ xr then _ else st) = _
    rw [if_pos h]
    rfl
  · rw [if_neg h]
    show fillSpanAux rid w y xr (xr + 1 - x) x st = st
    have hf : xr + 1 - x = 0 := by omega
    rw [hf]
    rfl

lemma fillSpan_spec (rid w y xr : ℕ) :
    ∀ x st,
      (∀ x', x ≤ x' → x' ≤ xr →
        (fillSpan rid w y xr x st).visited (y * w + x') = true ∧
        (fillSpan rid w y xr x st).assign (y * w + x') =
          (if st.visited (y * w + x') = true then st.assign (y * w + x') else some rid)) ∧
      (∀ j, (∀ x', x ≤ x' → x' ≤ xr → j ≠ y * w + x') →
        (fillSpan rid w y xr x st).visited j = st.visited j ∧
        (fillSpan rid w y xr x st).assign j = st.assign j) := by
  intro x
  generalize hm : xr + 1 - x = m
  induction m generalizing x with
  | zero =>
    intro st
    constructor
    · intro x' h1 h2
      omega
    · intro j hj
      rw [fillSpan_step, if_neg (by omega)]
      exact ⟨rfl, rfl⟩
  | succ m ih =>
    intro st
    have hx : x ≤ xr := by omega
    have hrec := ih (x + 1) (by omega)
    constructor
    · intro x' h1 h2
      rw [fillSpan_step, if_pos hx]
      by_cases hv : st.visited (y * w + x) = true
      · rw [if_pos hv]
        rcases Nat.eq_or_lt_of_le h1 with h3 | h3
        · subst h3
          have hfr := (hrec st).2 (y * w + x) (fun x'' hx1 hx2 => by omega)
          rw [hfr.1, hfr.2, hv]
          exact ⟨rfl, by rw [if_pos rfl]⟩
        · exact (hrec st).1 x' h3 h2
      · rw [if_neg hv]
        set st' : FillState :=
          { visited := fun j => if j = y * w + x then true else st.visited j
            assign := fun j => if j = y * w + x then some rid else st.assign j } with hst'
        rcases Nat.eq_or_lt_of_le h1 with h3 | h3
        · subst h3
          have hfr := (hrec st').2 (y * w + x) (fun x'' hx1 hx2 => by omega)
          rw [hfr.1, hfr.2]
          constructor
          · show (if y * w + x = y * w + x then true else st.visited _) = true
            rw [if_pos rfl]
          · rw [if_neg hv]
            show (if y * w + x = y * w + x then some rid else st.assign _) = some rid
            rw [if_pos rfl]
        · have hsp := (hrec st').1 x' h3 h2
          have hv1 : st'.visited (y * w + x') = st.visited (y * w + x') := by
            show (if y * w + x' = y * w + x then true else st.visited _) = _
            rw [if_neg (by omega)]
          have hv2 : st'.assign (y * w + x') = st.assign (y * w + x') := by
            show (if y * w + x' = y * w + x then some rid else st.assign _) = _
            rw [if_neg (by omega)]
          rw [hsp.2, hv1, hv2] at *
          exact ⟨hsp.1, rfl⟩
    · intro j hj
      rw [fillSpan_step, if_pos hx]
      by_cases hv : st.visited (y * w + x) = true
      · rw [if_pos hv]
        exact (hrec st).2 j (fun x'' hx1 hx2 => hj x'' (by omega) hx2)
      · rw [if_neg hv]
        set st' : FillState :=
          { visited := fun j => if j = y * w + x then true else st.visited j
            assign := fun j => if j = y * w + x then some rid else st.assign j } with hst'
        have hfr := (hrec st').2 j (fun x'' hx1 hx2 => hj x'' (by omega) hx2)
        have hne : j ≠ y * w + x := hj x (le_refl _) hx
        have hv1 : st'.visited j = st.visited j := by
          show (if j = y * w + x then true else st.visited j) = _
          rw [if_neg hne]
        have hv2 : st'.assign j = st.assign j := by
          show (if j = y * w + x then some rid else st.assign j) = _
          rw [if_neg hne]
        rw [hfr.1, hfr.2, hv1, hv2]
        exact ⟨rfl, rfl⟩

lemma fillSpan_visited_mono (rid w y xr x : ℕ) (st : FillState) (j : ℕ)
    (h : st.visited j = true) : (fillSpan rid w y xr x st).visited j = true := by
  by_cases hin : ∃ x', x ≤ x' ∧ x' ≤ xr ∧ j = y * w + x'
  · obtain ⟨x', h1, h2, rfl⟩ := hin
    exact ((fillSpan_spec rid w y xr x st).1 x' h1 h2).1
  · push_neg at hin
    rw [((fillSpan_spec rid w y xr x st).2 j (fun x' h1 h2 => hin x' h1 h2)).1]
    exact h

lemma fillSpan_visited_char (rid w y xr x : ℕ) (st : FillState) (j : ℕ)
    (h : (fillSpan rid w y xr x st).visited j = true) :
    st.visited j = true ∨ ∃ x', x ≤ x' ∧ x' ≤ xr ∧ j = y * w + x' := by
  by_cases hin : ∃ x', x ≤ x' ∧ x' ≤ xr ∧ j = y * w + x'
  · exact Or.inr hin
  · push_neg at hin
    left
    rw [← ((fillSpan_spec rid w y xr x st).2 j (fun x' h1 h2 => hin x' h1 h2)).1]
    exact h

lemma fillSpan_assign_visited (rid w y xr x : ℕ) (st : FillState) (j : ℕ)
    (h : st.visited j = true) : (fillSpan rid w y xr x st).assign j = st.assign j := by
  by_cases hin : ∃ x', x ≤ x' ∧ x' ≤ xr ∧ j = y * w + x'
  · obtain ⟨x', h1, h2, rfl⟩ := hin
    rw [((fillSpan_spec rid w y xr x st).1 x' h1 h2).2, if_pos h]
  · push_neg at hin
    exact ((fillSpan_spec rid w y xr x st).2 j (fun x' h1 h2 => hin x' h1 h2)).2

lemma fillSpan_assign_char (rid w y xr x : ℕ) (st : FillState) (j : ℕ) :
    (fillSpan rid w y xr x st).assign j = st.assign j ∨
      ((fillSpan rid w y xr x st).assign j = some rid ∧ st.visited j = false ∧
        ∃ x', x ≤ x' ∧ x' ≤ xr ∧ j = y * w + x') := by
  by_cases hin : ∃ x', x ≤ x' ∧ x' ≤ xr ∧ j = y * w + x'
  · obtain ⟨x', h1, h2, rfl⟩ := hin
    by_cases hv : st.visited (y * w + x') = true
    · left
      exact fillSpan_assign_visited rid w y xr x st _ hv
    · right
      rw [((fillSpan_spec rid w y xr x st).1 x' h1 h2).2, if_neg hv]
      simp only [Bool.not_eq_true] at hv
      exact ⟨rfl, hv, x', h1, h2, rfl⟩
  · push_neg at hin
    left
    exact ((fillSpan_spec rid w y xr x st).2 j (fun x' h1 h2 => hin x' h1 h2)).2

/-! ### `addSpansForLine` specification -/
lemma scanSpanEnd_le (vis : ℕ → Bool) (w y xr x : ℕ) :
    scanSpanEnd vis w y xr x ≤ max x (xr + 1) :=
  scanSpanEndAux_le vis w y xr _ x

lemma scanSpanEnd_unvisited (vis : ℕ → Bool) (w y xr x x' : ℕ) (h1 : x ≤ x')
    (h2 : x' < scanSpanEnd vis w y xr x) : vis (y * w + x') = false :=
  scanSpanEndAux_unvisited vis w y xr _ x x' h1 h2

lemma addSpansAux_out (vis : ℕ → Bool) (w y xr : ℕ) :
    ∀ f x stack, xr < x → addSpansForLineAux vis w y xr f x stack = stack := by
  intro f
  cases f with
  | zero => intro x stack _; rfl
  | succ f =>
    intro x stack hx
    show (if x ≤ xr then _ else stack) = stack
    rw [if_neg (by omega)]

lemma addSpansAux_fuel_irrel (vis : ℕ → Bool) (w y xr : ℕ) :
    ∀ f f' x stack, xr + 1 - x ≤ f → xr + 1 - x ≤ f' →
      addSpansForLineAux vis w y xr f x stack = addSpansForLineAux vis w y xr f' x stack := by
  intro f
  induction f with
  | zero =>
    intro f' x stack hf hf'
    have hx : xr < x := by omega
    rw [addSpansAux_out vis w y xr 0 x stack hx, addSpansAux_out vis w y xr f' x stack hx]
  | succ f ih =>
    intro f' x stack hf hf'
    by_cases hx : x ≤ xr
    · cases f' with
      | zero => omega
      | succ f'' =>
        show (if x ≤ xr then _ else stack) = (if x ≤ xr then _ else stack)
        rw [if_pos hx, if_pos hx]
        by_cases hv : vis (y * w + x) = true
        · rw [if_pos hv, if_pos hv]
          exact ih f'' (x + 1) stack (by omega) (by omega)
        · rw [if_neg hv, if_neg hv]
          have hse : x + 1 ≤ scanSpanEnd vis w y xr (x + 1) := scanSpanEnd_ge vis w y xr (x + 1)
          exact ih f'' _ _ (by omega) (by omega)
    · rw [addSpansAux_out vis w y xr _ x stack (by omega),
        addSpansAux_out vis w y xr f' x stack (by omega)]

/-- One unrolling of the outer loop of `addSpansForLine`. -/
lemma addSpansForLine_step (vis : ℕ → Bool) (w y xr x : ℕ) (stack : List Span) :
    addSpansForLine vis w y xr x stack =
      if x ≤ xr then
        (if vis (y * w + x) then addSpansForLine vis w y xr (x + 1) stack
         else addSpansForLine vis w y xr (scanSpanEnd vis w y xr (x + 1))
           (⟨y, (findSpan vis w x y).1, (findSpan vis w x y).2⟩ :: stack))
      else stack := by
  by_cases hx : x ≤ xr
  · rw [if_pos hx]
    show addSpansForLineAux vis w y xr (xr + 1 - x) x stack = _
    have hf : xr + 1 - x = (xr - x) + 1 := by omega
    rw [hf]
    show (if x ≤ xr then _ else stack) = _
    rw [if_pos hx]
    by_cases hv : vis (y * w + x) = true
    · rw [if_pos hv, if_pos hv]
      show addSpansForLineAux vis w y xr (xr - x) (x + 1) stack =
        addSpansForLineAux vis w y xr (xr + 1 - (x + 1)) (x + 1) stack
      exact addSpansAux_fuel_irrel vis w y xr _ _ _ _ (by omega) (by omega)
    · rw [if_neg hv, if_neg hv]
      have hse : x + 1 ≤ scanSpanEnd vis w y xr (x + 1) := scanSpanEnd_ge vis w y xr (x + 1)
      exact addSpansAux_fuel_irrel vis w y xr _ _ _ _ (by omega) (by omega)
  · rw [if_neg hx]
    exact addSpansAux_out vis w y xr _ x stack (by omega)

lemma addSpansForLine_spec_aux (vis : ℕ → Bool) (w y xr : ℕ) (hw : 0 < w) (hxr : xr < w) :
    ∀ m x stack, xr + 1 - x ≤ m → ∃ news : List Span,
      addSpansForLine vis w y xr x stack = news ++ stack ∧
      news.length ≤ xr + 1 - x ∧
      (∀ s ∈ news, s.y = y ∧ s.xLeft ≤ s.xRight ∧ s.xRight ≤ w - 1 ∧
        (∀ t, s.xLeft ≤ t → t ≤ s.xRight → vis (y * w + t) = false) ∧
        (s.xLeft = 0 ∨ vis (y * w + (s.xLeft - 1)) = true) ∧
        (w - 1 ≤ s.xRight ∨ vis (y * w + s.xRight + 1) = true) ∧
        (∃ x0, x ≤ x0 ∧ x0 ≤ xr ∧ s.xLeft ≤ x0 ∧ x0 ≤ s.xRight)) ∧
      (∀ t, x ≤ t → t ≤ xr → vis (y * w + t) = true ∨
        ∃ s ∈ news, s.xLeft ≤ t ∧ t ≤ s.xRight) := by
  intro m
  induction m with
  | zero =>
    intro x stack hm
    refine ⟨[], ?_, by simp, by simp, ?_⟩
    · rw [addSpansForLine_step, if_neg (by omega)]
      rfl
    · intro t h1 h2
      omega
  | succ m ih =>
    intro x stack hm
    by_cases hx : x ≤ xr
    · by_cases hv : vis (y * w + x) = true
      · obtain ⟨news, heq, hlen, hprops, hcov⟩ := ih (x + 1) stack (by omega)
        refine ⟨news, ?_, by omega, ?_, ?_⟩
        · rw [addSpansForLine_step, if_pos hx, if_pos hv]
          exact heq
        · intro s hs
          obtain ⟨hy, h1, h2, h3, h4, h5, x0, hx0⟩ := hprops s hs
          exact ⟨hy, h1, h2, h3, h4, h5, x0, by omega, hx0.2.1, hx0.2.2⟩
        · intro t h1 h2
          rcases Nat.eq_or_lt_of_le h1 with h3 | h3
          · rw [← h3]
            exact Or.inl hv
          · exact hcov t h3 h2
      · have hvf : vis (y * w + x) = false := by
          simp only [Bool.not_eq_true] at hv
          exact hv
        have hxw : x < w := by omega
        obtain ⟨hfs1, hfs2, hfs3, hfs4, hfs5, hfs6⟩ := findSpan_spec vis w x y hw hxw hvf
        have hs'ge : x + 1 ≤ scanSpanEnd vis w y xr (x + 1) := scanSpanEnd_ge vis w y xr (x + 1)
        have hrge : scanSpanEnd vis w y xr (x + 1) ≤ (findSpan vis w x y).2 + 1 := by
          rcases hfs6 with h | h
          · have h2 := scanSpanEnd_le vis w y xr (x + 1)
            omega
          · by_contra hcon
            have h3 : vis (y * w + ((findSpan vis w x y).2 + 1)) = false :=
              scanSpanEnd_unvisited vis w y xr (x + 1) _ (by omega) (by omega)
            rw [← Nat.add_assoc] at h3
            rw [h] at h3
            exact Bool.noConfusion h3
        obtain ⟨news, heq, hlen, hprops, hcov⟩ :=
          ih (scanSpanEnd vis w y xr (x + 1))
            (⟨y, (findSpan vis w x y).1, (findSpan vis w x y).2⟩ :: stack) (by omega)
        refine ⟨news ++ [⟨y, (findSpan vis w x y).1, (findSpan vis w x y).2⟩], ?_, ?_, ?_, ?_⟩
        · rw [addSpansForLine_step, if_pos hx, if_neg hv, heq]
          simp
        · rw [List.length_append]
          simp only [List.length_singleton]
          omega
        · intro s hs
          rw [List.mem_append, List.mem_singleton] at hs
          rcases hs with hs | hs
          · obtain ⟨hy, h1, h2, h3, h4, h5, x0, hx0⟩ := hprops s hs
            exact ⟨hy, h1, h2, h3, h4, h5, x0, by omega, hx0.2.1, hx0.2.2⟩
          · rw [hs]
            exact ⟨rfl, le_trans hfs1 hfs2, hfs3, hfs4, hfs5, hfs6,
              x, le_refl x, hx, hfs1, hfs2⟩
        · intro t h1 h2
          rcases Nat.lt_or_ge t (scanSpanEnd vis w y xr (x + 1)) with h3 | h3
          · refine Or.inr ⟨⟨y, (findSpan vis w x y).1, (findSpan vis w x y).2⟩,
              by simp, le_trans hfs1 h1, ?_⟩
            show t ≤ (findSpan vis w x y).2
            omega
          · rcases hcov t h3 h2 with h4 | ⟨s, hs, h5, h6⟩
            · exact Or.inl h4
            · exact Or.inr ⟨s, List.mem_append_left _ hs, h5, h6⟩
    · refine ⟨[], ?_, by simp, by simp, ?_⟩
      · rw [addSpansForLine_step, if_neg hx]
        rfl
      · intro t h1 h2
        omega

/-- Specification of `addSpansForLine`: it pushes a list of new spans onto
the stack, each lying in row `y` within the image, entirely unvisited,
maximal on both sides, and overlapping the scanned range `[x, xr]`; every
unvisited pixel of the scanned range is covered by some pushed span; and at
most one span is pushed per scanned pixel. -/
lemma addSpansForLine_spec (vis : ℕ → Bool) (w y xr x : ℕ) (stack : List Span)
    (hw : 0 < w) (hxr : xr < w) :
    ∃ news : List Span,
      addSpansForLine vis w y xr x stack = news ++ stack ∧
      news.length ≤ xr + 1 - x ∧
      (∀ s ∈ news, s.y = y ∧ s.xLeft ≤ s.xRight ∧ s.xRight ≤ w - 1 ∧
        (∀ t, s.xLeft ≤ t → t ≤ s.xRight → vis (y * w + t) = false) ∧
        (s.xLeft = 0 ∨ vis (y * w + (s.xLeft - 1)) = true) ∧
        (w - 1 ≤ s.xRight ∨ vis (y * w + s.xRight + 1) = true) ∧
        (∃ x0, x ≤ x0 ∧ x0 ≤ xr ∧ s.xLeft ≤ x0 ∧ x0 ≤ s.xRight)) ∧
      (∀ t, x ≤ t → t ≤ xr → vis (y * w + t) = true ∨
        ∃ s ∈ news, s.xLeft ≤ t ∧ t ≤ s.xRight) :=
  addSpansForLine_spec_aux vis w y xr hw hxr (xr + 1 - x) x stack (le_refl _)

lemma unvis_le (w h : ℕ) (st : FillState) : unvis w h st ≤ w * h :=
  le_trans (Finset.card_filter_le _ _) (le_of_eq (Finset.card_range _))

lemma unvis_mono (w h : ℕ) (st st' : FillState)
    (h1 : ∀ j, st.visited j = true → st'.visited j = true) :
    unvis w h st' ≤ unvis w h st := by
  apply Finset.card_le_card
  intro i hi
  rw [Finset.mem_filter] at hi ⊢
  refine ⟨hi.1, ?_⟩
  by_cases hv : st.visited i = true
  · rw [h1 i hv] at hi
    exact absurd hi.2 (by simp)
  · simp only [Bool.not_eq_true] at hv
    exact hv

lemma unvis_lt (w h : ℕ) (st st' : FillState) (j : ℕ)
    (h1 : ∀ i, st.visited i = true → st'.visited i = true)
    (hj : j < w * h) (hjv : st.visited j = false) (hjv' : st'.visited j = true) :
    unvis w h st' < unvis w h st := by
  apply Finset.card_lt_card
  rw [Finset.ssubset_iff_of_subset]
  · refine ⟨j, ?_, ?_⟩
    · rw [Finset.mem_filter, Finset.mem_range]
      exact ⟨hj, hjv⟩
    · rw [Finset.mem_filter]
      intro hc
      rw [hjv'] at hc
      exact absurd hc.2 (by simp)
  · intro i hi
    rw [Finset.mem_filter] at hi ⊢
    refine ⟨hi.1, ?_⟩
    by_cases hv : st.visited i = true
    · rw [h1 i hv] at hi
      exact absurd hi.2 (by simp)
    · simp only [Bool.not_eq_true] at hv
      exact hv

lemma unvis_congr (w h : ℕ) (st st' : FillState)
    (h1 : ∀ j, st'.visited j = st.visited j) : unvis w h st' = unvis w h st := by
  unfold unvis
  congr 1
  apply Finset.filter_congr
  intro i _
  rw [h1 i]

lemma fillSpan_visited_eq_of_full (rid w y xr x : ℕ) (st : FillState)
    (h0 : ∀ t, x ≤ t → t ≤ xr → st.visited (y * w + t) = true) :
    ∀ j, (fillSpan rid w y xr x st).visited j = st.visited j := by
  intro j
  by_cases hin : ∃ t, x ≤ t ∧ t ≤ xr ∧ j = y * w + t
  · obtain ⟨t, h1, h2, rfl⟩ := hin
    rw [((fillSpan_spec rid w y xr x st).1 t h1 h2).1, h0 t h1 h2]
  · push_neg at hin
    exact ((fillSpan_spec rid w y xr x st).2 j hin).1

lemma spanUnvisCount_eq_zero (w : ℕ) (st : FillState) (s : Span)
    (h : spanUnvisCount w st s = 0) :
    ∀ t, s.xLeft ≤ t → t ≤ s.xRight → st.visited (s.y * w + t) = true := by
  intro t h1 h2
  by_contra hc
  simp only [Bool.not_eq_true] at hc
  have hmem : t ∈ (Finset.Icc s.xLeft s.xRight).filter
      fun t => st.visited (s.y * w + t) = false := by
    rw [Finset.mem_filter, Finset.mem_Icc]
    exact ⟨⟨h1, h2⟩, hc⟩
  have hpos : 0 < spanUnvisCount w st s := by
    unfold spanUnvisCount
    exact Finset.card_pos.2 ⟨t, hmem⟩
  omega

lemma spanUnvisCount_pos (w : ℕ) (st : FillState) (s : Span) (t : ℕ)
    (h1 : s.xLeft ≤ t) (h2 : t ≤ s.xRight) (hv : st.visited (s.y * w + t) = false) :
    0 < spanUnvisCount w st s := by
  unfold spanUnvisCount
  refine Finset.card_pos.2 ⟨t, ?_⟩
  rw [Finset.mem_filter, Finset.mem_Icc]
  exact ⟨⟨h1, h2⟩, hv⟩

lemma spanUnvisCount_witness (w : ℕ) (st : FillState) (s : Span)
    (h : 0 < spanUnvisCount w st s) :
    ∃ t, s.xLeft ≤ t ∧ t ≤ s.xRight ∧ st.visited (s.y * w + t) = false := by
  unfold spanUnvisCount at h
  obtain ⟨t, ht⟩ := Finset.card_pos.1 h
  rw [Finset.mem_filter, Finset.mem_Icc] at ht
  exact ⟨t, ht.1.1, ht.1.2, ht.2⟩

lemma fillMeasure_le (w h : ℕ) (stack : List Span) (st : FillState) :
    fillMeasure w h stack st ≤ (4 * w + 2) * unvis w h st + stack.length + 2 * w := by
  unfold fillMeasure
  cases stack with
  | nil => dsimp only; omega
  | cons s rest =>
    dsimp only
    split <;> omega

lemma fillMeasure_ge (w h : ℕ) (stack : List Span) (st : FillState) :
    (4 * w + 2) * unvis w h st + stack.length ≤ fillMeasure w h stack st := by
  unfold fillMeasure
  cases stack with
  | nil => dsimp only; omega
  | cons s rest =>
    dsimp only
    split <;> omega

lemma fillMeasure_cons_top_unvis (w h : ℕ) (s : Span) (rest : List Span) (st : FillState)
    (h1 : 0 < spanUnvisCount w st s) :
    fillMeasure w h (s :: rest) st =
      (4 * w + 2) * unvis w h st + (rest.length + 1) := by
  unfold fillMeasure
  dsimp only
  rw [if_neg (by omega)]
  simp

lemma fillMeasure_cons_top_full (w h : ℕ) (s : Span) (rest : List Span) (st : FillState)
    (h1 : spanUnvisCount w st s = 0) :
    fillMeasure w h (s :: rest) st =
      (4 * w + 2) * unvis w h st + (rest.length + 1) + 2 * w := by
  unfold fillMeasure
  dsimp only
  rw [if_pos h1]
  simp

/-- One unrolling of the span-stack loop. -/
lemma fillLoop_succ (w h rid fuel : ℕ) (s : Span) (rest : List Span) (st : FillState) :
    fillLoop w h rid (fuel + 1) (s :: rest) st =
      fillLoop w h rid fuel
        (if s.y < h - 1 then
          addSpansForLine (fillSpan rid w s.y s.xRight s.xLeft st).visited w (s.y + 1)
            s.xRight s.xLeft
            (if 0 < s.y then
              addSpansForLine (fillSpan rid w s.y s.xRight s.xLeft st).visited w (s.y - 1)
                s.xRight s.xLeft rest
            else rest)
        else
          (if 0 < s.y then
            addSpansForLine (fillSpan rid w s.y s.xRight s.xLeft st).visited w (s.y - 1)
              s.xRight s.xLeft rest
          else rest))
        (fillSpan rid w s.y s.xRight s.xLeft st) := rfl

/-- With fuel at least the measure, the span-stack loop completes. -/
lemma fillLoop_some (w h rid : ℕ) (hw : 0 < w) :
    ∀ n stack st,
      (∀ s ∈ stack, s.y < h ∧ s.xLeft ≤ s.xRight ∧ s.xRight ≤ w - 1) →
      fillMeasure w h stack st ≤ n →
      (fillLoop w h rid n stack st).isSome = true := by
  intro n
  induction n with
  | zero =>
    intro stack st hWF hm
    cases stack with
    | nil => rfl
    | cons s rest =>
      exfalso
      have h1 := fillMeasure_ge w h (s :: rest) st
      simp only [List.length_cons] at h1
      omega
  | succ n ih =>
    intro stack st hWF hm
    cases stack with
    | nil => rfl
    | cons s rest =>
      obtain ⟨hy, hlr, hrw⟩ := hWF s (List.mem_cons_self s rest)
      rw [fillLoop_succ]
      set st2 := fillSpan rid w s.y s.xRight s.xLeft st with hst2
      have hmono : ∀ j, st.visited j = true → st2.visited j = true := by
        intro j hj
        rw [hst2]
        exact fillSpan_visited_mono rid w s.y s.xRight s.xLeft st j hj
      obtain ⟨news2, heq2, hlen2, hprops2⟩ :
          ∃ news2,
            (if 0 < s.y then
              addSpansForLine st2.visited w (s.y - 1) s.xRight s.xLeft rest
            else rest) = news2 ++ rest ∧ news2.length ≤ w ∧
            ∀ sp ∈ news2, (sp.y < h ∧ sp.xLeft ≤ sp.xRight ∧ sp.xRight ≤ w - 1) ∧
              ∀ t, sp.xLeft ≤ t → t ≤ sp.xRight → st2.visited (sp.y * w + t) = false := by
        by_cases hg : 0 < s.y
        · rw [if_pos hg]
          obtain ⟨news, heq, hlen, hprops, _⟩ :=
            addSpansForLine_spec st2.visited w (s.y - 1) s.xRight s.xLeft rest hw (by omega)
          refine ⟨news, heq, by omega, ?_⟩
          intro sp hsp
          obtain ⟨hspy, h1, h2, h3, _, _, _⟩ := hprops sp hsp
          refine ⟨⟨by omega, h1, h2⟩, ?_⟩
          rw [hspy]
          exact h3
        · rw [if_neg hg]
          exact ⟨[], by simp, by simp, by simp⟩
      rw [heq2]
      obtain ⟨news3, heq3, hlen3, hprops3⟩ :
          ∃ news3,
            (if s.y < h - 1 then
              addSpansForLine st2.visited w (s.y + 1) s.xRight s.xLeft (news2 ++ rest)
            else news2 ++ rest) = news3 ++ (news2 ++ rest) ∧ news3.length ≤ w ∧
            ∀ sp ∈ news3, (sp.y < h ∧ sp.xLeft ≤ sp.xRight ∧ sp.xRight ≤ w - 1) ∧
              ∀ t, sp.xLeft ≤ t → t ≤ sp.xRight → st2.visited (sp.y * w + t) = false := by
        by_cases hg : s.y < h - 1
        · rw [if_pos hg]
          obtain ⟨news, heq, hlen, hprops, _⟩ :=
            addSpansForLine_spec st2.visited w (s.y + 1) s.xRight s.xLeft (news2 ++ rest)
              hw (by omega)
          refine ⟨news, heq, by omega, ?_⟩
          intro sp hsp
          obtain ⟨hspy, h1, h2, h3, _, _, _⟩ := hprops sp hsp
          refine ⟨⟨by omega, h1, h2⟩, ?_⟩
          rw [hspy]
          exact h3
        · rw [if_neg hg]
          exact ⟨[], by simp, by simp, by simp⟩
      rw [heq3, ← List.append_assoc]
      apply ih
      · intro sp hsp
        rw [List.append_assoc, List.mem_append] at hsp
        rcases hsp with hsp | hsp
        · exact (hprops3 sp hsp).1
        · rw [List.mem_append] at hsp
          rcases hsp with hsp | hsp
          · exact (hprops2 sp hsp).1
          · exact hWF sp (List.mem_cons_of_mem s hsp)
      · -- the measure strictly decreases across the iteration
        by_cases hk : spanUnvisCount w st s = 0
        · have hfull := spanUnvisCount_eq_zero w st s hk
          have hpt : ∀ j, st2.visited j = st.visited j := by
            intro j
            rw [hst2]
            exact fillSpan_visited_eq_of_full rid w s.y s.xRight s.xLeft st hfull j
          have hU : unvis w h st2 = unvis w h st := unvis_congr w h st st2 hpt
          have hmold := fillMeasure_cons_top_full w h s rest st hk
          rcases hne : news3 ++ news2 with _ | ⟨sp0, tail⟩
          · have hle := fillMeasure_le w h rest st2
            rw [hU] at hle
            simp only [List.nil_append]
            omega
          · have hsp0 : sp0 ∈ news3 ++ news2 := by
              rw [hne]
              exact List.mem_cons_self sp0 tail
            have hsp0props :
                (sp0.y < h ∧ sp0.xLeft ≤ sp0.xRight ∧ sp0.xRight ≤ w - 1) ∧
                ∀ t, sp0.xLeft ≤ t → t ≤ sp0.xRight →
                  st2.visited (sp0.y * w + t) = false := by
              rw [List.mem_append] at hsp0
              rcases hsp0 with hsp0 | hsp0
              · exact hprops3 sp0 hsp0
              · exact hprops2 sp0 hsp0
            have hpos : 0 < spanUnvisCount w st2 sp0 :=
              spanUnvisCount_pos w st2 sp0 sp0.xLeft (le_refl _) hsp0props.1.2.1
                (hsp0props.2 sp0.xLeft (le_refl _) hsp0props.1.2.1)
            rw [List.cons_append]
            have hmnew := fillMeasure_cons_top_unvis w h sp0 (tail ++ rest) st2 hpos
            have hlentail : tail.length + 1 ≤ 2 * w := by
              have := congrArg List.length hne
              simp only [List.length_append, List.length_cons] at this
              omega
            rw [hmnew, hU]
            simp only [List.length_append]
            omega
        · obtain ⟨t0, ht1, ht2, ht3⟩ :=
            spanUnvisCount_witness w st s (by omega)
          have ht0w : t0 < w := by omega
          have hj : s.y * w + t0 < w * h := by
            calc s.y * w + t0 < s.y * w + w := by omega
              _ = (s.y + 1) * w := by ring
              _ ≤ h * w := Nat.mul_le_mul_right w (by omega)
              _ = w * h := Nat.mul_comm h w
          have hvis2 : st2.visited (s.y * w + t0) = true := by
            rw [hst2]
            exact ((fillSpan_spec rid w s.y s.xRight s.xLeft st).1 t0 ht1 ht2).1
          have hU : unvis w h st2 < unvis w h st :=
            unvis_lt w h st st2 (s.y * w + t0) hmono hj ht3 hvis2
          have hCk : (4 * w + 2) * unvis w h st2 + (4 * w + 2) ≤
              (4 * w + 2) * unvis w h st := by
            calc (4 * w + 2) * unvis w h st2 + (4 * w + 2)
                = (4 * w + 2) * (unvis w h st2 + 1) := by ring
              _ ≤ (4 * w + 2) * unvis w h st := Nat.mul_le_mul_left _ (by omega)
          have hge := fillMeasure_ge w h (s :: rest) st
          have hle := fillMeasure_le w h ((news3 ++ news2) ++ rest) st2
          simp only [List.length_append, List.length_cons] at hge hle
          omega

/-- With the explicit fuel bound, a single region fill completes. -/
lemma fillRegionWithSDF_some (w h startX startY rid : ℕ) (hw : 0 < w)
    (hx : startX < w) (hy : startY < h) (st : FillState)
    (hv : st.visited (startY * w + startX) = false) :
    (fillRegionWithSDF w h startX startY rid
      ((4 * w + 2) * (w * h) + 2 * w + 1) st).isSome = true := by
  unfold fillRegionWithSDF
  obtain ⟨hfs1, hfs2, hfs3, _, _, _⟩ := findSpan_spec st.visited w startX startY hw hx hv
  apply fillLoop_some w h rid hw
  · intro s hs
    rw [List.mem_singleton] at hs
    rw [hs]
    exact ⟨hy, le_trans hfs1 hfs2, hfs3⟩
  · have h1 := fillMeasure_le w h
      [⟨startY, (findSpan st.visited w startX startY).1,
        (findSpan st.visited w startX startY).2⟩] st
    have h2 : (4 * w + 2) * unvis w h st ≤ (4 * w + 2) * (w * h) :=
      Nat.mul_le_mul_left _ (unvis_le w h st)
    simp only [List.length_singleton] at h1
    omega

/-- With the explicit fuel bound, the whole region scan completes. -/
lemma fillRegionsAux_some (w h : ℕ) (hw : 0 < w) :
    ∀ rem idx rid st,
      (fillRegionsAux w h ((4 * w + 2) * (w * h) + 2 * w + 1)
        rem idx rid st).isSome = true := by
  intro rem
  induction rem with
  | zero => intro idx rid st; rfl
  | succ rem ih =>
    intro idx rid st
    have hstep : fillRegionsAux w h ((4 * w + 2) * (w * h) + 2 * w + 1)
        (rem + 1) idx rid st =
        if idx < w * h then
          (if st.visited idx then
            fillRegionsAux w h ((4 * w + 2) * (w * h) + 2 * w + 1) rem (idx + 1) rid st
          else
            match fillRegionWithSDF w h (idx % w) (idx / w) rid
                ((4 * w + 2) * (w * h) + 2 * w + 1) st with
            | none => none
            | some st2 =>
              fillRegionsAux w h ((4 * w + 2) * (w * h) + 2 * w + 1)
                rem (idx + 1) (rid + 1) st2)
        else some (st, rid) := rfl
    rw [hstep]
    by_cases hidx : idx < w * h
    · rw [if_pos hidx]
      by_cases hvb : st.visited idx = true
      · rw [if_pos hvb]
        exact ih (idx + 1) rid st
      · rw [if_neg hvb]
        simp only [Bool.not_eq_true] at hvb
        have hidx_eq : idx / w * w + idx % w = idx := by
          rw [Nat.mul_comm]
          exact Nat.div_add_mod idx w
        have hsome := fillRegionWithSDF_some w h (idx % w) (idx / w) rid hw
          (Nat.mod_lt idx hw)
          ((Nat.div_lt_iff_lt_mul hw).2 (by rw [Nat.mul_comm]; exact hidx)) st
          (by rw [hidx_eq]; exact hvb)
        obtain ⟨st2, hst2⟩ := Option.isSome_iff_exists.1 hsome
        rw [hst2]
        exact ih (idx + 1) (rid + 1) st2
    · rw [if_neg hidx]
      rfl

lemma adjacent4_symm (w h x y x' y' : ℕ) (h1 : Adjacent4 w h x y x' y') :
    Adjacent4 w h x' y' x y := by
  unfold Adjacent4 at h1 ⊢
  omega

lemma pixel_lt (w h x y : ℕ) (hx : x < w) (hy : y < h) : y * w + x < w * h := by
  calc y * w + x < y * w + w := by omega
    _ = (y + 1) * w := by ring
    _ ≤ h * w := Nat.mul_le_mul_right w (by omega)
    _ = w * h := Nat.mul_comm h w

lemma flatIdx_inj (w b a y x : ℕ) (hw : 0 < w) (ha : a < w) (hx : x < w)
    (he : b * w + a = y * w + x) : b = y ∧ a = x := by
  have h1 : (b * w + a) / w = b := by
    rw [Nat.mul_comm b w, Nat.mul_add_div hw, Nat.div_eq_of_lt ha, Nat.add_zero]
  have h2 : (y * w + x) / w = y := by
    rw [Nat.mul_comm y w, Nat.mul_add_div hw, Nat.div_eq_of_lt hx, Nat.add_zero]
  have hby : b = y := by rw [← h1, ← h2, he]
  subst hby
  constructor
  · rfl
  · omega

lemma conn_free (w h : ℕ) (free : ℕ → Prop) (sx sy x y : ℕ)
    (h1 : Conn w h free sx sy x y) : free (y * w + x) ∧ x < w ∧ y < h := by
  cases h1 with
  | refl hx hy hf => exact ⟨hf, hx, hy⟩
  | step a b c d e f g => exact ⟨g, f.2.2.1, f.2.2.2.1⟩

/-- Walking horizontally through a free interval preserves reachability. -/
lemma conn_of_interval (w h : ℕ) (free : ℕ → Prop) (sx sy y' lo hi : ℕ)
    (hy : y' < h) (hhi : hi < w)
    (hfree : ∀ t, lo ≤ t → t ≤ hi → free (y' * w + t)) (x0 : ℕ)
    (h0l : lo ≤ x0) (h0r : x0 ≤ hi)
    (hconn : Conn w h free sx sy x0 y') :
    ∀ t, lo ≤ t → t ≤ hi → Conn w h free sx sy t y' := by
  have hup : ∀ d, x0 + d ≤ hi → Conn w h free sx sy (x0 + d) y' := by
    intro d
    induction d with
    | zero => intro _; simpa using hconn
    | succ d ih =>
      intro hd
      refine Conn.step sx sy (x0 + d) y' (x0 + d + 1) y' (ih (by omega))
        ⟨by omega, hy, by omega, hy, Or.inr ⟨rfl, Or.inl rfl⟩⟩
        (hfree _ (by omega) (by omega))
  have hdown : ∀ d, lo + d ≤ x0 → Conn w h free sx sy (x0 - d) y' := by
    intro d
    induction d with
    | zero => intro _; simpa using hconn
    | succ d ih =>
      intro hd
      have he : x0 - (d + 1) = x0 - d - 1 := by omega
      rw [he]
      refine Conn.step sx sy (x0 - d) y' (x0 - d - 1) y' (ih (by omega))
        ⟨by omega, hy, by omega, hy, Or.inr ⟨rfl, Or.inr (by omega)⟩⟩
        (hfree _ (by omega) (by omega))
  intro t h1 h2
  rcases Nat.le_total x0 t with h3 | h3
  · have he : t = x0 + (t - x0) := by omega
    rw [he]
    exact hup (t - x0) (by omega)
  · have he : t = x0 - (x0 - t) := by omega
    rw [he]
    exact hdown (x0 - t) (by omega)

/-- The loop invariant is preserved by one iteration of `fillLoop`. -/
lemma fillInv_step (w h rid sx sy : ℕ) (hw : 0 < w) (st0 : FillState)
    (s : Span) (rest : List Span) (st : FillState)
    (hInv : FillInv w h rid sx sy st0 (s :: rest) st) :
    FillInv w h rid sx sy st0
      (if s.y < h - 1 then
        addSpansForLine (fillSpan rid w s.y s.xRight s.xLeft st).visited w (s.y + 1)
          s.xRight s.xLeft
          (if 0 < s.y then
            addSpansForLine (fillSpan rid w s.y s.xRight s.xLeft st).visited w (s.y - 1)
              s.xRight s.xLeft rest
          else rest)
      else
        (if 0 < s.y then
          addSpansForLine (fillSpan rid w s.y s.xRight s.xLeft st).visited w (s.y - 1)
            s.xRight s.xLeft rest
        else rest))
      (fillSpan rid w s.y s.xRight s.xLeft st) := by
  obtain ⟨hmono, hwf, hspans, hvischar, hassignchar, hfront⟩ := hInv
  obtain ⟨hy, hlr, hrw⟩ := hwf s (List.mem_cons_self s rest)
  obtain ⟨hfree_s, hmaxl, hmaxr⟩ := hspans s (List.mem_cons_self s rest)
  set st2 := fillSpan rid w s.y s.xRight s.xLeft st with hst2
  have hmono2 : ∀ j, st.visited j = true → st2.visited j = true := by
    intro j hj
    rw [hst2]
    exact fillSpan_visited_mono rid w s.y s.xRight s.xLeft st j hj
  have hfillvis : ∀ t, s.xLeft ≤ t → t ≤ s.xRight →
      st2.visited (s.y * w + t) = true := by
    intro t h1 h2
    rw [hst2]
    exact ((fillSpan_spec rid w s.y s.xRight s.xLeft st).1 t h1 h2).1
  have hfillassign : ∀ t, s.xLeft ≤ t → t ≤ s.xRight →
      st2.assign (s.y * w + t) =
        (if st.visited (s.y * w + t) = true then st.assign (s.y * w + t)
         else some rid) := by
    intro t h1 h2
    rw [hst2]
    exact ((fillSpan_spec rid w s.y s.xRight s.xLeft st).1 t h1 h2).2
  have hvischar2 : ∀ j, st2.visited j = true →
      st.visited j = true ∨ ∃ t, s.xLeft ≤ t ∧ t ≤ s.xRight ∧ j = s.y * w + t := by
    intro j hj
    rw [hst2] at hj
    exact fillSpan_visited_char rid w s.y s.xRight s.xLeft st j hj
  have hassignchar2 : ∀ j, st2.assign j = st.assign j ∨
      (st2.assign j = some rid ∧ st.visited j = false ∧
        ∃ t, s.xLeft ≤ t ∧ t ≤ s.xRight ∧ j = s.y * w + t) := by
    intro j
    rw [hst2]
    exact fillSpan_assign_char rid w s.y s.xRight s.xLeft st j
  obtain ⟨news2, heq2, hprops2, hcov2⟩ :
      ∃ news2,
        (if 0 < s.y then addSpansForLine st2.visited w (s.y - 1) s.xRight s.xLeft rest
         else rest) = news2 ++ rest ∧
        (∀ sp ∈ news2, sp.y = s.y - 1 ∧ 0 < s.y ∧ sp.xLeft ≤ sp.xRight ∧
          sp.xRight ≤ w - 1 ∧
          (∀ t, sp.xLeft ≤ t → t ≤ sp.xRight → st2.visited (sp.y * w + t) = false) ∧
          (sp.xLeft = 0 ∨ st2.visited (sp.y * w + (sp.xLeft - 1)) = true) ∧
          (w - 1 ≤ sp.xRight ∨ st2.visited (sp.y * w + sp.xRight + 1) = true) ∧
          ∃ x0, s.xLeft ≤ x0 ∧ x0 ≤ s.xRight ∧ sp.xLeft ≤ x0 ∧ x0 ≤ sp.xRight) ∧
        (0 < s.y → ∀ t, s.xLeft ≤ t → t ≤ s.xRight →
          st2.visited ((s.y - 1) * w + t) = true ∨
          ∃ sp ∈ news2, sp.xLeft ≤ t ∧ t ≤ sp.xRight) := by
    by_cases hg : 0 < s.y
    · rw [if_pos hg]
      obtain ⟨news, heq, hlen, hprops, hcov⟩ :=
        addSpansForLine_spec st2.visited w (s.y - 1) s.xRight s.xLeft rest hw (by omega)
      refine ⟨news, heq, ?_, fun _ => hcov⟩
      intro sp hsp
      obtain ⟨h1, h2, h3, h4, h5, h6, x0, hx0⟩ := hprops sp hsp
      refine ⟨h1, hg, h2, h3, ?_, ?_, ?_, x0, hx0.1, hx0.2.1, hx0.2.2.1, hx0.2.2.2⟩
      · rw [h1]; exact h4
      · rw [h1]; exact h5
      · rw [h1]; exact h6
    · rw [if_neg hg]
      exact ⟨[], rfl, by simp, fun hcon => absurd hcon hg⟩
  rw [heq2]
  obtain ⟨news3, heq3, hprops3, hcov3⟩ :
      ∃ news3,
        (if s.y < h - 1 then
          addSpansForLine st2.visited w (s.y + 1) s.xRight s.xLeft (news2 ++ rest)
         else news2 ++ rest) = news3 ++ (news2 ++ rest) ∧
        (∀ sp ∈ news3, sp.y = s.y + 1 ∧ s.y < h - 1 ∧ sp.xLeft ≤ sp.xRight ∧
          sp.xRight ≤ w - 1 ∧
          (∀ t, sp.xLeft ≤ t → t ≤ sp.xRight → st2.visited (sp.y * w + t) = false) ∧
          (sp.xLeft = 0 ∨ st2.visited (sp.y * w + (sp.xLeft - 1)) = true) ∧
          (w - 1 ≤ sp.xRight ∨ st2.visited (sp.y * w + sp.xRight + 1) = true) ∧
          ∃ x0, s.xLeft ≤ x0 ∧ x0 ≤ s.xRight ∧ sp.xLeft ≤ x0 ∧ x0 ≤ sp.xRight) ∧
        (s.y < h - 1 → ∀ t, s.xLeft ≤ t → t ≤ s.xRight →
          st2.visited ((s.y + 1) * w + t) = true ∨
          ∃ sp ∈ news3, sp.xLeft ≤ t ∧ t ≤ sp.xRight) := by
    by_cases hg : s.y < h - 1
    · rw [if_pos hg]
      obtain ⟨news, heq, hlen, hprops, hcov⟩ :=
        addSpansForLine_spec st2.visited w (s.y + 1) s.xRight s.xLeft (news2 ++ rest)
          hw (by omega)
      refine ⟨news, heq, ?_, fun _ => hcov⟩
      intro sp hsp
      obtain ⟨h1, h2, h3, h4, h5, h6, x0, hx0⟩ := hprops sp hsp
      refine ⟨h1, hg, h2, h3, ?_, ?_, ?_, x0, hx0.1, hx0.2.1, hx0.2.2.1, hx0.2.2.2⟩
      · rw [h1]; exact h4
      · rw [h1]; exact h5
      · rw [h1]; exact h6
    · rw [if_neg hg]
      exact ⟨[], rfl, by simp, fun hcon => absurd hcon hg⟩
  rw [heq3]
  refine ⟨?_, ?_, ?_, ?_, ?_, ?_⟩
  · -- monotonicity over st0
    intro j hj
    exact hmono2 j (hmono j hj)
  · -- well-formedness of the new stack
    intro sp hsp
    rw [List.mem_append] at hsp
    rcases hsp with hsp | hsp
    · obtain ⟨h1, hg, h2, h3, _⟩ := hprops3 sp hsp
      exact ⟨by omega, h2, h3⟩
    · rw [List.mem_append] at hsp
      rcases hsp with hsp | hsp
      · obtain ⟨h1, hg, h2, h3, _⟩ := hprops2 sp hsp
        exact ⟨by omega, h2, h3⟩
      · exact hwf sp (List.mem_cons_of_mem s hsp)
  · -- span soundness: freeness, reachability and boundary maximality
    intro sp hsp
    rw [List.mem_append] at hsp
    rcases hsp with hsp | hsp
    · obtain ⟨h1, hg, h2, h3, h4, h5, h6, x0, hx01, hx02, hx03, hx04⟩ := hprops3 sp hsp
      have hfree0 : ∀ t, sp.xLeft ≤ t → t ≤ sp.xRight →
          st0.visited (sp.y * w + t) = false := by
        intro t ha hb
        rcases Bool.eq_false_or_eq_true (st0.visited (sp.y * w + t)) with hv0 | hv0
        · have hcon := hmono2 _ (hmono _ hv0)
          rw [h4 t ha hb] at hcon
          exact Bool.noConfusion hcon
        · exact hv0
      have hconn0 : Conn w h (fun i => st0.visited i = false) sx sy x0 sp.y := by
        refine Conn.step sx sy x0 s.y x0 sp.y (hfree_s x0 hx01 hx02).2 ?_ ?_
        · exact ⟨by omega, hy, by omega, by omega, Or.inl ⟨rfl, by omega⟩⟩
        · exact hfree0 x0 hx03 hx04
      refine ⟨?_, h5, h6⟩
      intro t ha hb
      exact ⟨hfree0 t ha hb,
        conn_of_interval w h _ sx sy sp.y sp.xLeft sp.xRight (by omega) (by omega)
          hfree0 x0 hx03 hx04 hconn0 t ha hb⟩
    · rw [List.mem_append] at hsp
      rcases hsp with hsp | hsp
      · obtain ⟨h1, hg, h2, h3, h4, h5, h6, x0, hx01, hx02, hx03, hx04⟩ := hprops2 sp hsp
        have hfree0 : ∀ t, sp.xLeft ≤ t → t ≤ sp.xRight →
            st0.visited (sp.y * w + t) = false := by
          intro t ha hb
          rcases Bool.eq_false_or_eq_true (st0.visited (sp.y * w + t)) with hv0 | hv0
          · have hcon := hmono2 _ (hmono _ hv0)
            rw [h4 t ha hb] at hcon
            exact Bool.noConfusion hcon
          · exact hv0
        have hconn0 : Conn w h (fun i => st0.visited i = false) sx sy x0 sp.y := by
          refine Conn.step sx sy x0 s.y x0 sp.y (hfree_s x0 hx01 hx02).2 ?_ ?_
          · exact ⟨by omega, hy, by omega, by omega, Or.inl ⟨rfl, by omega⟩⟩
          · exact hfree0 x0 hx03 hx04
        refine ⟨?_, h5, h6⟩
        intro t ha hb
        exact ⟨hfree0 t ha hb,
          conn_of_interval w h _ sx sy sp.y sp.xLeft sp.xRight (by omega) (by omega)
            hfree0 x0 hx03 hx04 hconn0 t ha hb⟩
      · obtain ⟨hA, hB, hC⟩ := hspans sp (List.mem_cons_of_mem s hsp)
        refine ⟨hA, ?_, ?_⟩
        · rcases hB with hB | hB
          · exact Or.inl hB
          · exact Or.inr (hmono2 _ hB)
        · rcases hC with hC | hC
          · exact Or.inl hC
          · exact Or.inr (hmono2 _ hC)
  · -- visited pixels are old or carry the region id
    intro j hj
    rcases hvischar2 j hj with hv | ⟨t, h1, h2, hje⟩
    · rcases hvischar j hv with h0 | ha
      · exact Or.inl h0
      · right
        rw [hst2, fillSpan_assign_visited rid w s.y s.xRight s.xLeft st j hv]
        exact ha
    · by_cases hv : st.visited (s.y * w + t) = true
      · rw [hje] at hj ⊢
        rcases hvischar _ hv with h0 | ha
        · exact Or.inl h0
        · right
          rw [hst2, fillSpan_assign_visited rid w s.y s.xRight s.xLeft st _ hv]
          exact ha
      · right
        rw [hje, hfillassign t h1 h2, if_neg hv]
  · -- assignment characterisation
    intro j
    rcases hassignchar2 j with he | ⟨ha, hv, t, h1, h2, hje⟩
    · rcases hassignchar j with h0 | ⟨hA, hB, hC, x, y, hxw, hyh, hj, hconn⟩
      · left
        rw [he]
        exact h0
      · right
        refine ⟨hA, hmono2 _ hB, ?_, x, y, hxw, hyh, hj, hconn⟩
        rw [he]
        exact hC
    · right
      rw [hje]
      refine ⟨(hfree_s t h1 h2).1, hfillvis t h1 h2, ?_, t, s.y, by omega, hy, rfl,
        (hfree_s t h1 h2).2⟩
      rw [← hje]
      exact ha
  · -- the front invariant
    intro a b a' b' hadj hvis2 hfree0a
    rcases hvischar2 _ hvis2 with hvisold | ⟨t, h1, h2, hje⟩
    · rcases hfront a b a' b' hadj hvisold hfree0a with hv' | ⟨sp, hsp, hspy, hspl, hspr⟩
      · exact Or.inl (hmono2 _ hv')
      · rcases List.mem_cons.1 hsp with heqs | hsp
        · left
          rw [heqs] at hspy hspl hspr
          rw [← hspy]
          exact hfillvis a' hspl hspr
        · exact Or.inr ⟨sp, List.mem_append_right _ (List.mem_append_right _ hsp),
            hspy, hspl, hspr⟩
    · obtain ⟨rfl, rfl⟩ : b = s.y ∧ a = t :=
        flatIdx_inj w b a s.y t hw hadj.1 (by omega) hje
      obtain ⟨haw, hbh, haw', hbh', hrel⟩ := hadj
      rcases hrel with ⟨hax, hyrel⟩ | ⟨hby, hxrel⟩
      · rcases hyrel with hup | hdown
        · have hg3 : s.y < h - 1 := by omega
          rcases hcov3 hg3 a h1 h2 with hvy | ⟨sp, hsp, hspl, hspr⟩
          · left
            rw [hup, hax]
            exact hvy
          · right
            obtain ⟨hspy, _⟩ := hprops3 sp hsp
            exact ⟨sp, List.mem_append_left _ hsp, by omega, by omega, by omega⟩
        · have hg2 : 0 < s.y := by omega
          rcases hcov2 hg2 a h1 h2 with hvy | ⟨sp, hsp, hspl, hspr⟩
          · left
            have hb' : b' = s.y - 1 := by omega
            rw [hb', hax]
            exact hvy
          · right
            obtain ⟨hspy, hgg, _⟩ := hprops2 sp hsp
            exact ⟨sp, List.mem_append_right _ (List.mem_append_left _ hsp),
              by omega, by omega, by omega⟩
      · by_cases hin : s.xLeft ≤ a' ∧ a' ≤ s.xRight
        · left
          rw [hby]
          exact hfillvis a' hin.1 hin.2
        · left
          rcases hxrel with hap | ham
          · have hta : a = s.xRight ∧ a' = s.xRight + 1 := by omega
            rcases hmaxr with hmr | hmr
            · exfalso
              omega
            · rw [hby]
              have he : s.y * w + a' = s.y * w + s.xRight + 1 := by omega
              rw [he]
              exact hmono2 _ hmr
          · have hta : a = s.xLeft ∧ a' = s.xLeft - 1 ∧ 0 < s.xLeft := by omega
            rcases hmaxl with hml | hml
            · exfalso
              omega
            · rw [hby]
              have he : s.y * w + a' = s.y * w + (s.xLeft - 1) := by omega
              rw [he]
              exact hmono2 _ hml

lemma fillLoop_inv (w h rid sx sy : ℕ) (hw : 0 < w) (st0 : FillState) :
    ∀ fuel stack st st',
      FillInv w h rid sx sy st0 stack st →
      fillLoop w h rid fuel stack st = some st' →
      FillInv w h rid sx sy st0 [] st' := by
  intro fuel
  induction fuel with
  | zero =>
    intro stack st st' hInv hrun
    cases stack with
    | nil =>
      have he : some st = some st' := hrun
      rw [← Option.some.inj he]
      exact hInv
    | cons s rest =>
      exact Option.noConfusion (show (none : Option FillState) = some st' from hrun)
  | succ fuel ih =>
    intro stack st st' hInv hrun
    cases stack with
    | nil =>
      have he : some st = some st' := hrun
      rw [← Option.some.inj he]
      exact hInv
    | cons s rest =>
      rw [fillLoop_succ] at hrun
      exact ih _ _ _ (fillInv_step w h rid sx sy hw st0 s rest st hInv) hrun

lemma fillLoop_visited_mono (w h rid : ℕ) :
    ∀ fuel stack st st', fillLoop w h rid fuel stack st = some st' →
      ∀ j, st.visited j = true → st'.visited j = true := by
  intro fuel
  induction fuel with
  | zero =>
    intro stack st st' hrun j hj
    cases stack with
    | nil =>
      have he : some st = some st' := hrun
      rw [← Option.some.inj he]
      exact hj
    | cons s rest =>
      exact Option.noConfusion (show (none : Option FillState) = some st' from hrun)
  | succ fuel ih =>
    intro stack st st' hrun j hj
    cases stack with
    | nil =>
      have he : some st = some st' := hrun
      rw [← Option.some.inj he]
      exact hj
    | cons s rest =>
      rw [fillLoop_succ] at hrun
      exact ih _ _ _ hrun j (fillSpan_visited_mono rid w s.y s.xRight s.xLeft st j hj)

lemma fillLoop_seed_visited (w h rid fuel : ℕ) (s : Span) (rest : List Span)
    (st st' : FillState) (x : ℕ) (hx1 : s.xLeft ≤ x) (hx2 : x ≤ s.xRight)
    (hrun : fillLoop w h rid fuel (s :: rest) st = some st') :
    st'.visited (s.y * w + x) = true := by
  cases fuel with
  | zero =>
    exact Option.noConfusion (show (none : Option FillState) = some st' from hrun)
  | succ fuel =>
    rw [fillLoop_succ] at hrun
    exact fillLoop_visited_mono w h rid fuel _ _ _ hrun _
      ((fillSpan_spec rid w s.y s.xRight s.xLeft st).1 x hx1 hx2).1

/-- With an empty pending stack, every pixel reachable from the seed
through initially-free pixels has been visited. -/
lemma fill_complete (w h rid sx sy : ℕ) (st0 st1 : FillState)
    (hInv : FillInv w h rid sx sy st0 [] st1)
    (hseed : st1.visited (sy * w + sx) = true) :
    ∀ x y, Conn w h (fun i => st0.visited i = false) sx sy x y →
      st1.visited (y * w + x) = true := by
  intro x y hconn
  induction hconn with
  | refl hx hy hf => exact hseed
  | step a b c d e f g ih =>
    rcases hInv.front a b c d f ih (conn_free w h _ sx sy a b e).1 with hv | ⟨sp, hsp, _⟩
    · exact hv
    · exact absurd hsp (List.not_mem_nil sp)

/-- Full correctness of one `fillRegionWithSDF` call: the loop invariant at
the empty stack, the seed being filled, and completeness over the
connected component of the seed. -/
lemma fillRegionWithSDF_correct (w h sx sy rid fuel : ℕ) (hw : 0 < w)
    (st0 st1 : FillState) (hx : sx < w) (hy : sy < h)
    (hv : st0.visited (sy * w + sx) = false)
    (hrun : fillRegionWithSDF w h sx sy rid fuel st0 = some st1) :
    FillInv w h rid sx sy st0 [] st1 ∧
      st1.visited (sy * w + sx) = true ∧
      (∀ x y, Conn w h (fun i => st0.visited i = false) sx sy x y →
        st1.visited (y * w + x) = true) := by
  unfold fillRegionWithSDF at hrun
  obtain ⟨hfs1, hfs2, hfs3, hfs4, hfs5, hfs6⟩ := findSpan_spec st0.visited w sx sy hw hx hv
  have hInv0 : FillInv w h rid sx sy st0
      [⟨sy, (findSpan st0.visited w sx sy).1, (findSpan st0.visited w sx sy).2⟩] st0 := by
    refine ⟨fun j hj => hj, ?_, ?_, ?_, ?_, ?_⟩
    · intro sp hsp
      rw [List.mem_singleton] at hsp
      rw [hsp]
      exact ⟨hy, le_trans hfs1 hfs2, hfs3⟩
    · intro sp hsp
      rw [List.mem_singleton] at hsp
      rw [hsp]
      refine ⟨?_, hfs5, hfs6⟩
      intro t ha hb
      refine ⟨hfs4 t ha hb, ?_⟩
      exact conn_of_interval w h _ sx sy sy (findSpan st0.visited w sx sy).1
        (findSpan st0.visited w sx sy).2 hy (by omega) hfs4 sx hfs1 hfs2
        (Conn.refl sx sy hx hy hv) t ha hb
    · intro j hj
      exact Or.inl hj
    · intro j
      exact Or.inl rfl
    · intro a b a' b' hadj hvis hfree
      rw [hvis] at hfree
      exact Bool.noConfusion hfree
  have hInv1 := fillLoop_inv w h rid sx sy hw st0 fuel _ _ _ hInv0 hrun
  have hseed : st1.visited (sy * w + sx) = true :=
    fillLoop_seed_visited w h rid fuel _ _ st0 st1 sx hfs1 hfs2 hrun
  exact ⟨hInv1, hseed, fill_complete w h rid sx sy st0 st1 hInv1 hseed⟩

lemma fillRegionsAux_partition (bnd : ℕ → Bool) (w h fuelF : ℕ) (hw : 0 < w) :
    ∀ rem idx rid st stfin cnt,
      idx + rem = w * h →
      (∀ i, i < idx → st.visited i = true) →
      (∀ i, i < w * h → bnd i = true → st.visited i = true) →
      (∀ i, i < w * h →
        (st.visited i = true ↔ (bnd i = true ∨ ∃ r, st.assign i = some r))) →
      (∀ i r, st.assign i = some r → i < w * h ∧ bnd i = false ∧ r < rid) →
      (∀ x y x' y' r, Adjacent4 w h x y x' y' → bnd (y' * w + x') = false →
        st.assign (y * w + x) = some r → st.assign (y' * w + x') = some r) →
      fillRegionsAux w h fuelF rem idx rid st = some (stfin, cnt) →
      (∀ i, i < w * h → stfin.visited i = true) ∧
      (∀ i, i < w * h →
        (stfin.visited i = true ↔ (bnd i = true ∨ ∃ r, stfin.assign i = some r))) ∧
      (∀ i r, stfin.assign i = some r → i < w * h ∧ bnd i = false ∧ r < cnt) ∧
      (∀ x y x' y' r, Adjacent4 w h x y x' y' → bnd (y' * w + x') = false →
        stfin.assign (y * w + x) = some r → stfin.assign (y' * w + x') = some r) := by
  intro rem
  induction rem with
  | zero =>
    intro idx rid st stfin cnt hrem hprog hbnd hG1 hG2 hG3 hrun
    have he : (some (st, rid) : Option (FillState × ℕ)) = some (stfin, cnt) := hrun
    have he1 : st = stfin := congrArg Prod.fst (Option.some.inj he)
    have he2 : rid = cnt := congrArg Prod.snd (Option.some.inj he)
    subst he1
    subst he2
    exact ⟨fun i hi => hprog i (by omega), hG1, hG2, hG3⟩
  | succ rem ih =>
    intro idx rid st stfin cnt hrem hprog hbnd hG1 hG2 hG3 hrun
    have hidx : idx < w * h := by omega
    have hstep : fillRegionsAux w h fuelF (rem + 1) idx rid st =
        if idx < w * h then
          (if st.visited idx then fillRegionsAux w h fuelF rem (idx + 1) rid st
           else
             match fillRegionWithSDF w h (idx % w) (idx / w) rid fuelF st with
             | none => none
             | some st2 => fillRegionsAux w h fuelF rem (idx + 1) (rid + 1) st2)
        else some (st, rid) := rfl
    rw [hstep, if_pos hidx] at hrun
    by_cases hvb : st.visited idx = true
    · rw [if_pos hvb] at hrun
      refine ih (idx + 1) rid st stfin cnt (by omega) ?_ hbnd hG1 hG2 hG3 hrun
      intro i hi
      rcases Nat.lt_or_ge i idx with hlt | hge
      · exact hprog i hlt
      · have hieq : i = idx := by omega
        rw [hieq]
        exact hvb
    · rw [if_neg hvb] at hrun
      simp only [Bool.not_eq_true] at hvb
      cases hfill : fillRegionWithSDF w h (idx % w) (idx / w) rid fuelF st with
      | none =>
        rw [hfill] at hrun
        exact Option.noConfusion hrun
      | some st1 =>
        rw [hfill] at hrun
        have hrun' : fillRegionsAux w h fuelF rem (idx + 1) (rid + 1) st1 =
            some (stfin, cnt) := hrun
        have hsx : idx % w < w := Nat.mod_lt idx hw
        have hsy : idx / w < h :=
          (Nat.div_lt_iff_lt_mul hw).2 (by rw [Nat.mul_comm]; exact hidx)
        have hflat : idx / w * w + idx % w = idx := by
          rw [Nat.mul_comm]
          exact Nat.div_add_mod idx w
        have hv0 : st.visited (idx / w * w + idx % w) = false := by
          rw [hflat]
          exact hvb
        obtain ⟨hInv, hseedvis, hcomp⟩ :=
          fillRegionWithSDF_correct w h (idx % w) (idx / w) rid fuelF hw st st1
            hsx hsy hv0 hfill
        obtain ⟨hmono, _, _, hvischar, hassignchar, _⟩ := hInv
        refine ih (idx + 1) (rid + 1) st1 stfin cnt (by omega) ?_ ?_ ?_ ?_ ?_ hrun'
        · -- scan progress
          intro i hi
          rcases Nat.lt_or_ge i idx with hlt | hge
          · exact hmono i (hprog i hlt)
          · have hieq : i = idx := by omega
            rw [hieq, ← hflat]
            exact hseedvis
        · -- boundary pixels stay visited
          intro i hi hb
          exact hmono i (hbnd i hi hb)
        · -- visited iff boundary or assigned
          intro i hi
          constructor
          · intro hv1
            rcases hvischar i hv1 with h0 | ha
            · rcases (hG1 i hi).1 h0 with hb | ⟨r, hr⟩
              · exact Or.inl hb
              · right
                refine ⟨r, ?_⟩
                rcases hassignchar i with he | ⟨hf, _, _, _⟩
                · rw [he]
                  exact hr
                · have hvv := (hG1 i hi).2 (Or.inr ⟨r, hr⟩)
                  rw [hf] at hvv
                  exact Bool.noConfusion hvv
            · exact Or.inr ⟨rid, ha⟩
          · intro hor
            rcases hor with hb | ⟨r, hr⟩
            · exact hmono i (hbnd i hi hb)
            · rcases hassignchar i with he | ⟨_, hvis1, _, _⟩
              · rw [he] at hr
                exact hmono i ((hG1 i hi).2 (Or.inr ⟨r, hr⟩))
              · exact hvis1
        · -- assigned ids are in range and off the boundary
          intro i r hr
          rcases hassignchar i with he | ⟨hf, hvis1, hsome, x, y, hxw, hyh, hj, hconn⟩
          · rw [he] at hr
            have hold := hG2 i r hr
            exact ⟨hold.1, hold.2.1, by omega⟩
          · have hig : i < w * h := by
              rw [hj]
              exact pixel_lt w h x y hxw hyh
            have hreq : r = rid := by
              rw [hsome] at hr
              exact (Option.some.inj hr).symm
            refine ⟨hig, ?_, by omega⟩
            rcases Bool.eq_false_or_eq_true (bnd i) with hb | hb
            · have hvv := hbnd i hig hb
              rw [hf] at hvv
              exact Bool.noConfusion hvv
            · exact hb
        · -- adjacent propagation of region ids
          intro x y x' y' r hadj hb' hr
          rcases hassignchar (y * w + x) with
            he | ⟨hf, hvis1, hsome, xx, yy, hxw, hyh, hj, hconn⟩
          · rw [he] at hr
            have hold := hG3 x y x' y' r hadj hb' hr
            rcases hassignchar (y' * w + x') with he' | ⟨hf', _, _, _⟩
            · rw [he']
              exact hold
            · have hvv := (hG1 (y' * w + x')
                (pixel_lt w h x' y' hadj.2.2.1 hadj.2.2.2.1)).2 (Or.inr ⟨r, hold⟩)
              rw [hf'] at hvv
              exact Bool.noConfusion hvv
          · have hreq : rid = r := by
              rw [hsome] at hr
              exact Option.some.inj hr
            obtain ⟨hye, hxe⟩ := flatIdx_inj w y x yy xx hw hadj.1 hxw hj
            have htgt_in : (y' * w + x') < w * h :=
              pixel_lt w h x' y' hadj.2.2.1 hadj.2.2.2.1
            have hsrc_in : (y * w + x) < w * h := pixel_lt w h x y hadj.1 hadj.2.1
            have hbsrc : bnd (y * w + x) = false := by
              rcases Bool.eq_false_or_eq_true (bnd (y * w + x)) with hbb | hbb
              · have hvv := hbnd (y * w + x) hsrc_in hbb
                rw [hf] at hvv
                exact Bool.noConfusion hvv
              · exact hbb
            have htgt_unassigned : st.assign (y' * w + x') = none := by
              cases hopt : st.assign (y' * w + x') with
              | none => rfl
              | some r' =>
                exfalso
                have hsymm := adjacent4_symm w h x y x' y' hadj
                have hback := hG3 x' y' x y r' hsymm hbsrc hopt
                have hvv := (hG1 (y * w + x) hsrc_in).2 (Or.inr ⟨r', hback⟩)
                rw [hf] at hvv
                exact Bool.noConfusion hvv
            have htgt_free : st.visited (y' * w + x') = false := by
              rcases Bool.eq_false_or_eq_true (st.visited (y' * w + x')) with hvv | hvv
              · rcases (hG1 _ htgt_in).1 hvv with hbb | ⟨r', hr'⟩
                · rw [hb'] at hbb
                  exact Bool.noConfusion hbb
                · rw [htgt_unassigned] at hr'
                  exact Option.noConfusion hr'
              · exact hvv
            have hconnxy : Conn w h (fun i => st.visited i = false)
                (idx % w) (idx / w) x y := by
              rw [← hxe, ← hye] at hconn
              exact hconn
            have hconn' : Conn w h (fun i => st.visited i = false)
                (idx % w) (idx / w) x' y' :=
              Conn.step (idx % w) (idx / w) x y x' y' hconnxy hadj htgt_free
            have hvis_tgt : st1.visited (y' * w + x') = true := hcomp x' y' hconn'
            rcases hvischar (y' * w + x') hvis_tgt with hvv | hsome'
            · rw [htgt_free] at hvv
              exact Bool.noConfusion hvv
            · rw [hsome', hreq]

lemma fillRegions_spec (bnd : ℕ → Bool) (w h fuel : ℕ) (st : FillState) (cnt : ℕ)
    (hw : 0 < w)
    (hrun : fillRegions bnd w h fuel = some (st, cnt)) :
    (∀ i, i < w * h → st.visited i = true) ∧
    (∀ i, i < w * h →
      (st.visited i = true ↔ (bnd i = true ∨ ∃ r, st.assign i = some r))) ∧
    (∀ i r, st.assign i = some r → i < w * h ∧ bnd i = false ∧ r < cnt) ∧
    (∀ x y x' y' r, Adjacent4 w h x y x' y' → bnd (y' * w + x') = false →
      st.assign (y * w + x) = some r → st.assign (y' * w + x') = some r) := by
  unfold fillRegions at hrun
  refine fillRegionsAux_partition bnd w h fuel hw (w * h) 0 0 _ st cnt
    (by omega) ?_ ?_ ?_ ?_ ?_ hrun
  · intro i hi
    omega
  · intro i hi hb
    show (decide (i < w * h) && bnd i) = true
    simp only [Bool.and_eq_true, decide_eq_true_eq]
    exact ⟨hi, hb⟩
  · intro i hi
    constructor
    · intro hv
      have hv' : (decide (i < w * h) && bnd i) = true := hv
      simp only [Bool.and_eq_true, decide_eq_true_eq] at hv'
      exact Or.inl hv'.2
    · intro hor
      rcases hor with hb | ⟨r, hr⟩
      · show (decide (i < w * h) && bnd i) = true
        simp only [Bool.and_eq_true, decide_eq_true_eq]
        exact ⟨hi, hb⟩
      · exact Option.noConfusion hr
  · intro i r hr
    exact Option.noConfusion hr
  · intro x y x' y' r hadj hb hr
    exact Option.noConfusion hr

/-- C2: for every boundary mask, a completed `fillRegions` run assigns
every non-boundary in-grid pixel to exactly one region id, assigns no
boundary or out-of-grid pixel (so the regions plus the boundary partition
the grid), and gives 4-connected adjacent non-boundary pixels the same
region id. -/
theorem fillRegions_partitions_grid (bnd : ℕ → Bool) (w h fuel : ℕ)
    (st : FillState) (cnt : ℕ)
    (hrun : fillRegions bnd w h fuel = some (st, cnt)) :
    (∀ i, i < w * h → bnd i = false → ∃ r, st.assign i = some r) ∧
    (∀ i r, st.assign i = some r → i < w * h ∧ bnd i = false ∧ r < cnt) ∧
    (∀ x y x' y' r r', Adjacent4 w h x y x' y' →
      bnd (y * w + x) = false → bnd (y' * w + x') = false →
      st.assign (y * w + x) = some r → st.assign (y' * w + x') = some r' →
      r = r') := by
  by_cases hw : 0 < w
  · obtain ⟨hall, hG1, hG2, hG3⟩ := fillRegions_spec bnd w h fuel st cnt hw hrun
    refine ⟨?_, hG2, ?_⟩
    · intro i hi hb
      rcases (hG1 i hi).1 (hall i hi) with hbb | hr
      · rw [hb] at hbb
        exact Bool.noConfusion hbb
      · exact hr
    · intro x y x' y' r r' hadj hb hb' hr hr'
      have hprop := hG3 x y x' y' r hadj hb' hr
      rw [hr'] at hprop
      exact (Option.some.inj hprop).symm
  · have hw0 : w = 0 := by omega
    subst hw0
    unfold fillRegions at hrun
    rw [Nat.zero_mul] at hrun
    have hassign_none : ∀ i, st.assign i = none := by
      intro i
      have he := Option.some.inj hrun
      exact (congrArg (fun p => (Prod.fst p).assign i) he).symm
    refine ⟨?_, ?_, ?_⟩
    · intro i hi
      omega
    · intro i r hr
      rw [hassign_none i] at hr
      exact Option.noConfusion hr
    · intro x y x' y' r r' hadj hb hb' hr hr'
      rw [hassign_none (y * 0 + x)] at hr
      exact Option.noConfusion hr

theorem fillRegions_partitions_grid_witness :
    ∃ st cnt, fillRegions (fun i => decide (i = 0)) 2 2 45 = some (st, cnt) ∧
      ∃ r, st.assign 3 = some r := by
  have hsome : (fillRegions (fun i => decide (i = 0)) 2 2 45).isSome = true := by rfl
  obtain ⟨⟨st, cnt⟩, hrun⟩ := Option.isSome_iff_exists.1 hsome
  refine ⟨st, cnt, hrun, ?_⟩
  exact (fillRegions_partitions_grid (fun i => decide (i = 0)) 2 2 45 st cnt hrun).1
    3 (by decide) (by decide)

/-- C10: the span-stack flood fill always terminates — for every boundary
mask and grid size there is a fuel bound after which the whole
`fillRegions` scan, including every inner while-loop over the span work
stack, returns a final state. -/
theorem fillRegions_terminates (bnd : ℕ → Bool) (w h : ℕ) :
    ∃ fuel, (fillRegions bnd w h fuel).isSome = true := by
  by_cases hw : 0 < w
  · refine ⟨(4 * w + 2) * (w * h) + 2 * w + 1, ?_⟩
    unfold fillRegions
    exact fillRegionsAux_some w h hw (w * h) 0 0 _
  · have hw0 : w = 0 := by omega
    subst hw0
    refine ⟨0, ?_⟩
    unfold fillRegions
    rw [Nat.zero_mul]
    rfl

lemma fwdG_no_bnd (bnd : ℕ → Bool) (hbnd : ∀ i, bnd i = false) (w x : ℕ) :
    ∀ y, fwdG bnd w x y = INF + (y : ℚ) := by
  intro y
  induction y with
  | zero =>
    show (if bnd x then 0 else INF) = INF + ((0 : ℕ) : ℚ)
    rw [hbnd x]
    norm_num
  | succ y ih =>
    show (if bnd ((y + 1) * w + x) then 0 else fwdG bnd w x y + 1) = _
    rw [hbnd ((y + 1) * w + x)]
    simp only [Bool.false_eq_true, if_false]
    rw [ih]
    push_cast
    ring

lemma bwdAux_of_monotone (f : ℕ → ℚ) (h : ℕ) (hf : ∀ a b, a ≤ b → f a ≤ f b) :
    ∀ j, bwdAux f h j = f (h - 1 - j) := by
  intro j
  induction j with
  | zero => rfl
  | succ j ih =>
    show (if bwdAux f h j < f (h - 1 - (j + 1)) then bwdAux f h j + 1
      else f (h - 1 - (j + 1))) = _
    rw [ih, if_neg (not_lt.2 (hf (h - 1 - (j + 1)) (h - 1 - j) (by omega)))]

lemma colG_no_bnd (bnd : ℕ → Bool) (hbnd : ∀ i, bnd i = false) (w h x y : ℕ)
    (hy : y < h) :
    colG bnd w h x y = (INF + (y : ℚ)) * (INF + (y : ℚ)) := by
  unfold colG bwdG
  have hf : ∀ a b : ℕ, a ≤ b → fwdG bnd w x a ≤ fwdG bnd w x b := by
    intro a b hab
    rw [fwdG_no_bnd bnd hbnd w x a, fwdG_no_bnd bnd hbnd w x b]
    have : (a : ℚ) ≤ (b : ℚ) := by exact_mod_cast hab
    linarith
  rw [bwdAux_of_monotone (fwdG bnd w x) h hf (h - 1 - y)]
  have he : h - 1 - (h - 1 - y) = y := by omega
  rw [he, fwdG_no_bnd bnd hbnd w x y]

/-- On a mask with no boundary pixels the distance transform stores
`(INF + y)²` at row `y`, not the sentinel itself. -/
lemma calcDF_no_boundary (bnd : ℕ → Bool) (hbnd : ∀ i, bnd i = false)
    (w h x y : ℕ) (hw : 0 < w) (hx : x < w) (hy : y < h) :
    calculateDistanceField bnd w h x y = (INF + (y : ℚ)) * (INF + (y : ℚ)) := by
  unfold calculateDistanceField
  obtain ⟨hlb, v, hv, hval⟩ := dtRow_min (fun u => colG bnd w h u y) w hw x hx
  have hgle := hlb x hx
  have hparax : para (fun u => colG bnd w h u y) x (x : ℚ) =
      (INF + (y : ℚ)) * (INF + (y : ℚ)) := by
    unfold para
    have hbeta : (fun u => colG bnd w h u y) x = colG bnd w h x y := rfl
    rw [hbeta, colG_no_bnd bnd hbnd w h x y hy]
    ring
  have hparav : (INF + (y : ℚ)) * (INF + (y : ℚ)) ≤
      para (fun u => colG bnd w h u y) v (x : ℚ) := by
    unfold para
    have hbeta : (fun u => colG bnd w h u y) v = colG bnd w h v y := rfl
    rw [hbeta, colG_no_bnd bnd hbnd w h v y hy]
    nlinarith [mul_self_nonneg ((x : ℚ) - (v : ℚ))]
  rw [hparax] at hgle
  rw [hval] at *
  linarith

lemma getMaxAcc_zero (data : ℕ → ℚ) :
    ∀ n, (∀ i, i < n → ¬ data i < INF) → getMaxAcc data n = 0 := by
  intro n
  induction n with
  | zero => intro _; rfl
  | succ n ih =>
    intro hd
    show (if getMaxAcc data n < data n ∧ data n < INF then data n
      else getMaxAcc data n) = 0
    rw [if_neg (fun hc => hd n (by omega) hc.2)]
    exact ih (fun i hi => hd i (by omega))

lemma fillRegionsAux_all_visited (w h fuelF : ℕ) :
    ∀ rem idx rid st, (∀ i, i < w * h → st.visited i = true) →
      fillRegionsAux w h fuelF rem idx rid st = some (st, rid) := by
  intro rem
  induction rem with
  | zero => intro idx rid st _; rfl
  | succ rem ih =>
    intro idx rid st hvis
    have hstep : fillRegionsAux w h fuelF (rem + 1) idx rid st =
        if idx < w * h then
          (if st.visited idx then fillRegionsAux w h fuelF rem (idx + 1) rid st
           else
             match fillRegionWithSDF w h (idx % w) (idx / w) rid fuelF st with
             | none => none
             | some st2 => fillRegionsAux w h fuelF rem (idx + 1) (rid + 1) st2)
        else some (st, rid) := rfl
    rw [hstep]
    by_cases hidx : idx < w * h
    · rw [if_pos hidx, if_pos (hvis idx hidx)]
      exact ih (idx + 1) rid st hvis
    · rw [if_neg hidx]

/-- When every in-grid pixel is free, the whole grid is one 4-connected
component of the origin. -/
lemma conn_all_free (w h : ℕ) (free : ℕ → Prop)
    (hfree : ∀ x y, x < w → y < h → free (y * w + x)) (hw : 0 < w) (hh : 0 < h) :
    ∀ x y, x < w → y < h → Conn w h free 0 0 x y := by
  have hvert : ∀ y, y < h → Conn w h free 0 0 0 y := by
    intro y
    induction y with
    | zero => intro _; exact Conn.refl 0 0 hw hh (hfree 0 0 hw hh)
    | succ y ih =>
      intro hy
      exact Conn.step 0 0 0 y 0 (y + 1) (ih (by omega))
        ⟨hw, by omega, hw, hy, Or.inl ⟨rfl, Or.inl rfl⟩⟩ (hfree 0 (y + 1) hw hy)
  intro x y hx hy
  exact conn_of_interval w h free 0 0 y 0 (w - 1) hy (by omega)
    (fun t h1 h2 => hfree t y (by omega) hy) 0 (by omega) (by omega)
    (hvert y hy) x (by omega) (by omega)

/-- C6 counterexample: on the all-false 1×2 mask, the distance value of
pixel `(0, 1)` is `(INF + 1)²`, which is neither the `INF` sentinel nor its
square — the field does not saturate at the sentinel. -/
theorem no_boundary_field_not_sentinel :
    calculateDistanceField (fun _ => false) 1 2 0 1 = (INF + 1) * (INF + 1) ∧
    calculateDistanceField (fun _ => false) 1 2 0 1 ≠ INF ∧
    calculateDistanceField (fun _ => false) 1 2 0 1 ≠ INF * INF := by
  have h := calcDF_no_boundary (fun _ => false) (fun _ => rfl) 1 2 0 1
    (by norm_num) (by norm_num) (by norm_num)
  have h1 : ((1 : ℕ) : ℚ) = 1 := by norm_num
  rw [h1] at h
  refine ⟨h, ?_, ?_⟩
  · rw [h]
    norm_num [INF]
  · rw [h]
    norm_num [INF]

/-- C6 (amended): on a mask with no boundary pixels, segmentation yields
exactly one region covering the whole grid (id `0` everywhere); the
distance field stores `(INF + y)²` at row `y` (so it grows past the
sentinel rather than equalling it); `getMaxDistance` ignores all these
over-sentinel values and returns `0`; and the normalized field is
uniformly `0` through the `maxDist > 0` guard. -/
theorem no_boundary_scenario (bnd : ℕ → Bool) (sqrt : ℚ → ℚ) (w h fuel : ℕ)
    (hbnd : ∀ i, bnd i = false) (hw : 0 < w) (hh : 0 < h) (hsqrt0 : sqrt 0 = 0)
    (st : FillState) (cnt : ℕ)
    (hrun : fillRegions bnd w h fuel = some (st, cnt)) :
    cnt = 1 ∧
    (∀ i, i < w * h → st.assign i = some 0) ∧
    (∀ x y, x < w → y < h →
      calculateDistanceField bnd w h x y = (INF + (y : ℚ)) * (INF + (y : ℚ))) ∧
    getMaxDistance sqrt (distanceFieldOf bnd w h) = 0 ∧
    (∀ i, (normalizeDistanceField sqrt (distanceFieldOf bnd w h)).data i = 0) := by
  have hwh : 0 < w * h := Nat.mul_pos hw hh
  have hdata : ∀ i, i < w * h → ¬ (distanceFieldOf bnd w h).data i < INF := by
    intro i hi
    show ¬ calculateDistanceField bnd w h (i % w) (i / w) < INF
    rw [calcDF_no_boundary bnd hbnd w h (i % w) (i / w) hw (Nat.mod_lt i hw)
      ((Nat.div_lt_iff_lt_mul hw).2 (by rw [Nat.mul_comm]; exact hi)), not_lt]
    have hq : (0 : ℚ) ≤ ((i / w : ℕ) : ℚ) := Nat.cast_nonneg _
    have hI : (0 : ℚ) ≤ INF := by norm_num [INF]
    calc INF ≤ INF * INF := by norm_num [INF]
      _ ≤ (INF + ((i / w : ℕ) : ℚ)) * (INF + ((i / w : ℕ) : ℚ)) := by nlinarith
  have hmax : getMaxDistance sqrt (distanceFieldOf bnd w h) = 0 := by
    show sqrt (getMaxAcc (distanceFieldOf bnd w h).data (w * h)) = 0
    rw [getMaxAcc_zero (distanceFieldOf bnd w h).data (w * h) hdata]
    exact hsqrt0
  have hnorm : ∀ i, (normalizeDistanceField sqrt (distanceFieldOf bnd w h)).data i = 0 := by
    intro i
    show (if 0 < getMaxDistance sqrt (distanceFieldOf bnd w h) ∧
        i < (distanceFieldOf bnd w h).width * (distanceFieldOf bnd w h).height then
        sqrt ((distanceFieldOf bnd w h).data i) / getMaxDistance sqrt (distanceFieldOf bnd w h)
      else 0) = 0
    rw [if_neg]
    intro hc
    rw [hmax] at hc
    exact lt_irrefl 0 hc.1
  obtain ⟨N, hN⟩ : ∃ N, w * h = N + 1 := ⟨w * h - 1, by omega⟩
  unfold fillRegions at hrun
  rw [hN] at hrun
  set st0 : FillState :=
    { visited := fun i => decide (i < N + 1) && bnd i, assign := fun _ => none } with hst0
  have hstep : fillRegionsAux w h fuel (N + 1) 0 0 st0 =
      if 0 < w * h then
        (if st0.visited 0 then fillRegionsAux w h fuel N 1 0 st0
         else
           match fillRegionWithSDF w h (0 % w) (0 / w) 0 fuel st0 with
           | none => none
           | some st2 => fillRegionsAux w h fuel N 1 1 st2)
      else some (st0, 0) := rfl
  rw [hstep, if_pos hwh] at hrun
  have hv00 : st0.visited 0 = false := by
    show (decide (0 < N + 1) && bnd 0) = false
    rw [hbnd 0]
    simp
  rw [if_neg (by rw [hv00]; simp)] at hrun
  rw [Nat.zero_mod, Nat.zero_div] at hrun
  cases hfill : fillRegionWithSDF w h 0 0 0 fuel st0 with
  | none =>
    rw [hfill] at hrun
    exact absurd hrun (by simp)
  | some st1 =>
    rw [hfill] at hrun
    have hrun' : fillRegionsAux w h fuel N 1 1 st1 = some (st, cnt) := hrun
    have hv000 : st0.visited (0 * w + 0) = false := by
      rw [show (0 * w + 0 : ℕ) = 0 from by omega]
      exact hv00
    obtain ⟨hInv, hseedvis, hcomp⟩ :=
      fillRegionWithSDF_correct w h 0 0 0 fuel hw st0 st1 hw hh hv000 hfill
    obtain ⟨hmono, _, _, hvischar, _, _⟩ := hInv
    have hfree : ∀ x y, x < w → y < h → (fun i => st0.visited i = false) (y * w + x) := by
      intro x y hx hy2
      show (decide (y * w + x < N + 1) && bnd (y * w + x)) = false
      rw [hbnd]
      simp
    have hallvis : ∀ i, i < w * h → st1.visited i = true := by
      intro i hi
      have hconn := conn_all_free w h (fun i => st0.visited i = false) hfree hw hh
        (i % w) (i / w) (Nat.mod_lt i hw)
        ((Nat.div_lt_iff_lt_mul hw).2 (by rw [Nat.mul_comm]; exact hi))
      have hv1 := hcomp (i % w) (i / w) hconn
      rw [show i / w * w + i % w = i from by
        rw [Nat.mul_comm]; exact Nat.div_add_mod i w] at hv1
      exact hv1
    have hallassign : ∀ i, i < w * h → st1.assign i = some 0 := by
      intro i hi
      rcases hvischar i (hallvis i hi) with hv0 | ha
      · have hf : st0.visited i = false := by
          show (decide (i < N + 1) && bnd i) = false
          rw [hbnd]
          simp
        rw [hf] at hv0
        exact Bool.noConfusion hv0
      · exact ha
    rw [fillRegionsAux_all_visited w h fuel N 1 1 st1 hallvis] at hrun'
    have he : (some (st1, 1) : Option (FillState × ℕ)) = some (st, cnt) := hrun'
    have he1 : st1 = st := congrArg Prod.fst (Option.some.inj he)
    have he2 : (1 : ℕ) = cnt := congrArg Prod.snd (Option.some.inj he)
    refine ⟨he2.symm, ?_, ?_, hmax, hnorm⟩
    · intro i hi
      rw [← he1]
      exact hallassign i hi
    · intro x y hx hy2
      exact calcDF_no_boundary bnd hbnd w h x y hw hx hy2

theorem no_boundary_scenario_witness :
    ∃ st cnt, fillRegions (fun _ => false) 1 1 9 = some (st, cnt) ∧ cnt = 1 ∧
      st.assign 0 = some 0 ∧
      getMaxDistance (fun q => q) (distanceFieldOf (fun _ => false) 1 1) = 0 ∧
      (normalizeDistanceField (fun q => q) (distanceFieldOf (fun _ => false) 1 1)).data 0 = 0 := by
  have hsome : (fillRegions (fun _ => false) 1 1 9).isSome = true := by rfl
  obtain ⟨⟨st, cnt⟩, hrun⟩ := Option.isSome_iff_exists.1 hsome
  obtain ⟨hcnt, hassign, hdt, hmax, hnorm⟩ :=
    no_boundary_scenario (fun _ => false) (fun q => q) 1 1 9 (fun _ => rfl)
      (by norm_num) (by norm_num) rfl st cnt hrun
  exact ⟨st, cnt, hrun, hcnt, hassign 0 (by norm_num), hmax, hnorm 0⟩

end Cue
